import Mathlib

/-!
Undo/redo history of the text editor.

Shallow embedding of `src/src/undoredostack.cpp` and `src/include/undoredostack.h`.

Modelling conventions:
* `int` and `long` values are `Int`.  Signed overflow is undefined in C++, so the
  model describes the executions in which no arithmetic overflows.
* A `QString` is a `String`; `QString::length` is `String.length` (one `Char` per
  `QChar`).
* `QStack<T>` is a `QVector<T>`: a `List` in vector order, index 0 at the bottom,
  the top of the stack last.
* Signals (`updateSignals`) carry no state and are omitted.
* The creation time read by the `EditCommand` constructor
  (`QDateTime::currentMSecsSinceEpoch()`) is an explicit argument.
* `QVector::removeFirst` on an empty vector is outside its contract
  (`Q_ASSERT(!isEmpty())`); the model reports it as `none`.
-/

namespace UndoRedo

/-- Enumeration `EditCommand::Type`. -/
inductive CommandType where
  | Insert
  | Delete
  | Replace
  | Format
deriving DecidableEq, Repr

/-- Class `EditCommand`: the five private fields. -/
structure EditCommand where
  commandType : CommandType
  commandPos : Int
  commandText : String
  commandLength : Int
  commandTimestamp : Int
deriving DecidableEq, Repr

/-- The value `EditCommand(EditCommand::Insert, 0, "")` built at clock reading `now`
(`length` takes its default 0). -/
def sentinel (now : Int) : EditCommand :=
  { commandType := CommandType.Insert, commandPos := 0, commandText := "",
    commandLength := 0, commandTimestamp := now }

/-- Method `EditCommand::canMerge`. -/
def EditCommand.canMerge (self other : EditCommand) : Bool :=
  decide (self.commandType = other.commandType) &&
    decide (self.commandPos + (self.commandText.length : Int) = other.commandPos)

/-- Method `EditCommand::merge`. -/
def EditCommand.merge (self other : EditCommand) : EditCommand :=
  if self.canMerge other then
    { self with commandText := self.commandText ++ other.commandText }
  else self

/-- Class `UndoRedoStack`: the seven private fields. -/
structure UndoRedoStack where
  undoStack : List EditCommand
  redoStack : List EditCommand
  maxStackSize : Int
  mergeTimeout : Int
  mergingEnabled : Bool
  lastCommandTime : Int
  commandCount : Int
deriving DecidableEq, Repr

/-- Constructor `UndoRedoStack::UndoRedoStack`. -/
def UndoRedoStack.fresh : UndoRedoStack :=
  { undoStack := [], redoStack := [], maxStackSize := 500, mergeTimeout := 500,
    mergingEnabled := true, lastCommandTime := 0, commandCount := 0 }

/-- Query `canUndo`. -/
def UndoRedoStack.canUndo (s : UndoRedoStack) : Bool := !s.undoStack.isEmpty

/-- Query `canRedo`. -/
def UndoRedoStack.canRedo (s : UndoRedoStack) : Bool := !s.redoStack.isEmpty

/-- Query `undoCount`. -/
def UndoRedoStack.undoCount (s : UndoRedoStack) : Int := s.undoStack.length

/-- Query `redoCount`. -/
def UndoRedoStack.redoCount (s : UndoRedoStack) : Int := s.redoStack.length

/-- Query `getCommandCount`. -/
def UndoRedoStack.getCommandCount (s : UndoRedoStack) : Int := s.commandCount

/-- Setter `setMaxStackSize`. -/
def UndoRedoStack.setMaxStackSize (s : UndoRedoStack) (maxSize : Int) : UndoRedoStack :=
  { s with maxStackSize := maxSize }

/-- Setter `setMergeTimeout`. -/
def UndoRedoStack.setMergeTimeout (s : UndoRedoStack) (ms : Int) : UndoRedoStack :=
  { s with mergeTimeout := ms }

/-- Setter `setMergeEnabled`. -/
def UndoRedoStack.setMergeEnabled (s : UndoRedoStack) (enabled : Bool) : UndoRedoStack :=
  { s with mergingEnabled := enabled }

/-- The loop of `UndoRedoStack::trimStack` on the undo vector: while the size exceeds
`maxStackSize`, remove the first element.  `none` when `removeFirst` is reached on an
empty vector (only possible for a negative `maxStackSize`). -/
def trimStack (maxStackSize : Int) : List EditCommand → Option (List EditCommand)
  | [] => if (0 : Int) > maxStackSize then none else some []
  | c :: cs =>
    if (((c :: cs).length : Nat) : Int) > maxStackSize then trimStack maxStackSize cs
    else some (c :: cs)

/-- The guard of the merge branch of `UndoRedoStack::push`, lines 37-42: merging is
enabled, the undo stack is not empty, the time difference is below `mergeTimeout`
and the top entry can merge the command. -/
def UndoRedoStack.mergeGuard (s : UndoRedoStack) (command : EditCommand) : Bool :=
  s.mergingEnabled &&
    match s.undoStack.getLast? with
    | none => false
    | some top =>
      decide (command.commandTimestamp - s.lastCommandTime < s.mergeTimeout) &&
        top.canMerge command

/-- Method `UndoRedoStack::push`. -/
def UndoRedoStack.push (s : UndoRedoStack) (command : EditCommand) : Option UndoRedoStack :=
  let s1 := { s with redoStack := [] }
  if s1.mergeGuard command then
    match s1.undoStack.getLast? with
    | some top =>
      some { s1 with undoStack := s1.undoStack.dropLast ++ [top.merge command],
                     lastCommandTime := command.commandTimestamp }
    | none => some s1
  else
    match trimStack s1.maxStackSize (s1.undoStack ++ [command]) with
    | some trimmed =>
      some { s1 with undoStack := trimmed,
                     lastCommandTime := command.commandTimestamp,
                     commandCount := s1.commandCount + 1 }
    | none => none

/-- Method `UndoRedoStack::undo`; `now` is the clock reading used if the sentinel is
built. -/
def UndoRedoStack.undo (now : Int) (s : UndoRedoStack) : EditCommand × UndoRedoStack :=
  match s.undoStack.getLast? with
  | none => (sentinel now, s)
  | some command =>
    (command, { s with undoStack := s.undoStack.dropLast,
                       redoStack := s.redoStack ++ [command] })

/-- Method `UndoRedoStack::redo`; `now` is the clock reading used if the sentinel is
built. -/
def UndoRedoStack.redo (now : Int) (s : UndoRedoStack) : EditCommand × UndoRedoStack :=
  match s.redoStack.getLast? with
  | none => (sentinel now, s)
  | some command =>
    (command, { s with redoStack := s.redoStack.dropLast,
                       undoStack := s.undoStack ++ [command] })

/-- Method `UndoRedoStack::clear`. -/
def UndoRedoStack.clear (s : UndoRedoStack) : UndoRedoStack :=
  { s with undoStack := [], redoStack := [], lastCommandTime := 0, commandCount := 0 }

/-- Method `UndoRedoStack::describeCommand`.  `QString::arg` fills the lowest-numbered
place marker: the first call writes the position in decimal into `%1` (no `%` is
introduced), the second call fills `%2`. -/
def describeCommand (cmd : EditCommand) : String :=
  match cmd.commandType with
  | CommandType.Insert =>
    "Insert at pos " ++ toString cmd.commandPos ++ ": '" ++ cmd.commandText ++ "'"
  | CommandType.Delete =>
    "Delete at pos " ++ toString cmd.commandPos ++ ": " ++ toString cmd.commandLength ++ " chars"
  | CommandType.Replace =>
    "Replace at pos " ++ toString cmd.commandPos ++ ": '" ++ cmd.commandText ++ "'"
  | CommandType.Format =>
    "Format at pos " ++ toString cmd.commandPos

/-- Method `UndoRedoStack::getCommandDescription`. -/
def UndoRedoStack.getCommandDescription (s : UndoRedoStack) (index : Int) : String :=
  if index < 0 ∨ index ≥ (s.undoStack.length : Int) then ""
  else
    match s.undoStack[((s.undoStack.length : Int) - 1 - index).toNat]? with
    | some cmd => describeCommand cmd
    | none => ""

/-- Successive `push` calls, one per command, in list order. -/
def pushAll : UndoRedoStack → List EditCommand → Option UndoRedoStack
  | s, [] => some s
  | s, c :: cs =>
    match s.push c with
    | some s1 => pushAll s1 cs
    | none => none

/-- No `push` of the sequence takes the merge branch. -/
def noMerge : UndoRedoStack → List EditCommand → Bool
  | _, [] => true
  | s, c :: cs =>
    !s.mergeGuard c &&
      match s.push c with
      | some s1 => noMerge s1 cs
      | none => false

/-- Successive `undo` calls, one per clock reading; the commands returned, in call
order, and the final state. -/
def undoMany : List Int → UndoRedoStack → List EditCommand × UndoRedoStack
  | [], s => ([], s)
  | now :: nows, s =>
    let r := s.undo now
    let rest := undoMany nows r.2
    (r.1 :: rest.1, rest.2)

/-- Successive `redo` calls, one per clock reading; the commands returned, in call
order, and the final state. -/
def redoMany : List Int → UndoRedoStack → List EditCommand × UndoRedoStack
  | [], s => ([], s)
  | now :: nows, s =>
    let r := s.redo now
    let rest := redoMany nows r.2
    (r.1 :: rest.1, rest.2)

/-- One call of the public interface that changes the state. -/
inductive Op where
  | push (command : EditCommand)
  | undo (now : Int)
  | redo (now : Int)
  | clear
  | setMaxStackSize (maxSize : Int)
  | setMergeTimeout (ms : Int)
  | setMergeEnabled (enabled : Bool)
deriving DecidableEq, Repr

/-- Effect of one call on the state. -/
def applyOp (s : UndoRedoStack) : Op → Option UndoRedoStack
  | Op.push command => s.push command
  | Op.undo now => some (s.undo now).2
  | Op.redo now => some (s.redo now).2
  | Op.clear => some s.clear
  | Op.setMaxStackSize maxSize => some (s.setMaxStackSize maxSize)
  | Op.setMergeTimeout ms => some (s.setMergeTimeout ms)
  | Op.setMergeEnabled enabled => some (s.setMergeEnabled enabled)

/-- Effect of a sequence of calls. -/
def run : UndoRedoStack → List Op → Option UndoRedoStack
  | s, [] => some s
  | s, op :: ops =>
    match applyOp s op with
    | some s1 => run s1 ops
    | none => none

/-- The call is not a `setMaxStackSize(m)` with `m < undoCount() + redoCount()`. -/
def roomyOp (s : UndoRedoStack) : Op → Bool
  | Op.setMaxStackSize maxSize => decide (s.undoCount + s.redoCount ≤ maxSize)
  | _ => true

/-- Every `setMaxStackSize(m)` call of the sequence is made in a state with
`undoCount() + redoCount() <= m` (the sequence is followed as far as its calls
complete). -/
def roomy : UndoRedoStack → List Op → Bool
  | _, [] => true
  | s, op :: ops =>
    roomyOp s op &&
      match applyOp s op with
      | some s1 => roomy s1 ops
      | none => true

/-- The call is one of `push`, `undo`, `redo` and `clear`. -/
def plainOp : Op → Bool
  | Op.push _ => true
  | Op.undo _ => true
  | Op.redo _ => true
  | Op.clear => true
  | _ => false

end UndoRedo

/-!
Search and replace.

Shallow embedding of `src/src/searchreplace.cpp` and `src/include/searchreplace.h`.

Modelling conventions:
* A text (`QString`) is handled as the list of its characters, one `Char` per `QChar`;
  offsets into a text and counters, which are never negative here, are `Nat`.
* `Editor` (a `QPlainTextEdit`) is the text returned by `toPlainText()` and the position
  of its text cursor; a null `Editor *` is `none`.
* `QRegularExpression` is interpreted here for the patterns made only of ordinary
  characters, backslash-escaped metacharacters and `\b`; these include every pattern
  that the code builds from a literal query.  For all other patterns the behaviour of
  the regular-expression library is a parameter (`RegexLibrary`).
* Word characters for `\b` are the ASCII letters, digits and the underscore (the
  pattern option `UseUnicodePropertiesOption` is never set).
* Signals and the `currentEditor` pointer (only handed to `clearHighlights`, which has
  an empty body) carry no state that is read and are omitted.
-/

namespace Search

/-- Flags `SearchReplace::SearchOptions`: one field per bit of `SearchOption`. -/
structure SearchOptions where
  caseSensitive : Bool
  wholeWord : Bool
  useRegex : Bool
  searchSelection : Bool
deriving DecidableEq, Repr

/-- Struct `SearchResult`. -/
structure SearchResult where
  lineNumber : Nat
  columnNumber : Nat
  matchedText : List Char
  startPosition : Nat
  endPosition : Nat
deriving DecidableEq, Repr

/-- The part of `Editor` that the search code reads and writes: `toPlainText()` and
`textCursor().position()`. -/
structure Editor where
  plainText : List Char
  cursorPosition : Nat
deriving DecidableEq, Repr

/-- Class `QTextCursor`: anchor and position of a cursor on a document. -/
structure QTextCursor where
  anchor : Nat
  position : Nat
deriving DecidableEq, Repr

/-- Method `QTextCursor::setPosition(pos, mode)`: a position beyond the end of the
document is ignored; `keepAnchor` is `QTextCursor::KeepAnchor`. -/
def QTextCursor.setPosition (document : List Char) (cursor : QTextCursor) (pos : Nat)
    (keepAnchor : Bool) : QTextCursor :=
  if pos > document.length then cursor
  else if keepAnchor then { cursor with position := pos }
  else { anchor := pos, position := pos }

/-- Method `QTextCursor::insertText`: the selection is replaced by the text and the
cursor is left, without selection, behind the inserted text. -/
def QTextCursor.insertText (document : List Char) (cursor : QTextCursor) (text : List Char) :
    List Char × QTextCursor :=
  let first := min cursor.anchor cursor.position
  let last := max cursor.anchor cursor.position
  (document.take first ++ text ++ document.drop last,
    { anchor := first + text.length, position := first + text.length })

/-- Method `QString::replace(position, n, after)`. -/
def replaceAt (str : List Char) (position n : Nat) (after : List Char) : List Char :=
  if position > str.length then str
  else str.take position ++ after ++ str.drop (position + n)

/-- Method `QString::replace(before, after)` for a one-character `before`: every
occurrence of the character is replaced. -/
def replaceChar (before : Char) (after : List Char) (str : List Char) : List Char :=
  str.flatMap fun c => if c = before then after else [c]

/-- Method `SearchReplace::escapeRegexSpecialChars`: the fourteen replacements in
source order. -/
def escapeRegexSpecialChars (text : List Char) : List Char :=
  let escaped := text
  let escaped := replaceChar '\\' ['\\', '\\'] escaped
  let escaped := replaceChar '.' ['\\', '.'] escaped
  let escaped := replaceChar '^' ['\\', '^'] escaped
  let escaped := replaceChar '$' ['\\', '$'] escaped
  let escaped := replaceChar '*' ['\\', '*'] escaped
  let escaped := replaceChar '+' ['\\', '+'] escaped
  let escaped := replaceChar '?' ['\\', '?'] escaped
  let escaped := replaceChar '\x7b' ['\\', '\x7b'] escaped
  let escaped := replaceChar '\x7d' ['\\', '\x7d'] escaped
  let escaped := replaceChar '[' ['\\', '['] escaped
  let escaped := replaceChar ']' ['\\', ']'] escaped
  let escaped := replaceChar '(' ['\\', '('] escaped
  let escaped := replaceChar ')' ['\\', ')'] escaped
  let escaped := replaceChar '|' ['\\', '|'] escaped
  escaped

/-- The regular-expression metacharacters. -/
def metaChars : List Char :=
  ['\\', '.', '^', '$', '*', '+', '?', '\x7b', '\x7d', '[', ']', '(', ')', '|']

/-- Behaviour of the regular-expression library that is not interpreted here: the
case folding of caseless matching, and validity and matching of the patterns outside
the interpreted fragment.  `exec pattern caseless subject offset anchoredNotEmpty`
is the first match at or after `offset` as `(start, end)`; with `anchoredNotEmpty` the
match must start at `offset` and be non-empty. -/
structure RegexLibrary where
  fold : Char → Char
  isValid : List Char → Bool
  exec : List Char → Bool → List Char → Nat → Bool → Option (Nat × Nat)

/-- The library that knows ASCII case folding and rejects every pattern outside the
interpreted fragment. -/
def RegexLibrary.literalOnly : RegexLibrary :=
  { fold := Char.toLower, isValid := fun _ => false, exec := fun _ _ _ _ _ => none }

/-- The library whose case folding lowers the ASCII capitals and, as Unicode case
folding does, maps U+212A KELVIN SIGN to `k` and U+017F LATIN SMALL LETTER LONG S to
`s`; it rejects every pattern outside the interpreted fragment. -/
def RegexLibrary.unicodeFold : RegexLibrary :=
  { fold := fun c =>
      if c = Char.ofNat 0x212A then 'k' else if c = Char.ofNat 0x17F then 's' else c.toLower,
    isValid := fun _ => false,
    exec := fun _ _ _ _ _ => none }

/-- Element of an interpreted pattern: a character to match, or the assertion `\b`. -/
inductive Atom where
  | lit (c : Char)
  | wordBoundary
deriving DecidableEq, Repr

/-- Reading of a pattern of the interpreted fragment; `escaped` tells that the
previous character was an unconsumed backslash.  A backslash followed by a
metacharacter is that character, `\b` is the word boundary, a character that is not a
metacharacter is itself; anything else is outside the fragment (`none`). -/
def parseAtoms : Bool → List Char → Option (List Atom)
  | false, [] => some []
  | true, [] => none
  | false, c :: rest =>
    if c = '\\' then parseAtoms true rest
    else if c ∈ metaChars then none
    else (parseAtoms false rest).map fun atoms => Atom.lit c :: atoms
  | true, c :: rest =>
    if c = 'b' then (parseAtoms false rest).map fun atoms => Atom.wordBoundary :: atoms
    else if c ∈ metaChars then (parseAtoms false rest).map fun atoms => Atom.lit c :: atoms
    else none

/-- Word characters of `\b` and `\w` without Unicode properties. -/
def isWordChar (c : Char) : Bool := c.isAlphanum || c == '_'

/-- There is a word character at index `i` of the subject. -/
def wordAt (subject : List Char) (i : Nat) : Bool :=
  match subject[i]? with
  | some c => isWordChar c
  | none => false

/-- The assertion `\b` at offset `p`: exactly one of the characters before and after
`p` is a word character (the ends of the subject count as non-word). -/
def isWordBoundary (subject : List Char) (p : Nat) : Bool :=
  (if p = 0 then false else wordAt subject (p - 1)) != wordAt subject p

/-- Comparison of a pattern character with a subject character. -/
def charMatches (fold : Char → Char) (caseless : Bool) (c d : Char) : Bool :=
  if caseless then fold c == fold d else c == d

/-- Match of the atoms at offset `p` of the subject; the end offset of the match. -/
def matchAtoms (fold : Char → Char) (caseless : Bool) (subject : List Char) :
    List Atom → Nat → Option Nat
  | [], p => some p
  | Atom.lit c :: rest, p =>
    match subject[p]? with
    | some d => if charMatches fold caseless c d then matchAtoms fold caseless subject rest (p + 1)
                else none
    | none => none
  | Atom.wordBoundary :: rest, p =>
    if isWordBoundary subject p then matchAtoms fold caseless subject rest p else none

/-- Leftmost match among the `count` start offsets `p, p + 1, ...`. -/
def searchFrom (matchAt : Nat → Option Nat) : Nat → Nat → Option (Nat × Nat)
  | 0, _ => none
  | count + 1, p =>
    match matchAt p with
    | some e => some (p, e)
    | none => searchFrom matchAt count (p + 1)

/-- Matching of an interpreted pattern from `offset`. -/
def execAtoms (fold : Char → Char) (caseless : Bool) (subject : List Char)
    (atoms : List Atom) (offset : Nat) (anchoredNotEmpty : Bool) : Option (Nat × Nat) :=
  if offset > subject.length then none
  else if anchoredNotEmpty then
    match matchAtoms fold caseless subject atoms offset with
    | some e => if offset < e then some (offset, e) else none
    | none => none
  else searchFrom (matchAtoms fold caseless subject atoms) (subject.length + 1 - offset) offset

/-- Class `QRegularExpression`: the pattern and whether `CaseInsensitiveOption` is
set. -/
structure QRegularExpression where
  pattern : List Char
  caseless : Bool
deriving DecidableEq, Repr

/-- Method `QRegularExpression::isValid`. -/
def QRegularExpression.isValid (lib : RegexLibrary) (regex : QRegularExpression) : Bool :=
  match parseAtoms false regex.pattern with
  | some _ => true
  | none => lib.isValid regex.pattern

/-- One call of the matching engine on a subject. -/
def QRegularExpression.exec (lib : RegexLibrary) (regex : QRegularExpression)
    (subject : List Char) (offset : Nat) (anchoredNotEmpty : Bool) : Option (Nat × Nat) :=
  match parseAtoms false regex.pattern with
  | some atoms => execAtoms lib.fold regex.caseless subject atoms offset anchoredNotEmpty
  | none => lib.exec regex.pattern regex.caseless subject offset anchoredNotEmpty

/-- Method `QRegularExpression::match(subject, offset)`: `(capturedStart, capturedEnd)`
of the first match at or after `offset`, `none` when `hasMatch()` is false. -/
def QRegularExpression.matchFrom (lib : RegexLibrary) (regex : QRegularExpression)
    (subject : List Char) (offset : Nat) : Option (Nat × Nat) :=
  regex.exec lib subject offset false

/-- The iteration of `QRegularExpressionMatchIterator`: each next match is sought from
the end of the previous one; after an empty match the engine first tries a non-empty
match anchored at that offset and otherwise searches from one character further. -/
def globalMatchAux (exec : Nat → Bool → Option (Nat × Nat)) :
    Nat → Nat → Bool → List (Nat × Nat)
  | 0, _, _ => []
  | fuel + 1, offset, previousEmpty =>
    let found :=
      if previousEmpty then
        match exec offset true with
        | some m => some m
        | none => exec (offset + 1) false
      else exec offset false
    match found with
    | none => []
    | some m => m :: globalMatchAux exec fuel m.2 (m.1 == m.2)

/-- Method `QRegularExpression::globalMatch(subject)` read to its end: the
`(capturedStart, capturedEnd)` of the successive matches.  The iteration bound
`2 * length + 2` is never reached by an engine whose matches lie at or after the
offset and inside the subject. -/
def QRegularExpression.globalMatch (lib : RegexLibrary) (regex : QRegularExpression)
    (subject : List Char) : List (Nat × Nat) :=
  globalMatchAux (regex.exec lib subject) (2 * subject.length + 2) 0 false

/-- The line and column loop of `findAll`, lines 240-254: over the characters before
`capturedStart`, a newline starts a new line at column 0, any other character advances
the column. -/
def lineColumn (documentText : List Char) (capturedStart : Nat) : Nat × Nat :=
  (documentText.take capturedStart).foldl
    (fun lc ch => if ch = '\n' then (lc.1 + 1, 0) else (lc.1, lc.2 + 1)) (0, 0)

/-- The body of the loop of `findAll`, lines 237-263, for a match with the given
`(capturedStart, capturedEnd)`; `captured()` is the matched part of the subject. -/
def makeResult (documentText : List Char) (m : Nat × Nat) : SearchResult :=
  { lineNumber := (lineColumn documentText m.1).1,
    columnNumber := (lineColumn documentText m.1).2,
    matchedText := (documentText.drop m.1).take (m.2 - m.1),
    startPosition := m.1,
    endPosition := m.2 }

/-- The pattern construction of `findAll`, lines 210-227: the query is escaped unless
`UseRegex` is set, wrapped as `\\b%1\\b` when `WholeWord` is set, and the expression
is caseless unless `CaseSensitive` is set. -/
def findAllRegex (searchText : List Char) (options : SearchOptions) : QRegularExpression :=
  let searchPattern := searchText
  let searchPattern :=
    if !options.useRegex then escapeRegexSpecialChars searchText else searchPattern
  let searchPattern :=
    if options.wholeWord then ['\\', 'b'] ++ searchPattern ++ ['\\', 'b'] else searchPattern
  { pattern := searchPattern, caseless := !options.caseSensitive }

/-- The pattern construction of `replace`, lines 144-155: the query is escaped unless
`UseRegex` is set, and the expression is caseless unless `CaseSensitive` is set. -/
def replaceRegex (searchText : List Char) (options : SearchOptions) : QRegularExpression :=
  let searchPattern := searchText
  let searchPattern :=
    if !options.useRegex then escapeRegexSpecialChars searchText else searchPattern
  { pattern := searchPattern, caseless := !options.caseSensitive }

/-- Method `SearchReplace::findAll`. -/
def findAll (lib : RegexLibrary) (editor : Option Editor) (searchText : List Char)
    (options : SearchOptions) : List SearchResult :=
  match editor with
  | none => []
  | some ed =>
    if searchText.isEmpty then []
    else
      let documentText := ed.plainText
      let regex := findAllRegex searchText options
      if !regex.isValid lib then []
      else
        (regex.globalMatch lib documentText).map (makeResult documentText)

/-- Class `SearchReplace`: the fields that are read (`currentEditor` apart). -/
structure SearchReplace where
  searchOptions : SearchOptions
  currentResult : SearchResult
  totalMatches : Nat
  currentMatchIndex : Nat
  lastSearchText : List Char
deriving DecidableEq, Repr

/-- Method `SearchReplace::find`: the value returned and the new state. -/
def SearchReplace.find (lib : RegexLibrary) (self : SearchReplace) (editor : Option Editor)
    (searchText : List Char) (options : SearchOptions) : Bool × SearchReplace :=
  match editor with
  | none => (false, self)
  | some ed =>
    if searchText.isEmpty then (false, self)
    else
      let self := { self with searchOptions := options, lastSearchText := searchText,
                              totalMatches := 0 }
      let results := findAll lib (some ed) searchText options
      match results.head? with
      | none => (false, self)
      | some first =>
        (true, { self with totalMatches := results.length, currentResult := first })

/-- Method `SearchReplace::findNext`: the value returned and the new state. -/
def SearchReplace.findNext (lib : RegexLibrary) (self : SearchReplace)
    (editor : Option Editor) : Bool × SearchReplace :=
  match editor with
  | none => (false, self)
  | some ed =>
    if self.lastSearchText.isEmpty then (false, self)
    else
      let results := findAll lib (some ed) self.lastSearchText self.searchOptions
      if results.isEmpty then (false, self)
      else
        let currentPos := ed.cursorPosition
        match results.find? fun result => decide (result.startPosition > currentPos) with
        | some result => (true, { self with currentResult := result })
        | none =>
          match results.head? with
          | some first => (true, { self with currentResult := first })
          | none => (false, self)

/-- Method `SearchReplace::findPrevious`: the value returned and the new state. -/
def SearchReplace.findPrevious (lib : RegexLibrary) (self : SearchReplace)
    (editor : Option Editor) : Bool × SearchReplace :=
  match editor with
  | none => (false, self)
  | some ed =>
    if self.lastSearchText.isEmpty then (false, self)
    else
      let results := findAll lib (some ed) self.lastSearchText self.searchOptions
      if results.isEmpty then (false, self)
      else
        let currentPos := ed.cursorPosition
        match results.reverse.find? fun result => decide (result.startPosition < currentPos) with
        | some result => (true, { self with currentResult := result })
        | none =>
          match results.getLast? with
          | some last => (true, { self with currentResult := last })
          | none => (false, self)

/-- Method `SearchReplace::replace`: the value returned and the editor afterwards. -/
def replace (lib : RegexLibrary) (editor : Option Editor) (searchText replaceText : List Char)
    (options : SearchOptions) : Bool × Option Editor :=
  match editor with
  | none => (false, none)
  | some ed =>
    if searchText.isEmpty then (false, some ed)
    else
      let cursor : QTextCursor := { anchor := ed.cursorPosition, position := ed.cursorPosition }
      let documentText := ed.plainText
      let regex := replaceRegex searchText options
      if regex.isValid lib then
        match regex.matchFrom lib documentText cursor.position with
        | some m =>
          let cursor := cursor.setPosition documentText m.1 false
          let cursor := cursor.setPosition documentText m.2 true
          let edited := cursor.insertText documentText replaceText
          (true, some { plainText := edited.1, cursorPosition := edited.2.position })
        | none => (false, some ed)
      else (false, some ed)

/-- Method `SearchReplace::replaceAll`: the value returned and the editor afterwards
(`setPlainText` puts the cursor at the start of the document). -/
def replaceAll (lib : RegexLibrary) (editor : Option Editor)
    (searchText replaceText : List Char) (options : SearchOptions) : Nat × Option Editor :=
  match editor with
  | none => (0, none)
  | some ed =>
    if searchText.isEmpty then (0, some ed)
    else
      let results := findAll lib (some ed) searchText options
      if results.isEmpty then (0, some ed)
      else
        let documentText := ed.plainText
        let result :=
          results.reverse.foldl
            (fun acc r => replaceAt acc r.startPosition (r.endPosition - r.startPosition)
              replaceText)
            documentText
        (results.length, some { plainText := result, cursorPosition := 0 })

/-- Number of characters that a match of the atoms spans. -/
def litCount : List Atom → Nat
  | [] => 0
  | Atom.lit _ :: rest => litCount rest + 1
  | Atom.wordBoundary :: rest => litCount rest

/-- The character under which a character is compared: its case folding in caseless
matching, the character itself otherwise. -/
def compareKey (fold : Char → Char) (caseless : Bool) (c : Char) : Char :=
  if caseless then fold c else c

/-- The query occurs at offset `p` of the text: the `length query` characters from
`p` on exist and equal those of the query, up to case folding when `caseless`. -/
def occursAt (fold : Char → Char) (caseless : Bool) (text query : List Char) (p : Nat) : Bool :=
  decide (((text.drop p).take query.length).map (compareKey fold caseless)
    = query.map (compareKey fold caseless))

/-- What is assumed of the library on the patterns it is asked about: a match lies at
or after the offset and inside the subject, and an anchored non-empty match starts at
the offset and is not empty. -/
def RegexLibrary.Sound (lib : RegexLibrary) : Prop :=
  ∀ (pattern : List Char) (caseless : Bool) (subject : List Char) (offset : Nat)
    (anchoredNotEmpty : Bool) (s e : Nat),
    lib.exec pattern caseless subject offset anchoredNotEmpty = some (s, e) →
      offset ≤ s ∧ s ≤ e ∧ e ≤ subject.length ∧ (anchoredNotEmpty = true → s = offset ∧ s < e)

/-- The property `RegexLibrary.Sound` for one matching function on a subject of length
`len`. -/
def SoundExec (exec : Nat → Bool → Option (Nat × Nat)) (len : Nat) : Prop :=
  ∀ (offset : Nat) (anchoredNotEmpty : Bool) (s e : Nat),
    exec offset anchoredNotEmpty = some (s, e) →
      offset ≤ s ∧ s ≤ e ∧ e ≤ len ∧ (anchoredNotEmpty = true → s = offset ∧ s < e)

/-- Simultaneous substitution of the spans `[s1, e1), [s2, e2), ...`, read from
offset `pos` on: `text[pos..s1) ++ repl ++ text[e1..s2) ++ repl ++ ... ++ text[en..]`. -/
def substituteSpans (text repl : List Char) : Nat → List (Nat × Nat) → List Char
  | pos, [] => text.drop pos
  | pos, (s, e) :: rest =>
    (text.drop pos).take (s - pos) ++ repl ++ substituteSpans text repl e rest

/-- Number of characters after the last newline of a text (all of them when there is
no newline). -/
def lastLineLength (text : List Char) : Nat :=
  (text.reverse.takeWhile fun ch => decide (ch ≠ '\n')).length

/-- The query occurs at offset `p` of the text as a whole word: it occurs there, the
character before `p`, if any, is not a word character, and neither is the character
after the occurrence, if any. -/
def wholeWordAt (fold : Char → Char) (caseless : Bool) (text query : List Char) (p : Nat) :
    Bool :=
  occursAt fold caseless text query p && (p == 0 || !wordAt text (p - 1)) &&
    !wordAt text (p + query.length)

end Search

/-!
Highlighting.

Shallow embedding of `src/src/syntaxhighlighter.cpp`, `src/include/syntaxhighlighter.h`
and of `Editor::setFileName` / `Editor::fileExtension` in `src/src/editor.cpp`.

Modelling conventions:
* Regular expressions are those of the search model (`Search.QRegularExpression` with a
  `Search.RegexLibrary`); a match on an invalid expression finds nothing.
* The part of `QSyntaxHighlighter` that `highlightBlock` works on is a `BlockContext`:
  the state of the previous block, the state of the current block and one
  `QTextCharFormat` per character of the block (`setFormat` writes into it).
* `rehighlight()` re-runs `highlightBlock` on the blocks of the document and changes
  nothing in the highlighter object; it is omitted.
* An `int` index whose value -1 means "not found" is an `Option Nat`.
-/

namespace Highlight

open Search (QRegularExpression RegexLibrary)

/-- The colours of `Qt::GlobalColor` that the themes use. -/
inductive GlobalColor where
  | blue
  | darkGreen
  | gray
  | darkMagenta
  | cyan
  | green
  | magenta
deriving DecidableEq, Repr

/-- The weights of `QFont::Weight` that the themes use. -/
inductive FontWeight where
  | Normal
  | Bold
deriving DecidableEq, Repr

/-- Class `QTextCharFormat`: the three properties that the themes set; `none` is a
property that is not set. -/
structure QTextCharFormat where
  foreground : Option GlobalColor
  fontWeight : Option FontWeight
  fontItalic : Option Bool
deriving DecidableEq, Repr

/-- The value `QTextCharFormat()`: no property set. -/
def QTextCharFormat.empty : QTextCharFormat :=
  { foreground := none, fontWeight := none, fontItalic := none }

/-- Method `QTextCharFormat::setForeground`. -/
def QTextCharFormat.setForeground (format : QTextCharFormat) (c : GlobalColor) :
    QTextCharFormat :=
  { format with foreground := some c }

/-- Method `QTextCharFormat::setFontWeight`. -/
def QTextCharFormat.setFontWeight (format : QTextCharFormat) (w : FontWeight) :
    QTextCharFormat :=
  { format with fontWeight := some w }

/-- Method `QTextCharFormat::setFontItalic`. -/
def QTextCharFormat.setFontItalic (format : QTextCharFormat) (italic : Bool) :
    QTextCharFormat :=
  { format with fontItalic := some italic }

/-- Struct `HighlightingRule`. -/
structure HighlightingRule where
  pattern : QRegularExpression
  format : QTextCharFormat
deriving DecidableEq, Repr

/-- Enumeration `SyntaxHighlighter::Language`. -/
inductive Language where
  | PlainText
  | CPlusPlus
  | Python
  | JavaScript
  | JSON
  | XML
  | HTML
  | CSS
  | SQL
deriving DecidableEq, Repr

/-- Enumerator `SyntaxHighlighter::Default`. -/
def stateDefault : Int := 0

/-- Enumerator `SyntaxHighlighter::InCppComment`. -/
def stateInCppComment : Int := 1

/-- Enumerator `SyntaxHighlighter::InPythonString`. -/
def stateInPythonString : Int := 2

/-- Enumerator `SyntaxHighlighter::InXmlComment`. -/
def stateInXmlComment : Int := 3

/-- Assignment `hash[key] = value` on a `QHash<QString, QTextCharFormat>`. -/
def hashSet (hash : List (String × QTextCharFormat)) (key : String) (value : QTextCharFormat) :
    List (String × QTextCharFormat) :=
  (key, value) :: hash.filter fun entry => entry.1 != key

/-- Method `QHash::value(key, defaultValue)`. -/
def hashValue (hash : List (String × QTextCharFormat)) (key : String)
    (defaultValue : QTextCharFormat) : QTextCharFormat :=
  (hash.lookup key).getD defaultValue

/-- Class `SyntaxHighlighter`: the six private fields. -/
structure SyntaxHighlighter where
  highlightingRules : List HighlightingRule
  customRules : List HighlightingRule
  formats : List (String × QTextCharFormat)
  currentLanguage : Language
  theme : String
  enabled : Bool
deriving DecidableEq, Repr

/-- Method `SyntaxHighlighter::getFormat`. -/
def SyntaxHighlighter.getFormat (self : SyntaxHighlighter) (formatType : String) :
    QTextCharFormat :=
  hashValue self.formats formatType QTextCharFormat.empty

/-- The keyword loops of the rule tables: one rule `\b<keyword>\b` per keyword, all
with the same format, appended in list order. -/
def keywordRules (keywords : List String) (caseless : Bool) (format : QTextCharFormat) :
    List HighlightingRule :=
  keywords.map fun keyword =>
    { pattern := { pattern := ("\\b" ++ keyword ++ "\\b").toList, caseless := caseless },
      format := format }

/-- A rule with a case-sensitive pattern. -/
def plainRule (pattern : String) (format : QTextCharFormat) : HighlightingRule :=
  { pattern := { pattern := pattern.toList, caseless := false }, format := format }

/-- Method `SyntaxHighlighter::initializeCppRules`. -/
def SyntaxHighlighter.initializeCppRules (self : SyntaxHighlighter) : SyntaxHighlighter :=
  let keywordFormat := self.getFormat "keyword"
  let keywords := [
    "auto", "bool", "break", "case", "catch", "char", "class", "const",
    "continue", "default", "delete", "do", "double", "else", "enum", "explicit",
    "extern", "false", "float", "for", "friend", "goto", "if", "inline",
    "int", "long", "mutable", "namespace", "new", "nullptr", "operator",
    "private", "protected", "public", "register", "return", "short", "signed",
    "sizeof", "static", "struct", "switch", "template", "this", "throw",
    "true", "try", "typedef", "typeid", "typename", "union", "unsigned",
    "virtual", "void", "volatile", "wchar_t", "while"]
  { self with highlightingRules :=
      self.highlightingRules ++ keywordRules keywords false keywordFormat ++
        [plainRule "\".*?\"" (self.getFormat "string"),
         plainRule "//.*" (self.getFormat "comment"),
         plainRule "\\b[0-9]+\\b" (self.getFormat "number")] }

/-- Method `SyntaxHighlighter::initializePythonRules`. -/
def SyntaxHighlighter.initializePythonRules (self : SyntaxHighlighter) : SyntaxHighlighter :=
  let keywordFormat := self.getFormat "keyword"
  let keywords := [
    "and", "as", "assert", "break", "class", "continue", "def", "del",
    "elif", "else", "except", "False", "finally", "for", "from", "global",
    "if", "import", "in", "is", "lambda", "None", "not", "or", "pass",
    "raise", "return", "True", "try", "while", "with", "yield"]
  { self with highlightingRules :=
      self.highlightingRules ++ keywordRules keywords false keywordFormat ++
        [plainRule "\".*?\"" (self.getFormat "string"),
         plainRule "'.*?'" (self.getFormat "string"),
         plainRule "#.*" (self.getFormat "comment")] }

/-- Method `SyntaxHighlighter::initializeJavaScriptRules`. -/
def SyntaxHighlighter.initializeJavaScriptRules (self : SyntaxHighlighter) :
    SyntaxHighlighter :=
  let keywordFormat := self.getFormat "keyword"
  let keywords := [
    "break", "case", "catch", "class", "const", "continue", "debugger",
    "default", "delete", "do", "else", "export", "extends", "finally",
    "for", "function", "if", "import", "in", "instanceof", "new", "return",
    "super", "switch", "this", "throw", "try", "typeof", "var", "void",
    "while", "with", "yield", "let", "static", "enum", "await", "async"]
  { self with highlightingRules :=
      self.highlightingRules ++ keywordRules keywords false keywordFormat ++
        [plainRule "\".*?\"" (self.getFormat "string"),
         plainRule "'.*?'" (self.getFormat "string"),
         plainRule "//.*" (self.getFormat "comment")] }

/-- Method `SyntaxHighlighter::initializeJsonRules`. -/
def SyntaxHighlighter.initializeJsonRules (self : SyntaxHighlighter) : SyntaxHighlighter :=
  let keywordFormat := self.getFormat "keyword"
  { self with highlightingRules :=
      self.highlightingRules ++
        [plainRule "\".*?\"" (self.getFormat "string"),
         plainRule "[0-9]+" (self.getFormat "number")] ++
        keywordRules ["true", "false", "null"] false keywordFormat }

/-- Method `SyntaxHighlighter::initializeXmlRules`. -/
def SyntaxHighlighter.initializeXmlRules (self : SyntaxHighlighter) : SyntaxHighlighter :=
  { self with highlightingRules :=
      self.highlightingRules ++
        [plainRule "<.*?>" (self.getFormat "keyword"),
         plainRule "\\b[A-Za-z_:][A-Za-z0-9_:.-]*=" (self.getFormat "keyword"),
         plainRule "\".*?\"" (self.getFormat "string"),
         plainRule "<!--.*?-->" (self.getFormat "comment")] }

/-- Method `SyntaxHighlighter::initializeHtmlRules`. -/
def SyntaxHighlighter.initializeHtmlRules (self : SyntaxHighlighter) : SyntaxHighlighter :=
  { self with highlightingRules :=
      self.highlightingRules ++
        [plainRule "</?[A-Za-z].*?>" (self.getFormat "keyword"),
         plainRule "\".*?\"" (self.getFormat "string"),
         plainRule "<!--.*?-->" (self.getFormat "comment")] }

/-- Method `SyntaxHighlighter::initializeCssRules`. -/
def SyntaxHighlighter.initializeCssRules (self : SyntaxHighlighter) : SyntaxHighlighter :=
  { self with highlightingRules :=
      self.highlightingRules ++
        [plainRule "[.#]?[A-Za-z_][A-Za-z0-9_-]*" (self.getFormat "keyword"),
         plainRule "[A-Za-z-]+(?=:)" (self.getFormat "keyword"),
         plainRule "\".*?\"" (self.getFormat "string"),
         plainRule "/\\*.*?\\*/" (self.getFormat "comment")] }

/-- Method `SyntaxHighlighter::initializeSqlRules`. -/
def SyntaxHighlighter.initializeSqlRules (self : SyntaxHighlighter) : SyntaxHighlighter :=
  let keywordFormat := self.getFormat "keyword"
  let keywords := [
    "SELECT", "FROM", "WHERE", "AND", "OR", "NOT", "INSERT", "UPDATE",
    "DELETE", "CREATE", "ALTER", "DROP", "TABLE", "DATABASE", "PRIMARY",
    "KEY", "FOREIGN", "JOIN", "LEFT", "RIGHT", "INNER", "OUTER", "ON",
    "GROUP", "BY", "ORDER", "ASC", "DESC", "LIMIT", "OFFSET", "DISTINCT"]
  { self with highlightingRules :=
      self.highlightingRules ++ keywordRules keywords true keywordFormat ++
        [plainRule "'.*?'" (self.getFormat "string"),
         plainRule "--.*" (self.getFormat "comment")] }

/-- Method `SyntaxHighlighter::setLanguage`. -/
def SyntaxHighlighter.setLanguage (self : SyntaxHighlighter) (lang : Language) :
    SyntaxHighlighter :=
  let self := { self with currentLanguage := lang, highlightingRules := [] }
  match lang with
  | Language.CPlusPlus => self.initializeCppRules
  | Language.Python => self.initializePythonRules
  | Language.JavaScript => self.initializeJavaScriptRules
  | Language.JSON => self.initializeJsonRules
  | Language.XML => self.initializeXmlRules
  | Language.HTML => self.initializeHtmlRules
  | Language.CSS => self.initializeCssRules
  | Language.SQL => self.initializeSqlRules
  | Language.PlainText => self

/-- Constructor `SyntaxHighlighter::SyntaxHighlighter`. -/
def SyntaxHighlighter.fresh : SyntaxHighlighter :=
  SyntaxHighlighter.setLanguage
    { highlightingRules := [], customRules := [], formats := [],
      currentLanguage := Language.PlainText, theme := "Light", enabled := true }
    Language.PlainText

/-- Method `SyntaxHighlighter::detectLanguageFromExtension`. -/
def SyntaxHighlighter.detectLanguageFromExtension (self : SyntaxHighlighter)
    (extension : List Char) : SyntaxHighlighter :=
  if extension = "cpp".toList ∨ extension = "cc".toList ∨ extension = "cxx".toList ∨
      extension = "h".toList ∨ extension = "hpp".toList then
    self.setLanguage Language.CPlusPlus
  else if extension = "py".toList then
    self.setLanguage Language.Python
  else if extension = "js".toList ∨ extension = "ts".toList then
    self.setLanguage Language.JavaScript
  else if extension = "json".toList then
    self.setLanguage Language.JSON
  else if extension = "xml".toList then
    self.setLanguage Language.XML
  else if extension = "html".toList ∨ extension = "htm".toList then
    self.setLanguage Language.HTML
  else if extension = "css".toList then
    self.setLanguage Language.CSS
  else if extension = "sql".toList then
    self.setLanguage Language.SQL
  else
    self.setLanguage Language.PlainText

/-- Method `SyntaxHighlighter::applyLightTheme`; the one `format` variable is carried
from each entry to the next. -/
def SyntaxHighlighter.applyLightTheme (self : SyntaxHighlighter) : SyntaxHighlighter :=
  let format := QTextCharFormat.empty
  let format := format.setForeground GlobalColor.blue
  let format := format.setFontWeight FontWeight.Bold
  let formats := hashSet self.formats "keyword" format
  let format := format.setForeground GlobalColor.darkGreen
  let format := format.setFontWeight FontWeight.Normal
  let formats := hashSet formats "string" format
  let format := format.setForeground GlobalColor.gray
  let format := format.setFontWeight FontWeight.Normal
  let format := format.setFontItalic true
  let formats := hashSet formats "comment" format
  let format := format.setForeground GlobalColor.darkMagenta
  let format := format.setFontWeight FontWeight.Normal
  let formats := hashSet formats "number" format
  { self with formats := formats }

/-- Method `SyntaxHighlighter::applyDarkTheme`; the one `format` variable is carried
from each entry to the next. -/
def SyntaxHighlighter.applyDarkTheme (self : SyntaxHighlighter) : SyntaxHighlighter :=
  let format := QTextCharFormat.empty
  let format := format.setForeground GlobalColor.cyan
  let format := format.setFontWeight FontWeight.Bold
  let formats := hashSet self.formats "keyword" format
  let format := format.setForeground GlobalColor.green
  let format := format.setFontWeight FontWeight.Normal
  let formats := hashSet formats "string" format
  let format := format.setForeground GlobalColor.gray
  let format := format.setFontWeight FontWeight.Normal
  let format := format.setFontItalic true
  let formats := hashSet formats "comment" format
  let format := format.setForeground GlobalColor.magenta
  let format := format.setFontWeight FontWeight.Normal
  let formats := hashSet formats "number" format
  { self with formats := formats }

/-- Method `SyntaxHighlighter::setTheme`. -/
def SyntaxHighlighter.setTheme (self : SyntaxHighlighter) (themeName : String) :
    SyntaxHighlighter :=
  let self := { self with theme := themeName }
  if themeName = "Dark" then self.applyDarkTheme else self.applyLightTheme

/-- Method `SyntaxHighlighter::addCustomRule`. -/
def SyntaxHighlighter.addCustomRule (self : SyntaxHighlighter) (rule : HighlightingRule) :
    SyntaxHighlighter :=
  { self with customRules := self.customRules ++ [rule] }

/-- Method `SyntaxHighlighter::clearCustomRules`. -/
def SyntaxHighlighter.clearCustomRules (self : SyntaxHighlighter) : SyntaxHighlighter :=
  { self with customRules := [] }

/-- Method `SyntaxHighlighter::setHighlightingEnabled`. -/
def SyntaxHighlighter.setHighlightingEnabled (self : SyntaxHighlighter) (enable : Bool) :
    SyntaxHighlighter :=
  { self with enabled := enable }

/-- Method `QString::lastIndexOf(ch)`. -/
def lastIndexOf (ch : Char) : List Char → Option Nat
  | [] => none
  | x :: rest =>
    match lastIndexOf ch rest with
    | some i => some (i + 1)
    | none => if x = ch then some 0 else none

/-- Method `Editor::fileExtension` on the current file name (`QString::toLower` on
the letters of ASCII). -/
def fileExtension (currentFileName : List Char) : List Char :=
  match lastIndexOf '.' currentFileName with
  | some lastDot => (currentFileName.drop (lastDot + 1)).map Char.toLower
  | none => []

/-- Method `Editor::setFileName`, as far as the editor's highlighter is concerned. -/
def setFileName (highlighter : SyntaxHighlighter) (fileName : List Char) : SyntaxHighlighter :=
  highlighter.detectLanguageFromExtension (fileExtension fileName)

/-- What `highlightBlock` reads and writes of `QSyntaxHighlighter` for one block:
`previousBlockState()`, `currentBlockState()` and the format of each character. -/
structure BlockContext where
  previousBlockState : Int
  currentBlockState : Int
  formatChanges : List QTextCharFormat
deriving DecidableEq, Repr

/-- The context in which `QSyntaxHighlighter` calls `highlightBlock` on a block shown
for the first time: no state on the block, every character with the empty format. -/
def BlockContext.start (previousBlockState : Int) (text : List Char) : BlockContext :=
  { previousBlockState := previousBlockState, currentBlockState := -1,
    formatChanges := List.replicate text.length QTextCharFormat.empty }

/-- Method `QSyntaxHighlighter::setFormat(start, count, format)`: the characters
`start .. start + count - 1` that exist get the format. -/
def setFormat (formatChanges : List QTextCharFormat) (start count : Nat)
    (format : QTextCharFormat) : List QTextCharFormat :=
  if start ≥ formatChanges.length then formatChanges
  else
    formatChanges.mapIdx fun i old =>
      if start ≤ i ∧ i < min (start + count) formatChanges.length then format else old

/-- Method `QRegularExpression::globalMatch(text)` read to its end; an invalid
expression has no match. -/
def globalMatchChecked (lib : RegexLibrary) (regex : QRegularExpression) (text : List Char) :
    List (Nat × Nat) :=
  if regex.isValid lib then regex.globalMatch lib text else []

/-- Method `QRegularExpression::match(text, offset)`; an invalid expression has no
match. -/
def matchChecked (lib : RegexLibrary) (regex : QRegularExpression) (text : List Char)
    (offset : Nat) : Option (Nat × Nat) :=
  if regex.isValid lib then regex.matchFrom lib text offset else none

/-- Method `QString::indexOf(regex, from)`. -/
def indexOf (lib : RegexLibrary) (text : List Char) (regex : QRegularExpression) (start : Nat) :
    Option Nat :=
  (matchChecked lib regex text start).map fun m => m.1

/-- One of the two loops of `highlightBlock` for one rule: every match of the rule's
pattern gets the rule's format. -/
def applyRule (lib : RegexLibrary) (text : List Char) (formatChanges : List QTextCharFormat)
    (rule : HighlightingRule) : List QTextCharFormat :=
  (globalMatchChecked lib rule.pattern text).foldl
    (fun changes m => setFormat changes m.1 (m.2 - m.1) rule.format) formatChanges

/-- Method `SyntaxHighlighter::highlightBlock`. -/
def SyntaxHighlighter.highlightBlock (lib : RegexLibrary) (self : SyntaxHighlighter)
    (context : BlockContext) (text : List Char) : BlockContext :=
  if !self.enabled then context
  else
    let changes := self.highlightingRules.foldl (applyRule lib text) context.formatChanges
    let changes := self.customRules.foldl (applyRule lib text) changes
    { context with formatChanges := changes }

/-- The body of the loop of `highlightMultilineComment`, lines 468-483, entered with
`startIndex`: the new context, the comment length and the next `startIndex`. -/
def multilineStep (lib : RegexLibrary) (self : SyntaxHighlighter) (text : List Char)
    (startExpression endExpression : QRegularExpression) (state : Int)
    (startIndex : Nat) (context : BlockContext) : BlockContext × Nat × Option Nat :=
  let endMatch := matchChecked lib endExpression text startIndex
  let stepped : BlockContext × Nat :=
    match endMatch with
    | none => ({ context with currentBlockState := state }, text.length - startIndex)
    | some m => (context, m.1 - startIndex + (m.2 - m.1))
  let commentLength := stepped.2
  let context :=
    { stepped.1 with
      formatChanges :=
        setFormat stepped.1.formatChanges startIndex commentLength (self.getFormat "comment") }
  (context, commentLength, indexOf lib text startExpression (startIndex + commentLength))

/-- The loop `while (startIndex >= 0)` of `highlightMultilineComment`, run for at most
`fuel` iterations; `none` when the iterations are used up before the loop ends. -/
def multilineLoop (lib : RegexLibrary) (self : SyntaxHighlighter) (text : List Char)
    (startExpression endExpression : QRegularExpression) (state : Int) :
    Nat → Option Nat → BlockContext → Option BlockContext
  | _, none, context => some context
  | 0, some _, _ => none
  | fuel + 1, some startIndex, context =>
    let step := multilineStep lib self text startExpression endExpression state startIndex context
    multilineLoop lib self text startExpression endExpression state fuel step.2.2 step.1

/-- The start of `highlightMultilineComment`, lines 456-464: the first `startIndex`. -/
def multilineStart (lib : RegexLibrary) (text : List Char)
    (startExpression : QRegularExpression) (state : Int) (context : BlockContext) : Option Nat :=
  if context.previousBlockState = state then some 0
  else indexOf lib text startExpression 0

/-- Method `SyntaxHighlighter::highlightMultilineComment`, with `length + 2`
iterations allowed. -/
def SyntaxHighlighter.highlightMultilineComment (lib : RegexLibrary) (self : SyntaxHighlighter)
    (context : BlockContext) (text : List Char)
    (startExpression endExpression : QRegularExpression) (state : Int) : Option BlockContext :=
  multilineLoop lib self text startExpression endExpression state (text.length + 2)
    (multilineStart lib text startExpression state context) context

/-- Some match of the rule's pattern in the text covers character `i`. -/
def covers (lib : RegexLibrary) (text : List Char) (rule : HighlightingRule) (i : Nat) : Bool :=
  (globalMatchChecked lib rule.pattern text).any fun m => decide (m.1 ≤ i ∧ i < m.2)

/-- Every match of the expression in the text lies at or after the offset it is sought
from, inside the text, and is not empty. -/
def ProperMatches (lib : RegexLibrary) (regex : QRegularExpression) (text : List Char) : Prop :=
  ∀ (offset s e : Nat), matchChecked lib regex text offset = some (s, e) →
    offset ≤ s ∧ s < e ∧ e ≤ text.length

end Highlight

namespace UndoRedo

/-! ## Auxiliary facts -/

theorem undo_concat (now : Int) (s : UndoRedoStack) (u : List EditCommand) (c : EditCommand)
    (h : s.undoStack = u ++ [c]) :
    s.undo now = (c, { s with undoStack := u, redoStack := s.redoStack ++ [c] }) := by
  unfold UndoRedoStack.undo
  rw [h]
  simp

theorem redo_concat (now : Int) (s : UndoRedoStack) (r : List EditCommand) (c : EditCommand)
    (h : s.redoStack = r ++ [c]) :
    s.redo now = (c, { s with redoStack := r, undoStack := s.undoStack ++ [c] }) := by
  unfold UndoRedoStack.redo
  rw [h]
  simp

theorem undo_nil (now : Int) (s : UndoRedoStack) (h : s.undoStack = []) :
    s.undo now = (sentinel now, s) := by
  unfold UndoRedoStack.undo
  rw [h]
  simp

theorem redo_nil (now : Int) (s : UndoRedoStack) (h : s.redoStack = []) :
    s.redo now = (sentinel now, s) := by
  unfold UndoRedoStack.redo
  rw [h]
  simp

theorem nil_or_snoc (l : List EditCommand) :
    l = [] ∨ ∃ u c, l = u ++ [c] := by
  rcases List.eq_nil_or_concat l with h | ⟨u, c, h⟩
  · exact Or.inl h
  · exact Or.inr ⟨u, c, by rw [h, List.concat_eq_append]⟩

theorem mergeGuard_clearRedo (s : UndoRedoStack) (c : EditCommand) :
    UndoRedoStack.mergeGuard { s with redoStack := [] } c = s.mergeGuard c := rfl

theorem mergeGuard_iff (s : UndoRedoStack) (c : EditCommand) :
    s.mergeGuard c = true ↔
      s.mergingEnabled = true ∧
        ∃ u top, s.undoStack = u ++ [top] ∧
          c.commandTimestamp - s.lastCommandTime < s.mergeTimeout ∧
          top.canMerge c = true := by
  unfold UndoRedoStack.mergeGuard
  rcases nil_or_snoc s.undoStack with h | ⟨u, top, h⟩
  · rw [h]
    simp
  · rw [h]
    have hl : (u ++ [top]).getLast? = some top := by simp
    rw [hl]
    simp only [Bool.and_eq_true, decide_eq_true_eq]
    constructor
    · rintro ⟨h1, h2, h3⟩
      exact ⟨h1, u, top, rfl, h2, h3⟩
    · rintro ⟨h1, u2, top2, h2, h3, h4⟩
      obtain ⟨-, h5⟩ := List.append_inj' h2 rfl
      have h6 : top = top2 := by simpa using h5
      subst h6
      exact ⟨h1, h3, h4⟩

theorem canMerge_iff (a b : EditCommand) :
    a.canMerge b = true ↔
      a.commandType = b.commandType ∧
        b.commandPos = a.commandPos + (a.commandText.length : Int) := by
  unfold EditCommand.canMerge
  simp only [Bool.and_eq_true, decide_eq_true_eq]
  constructor
  · rintro ⟨h1, h2⟩
    exact ⟨h1, h2.symm⟩
  · rintro ⟨h1, h2⟩
    exact ⟨h1, h2.symm⟩

theorem trimStack_eq_drop (m : Int) (hm : 0 ≤ m) (l : List EditCommand) :
    trimStack m l = some (l.drop (l.length - m.toNat)) := by
  induction l with
  | nil =>
    unfold trimStack
    simp
    omega
  | cons c cs ih =>
    unfold trimStack
    split
    · rename_i hgt
      rw [ih]
      have h1 : (c :: cs).length - m.toNat = (cs.length - m.toNat) + 1 := by
        simp only [List.length_cons] at hgt ⊢
        omega
      rw [h1]
      rfl
    · rename_i hle
      have h1 : (c :: cs).length - m.toNat = 0 := by
        simp only [List.length_cons] at hle ⊢
        omega
      rw [h1]
      rfl

theorem trimStack_fits (m : Int) (l : List EditCommand) (h : (l.length : Int) ≤ m) :
    trimStack m l = some l := by
  have hm : 0 ≤ m := le_trans (Int.ofNat_nonneg _) h
  rw [trimStack_eq_drop m hm l]
  have h1 : l.length - m.toNat = 0 := by omega
  rw [h1]
  rfl

theorem push_of_mergeGuard (s : UndoRedoStack) (c : EditCommand) (u : List EditCommand)
    (top : EditCommand) (hu : s.undoStack = u ++ [top]) (hg : s.mergeGuard c = true) :
    s.push c = some { s with redoStack := [],
                             undoStack := u ++ [top.merge c],
                             lastCommandTime := c.commandTimestamp } := by
  have hl : s.undoStack.getLast? = some top := by rw [hu]; simp
  have hd : s.undoStack.dropLast = u := by rw [hu]; simp
  unfold UndoRedoStack.push
  simp only [mergeGuard_clearRedo, hg, if_true, hl, hd]

theorem push_of_not_mergeGuard (s : UndoRedoStack) (c : EditCommand)
    (hg : s.mergeGuard c = false) (hm : 0 ≤ s.maxStackSize) :
    s.push c = some { s with redoStack := [],
                             undoStack := (s.undoStack ++ [c]).drop
                               ((s.undoStack ++ [c]).length - s.maxStackSize.toNat),
                             lastCommandTime := c.commandTimestamp,
                             commandCount := s.commandCount + 1 } := by
  unfold UndoRedoStack.push
  simp only [mergeGuard_clearRedo, hg]
  rw [trimStack_eq_drop s.maxStackSize hm]
  simp

theorem push_redo_nil (s s1 : UndoRedoStack) (c : EditCommand) (h : s.push c = some s1) :
    s1.redoStack = [] := by
  unfold UndoRedoStack.push at h
  simp only [mergeGuard_clearRedo] at h
  split at h
  · split at h
    · cases h
      rfl
    · cases h
      rfl
  · split at h
    · cases h
      rfl
    · cases h

theorem push_total (s : UndoRedoStack) (c : EditCommand) (hm : 0 ≤ s.maxStackSize) :
    ∃ s1, s.push c = some s1 := by
  cases hg : s.mergeGuard c with
  | false => exact ⟨_, push_of_not_mergeGuard s c hg hm⟩
  | true =>
    obtain ⟨-, u, top, hu, -, -⟩ := (mergeGuard_iff s c).1 hg
    exact ⟨_, push_of_mergeGuard s c u top hu hg⟩

theorem push_on_empty (s : UndoRedoStack) (c : EditCommand) (he : s.undoStack = [])
    (hm : 1 ≤ s.maxStackSize) :
    s.push c = some { s with redoStack := [], undoStack := [c],
                             lastCommandTime := c.commandTimestamp,
                             commandCount := s.commandCount + 1 } := by
  have hg : s.mergeGuard c = false := by
    unfold UndoRedoStack.mergeGuard
    rw [he]
    simp
  rw [push_of_not_mergeGuard s c hg (by omega), he]
  have h0 : ([] ++ [c] : List EditCommand).length - s.maxStackSize.toNat = 0 := by
    simp only [List.nil_append, List.length_singleton]
    omega
  rw [h0]
  rfl

theorem pushAll_pair (s s1 s2 : UndoRedoStack) (a b : EditCommand)
    (h1 : s.push a = some s1) (h2 : s1.push b = some s2) :
    pushAll s [a, b] = some s2 := by
  unfold pushAll
  rw [h1]
  simp only
  unfold pushAll
  rw [h2]
  simp only
  unfold pushAll
  rfl

theorem pushAll_noMerge (cs : List EditCommand) :
    ∀ s : UndoRedoStack, (s.undoStack.length : Int) ≤ s.maxStackSize →
      noMerge s cs = true →
      ∃ s1, pushAll s cs = some s1 ∧
        s1.undoStack =
          (s.undoStack ++ cs).drop ((s.undoStack ++ cs).length - s.maxStackSize.toNat) ∧
        s1.maxStackSize = s.maxStackSize ∧
        (cs ≠ [] → s1.redoStack = []) ∧ (cs = [] → s1.redoStack = s.redoStack) := by
  induction cs with
  | nil =>
    intro s hlen _
    refine ⟨s, rfl, ?_, rfl, fun h => absurd rfl h, fun _ => rfl⟩
    have h0 : (s.undoStack ++ []).length - s.maxStackSize.toNat = 0 := by
      simp only [List.append_nil]
      omega
    rw [h0]
    simp
  | cons c cs ih =>
    intro s hlen hnm
    have hm : 0 ≤ s.maxStackSize := le_trans (Int.ofNat_nonneg _) hlen
    unfold noMerge at hnm
    simp only [Bool.and_eq_true, Bool.not_eq_true'] at hnm
    obtain ⟨hg, hrest⟩ := hnm
    have hp := push_of_not_mergeGuard s c hg hm
    rw [hp] at hrest
    simp only at hrest
    have hk : (s.undoStack ++ [c]).length - s.maxStackSize.toNat ≤ (s.undoStack ++ [c]).length :=
      Nat.sub_le _ _
    have hlen1 : (((s.undoStack ++ [c]).drop
        ((s.undoStack ++ [c]).length - s.maxStackSize.toNat)).length : Int) ≤ s.maxStackSize := by
      rw [List.length_drop]
      omega
    obtain ⟨s1, h1, h2, h3, h4, -⟩ := ih _ hlen1 hrest
    refine ⟨s1, ?_, ?_, h3, fun _ => ?_, fun h => absurd h (List.cons_ne_nil c cs)⟩
    · unfold pushAll
      rw [hp]
      exact h1
    · rw [h2]
      simp only
      rw [← List.drop_append_of_le_length hk, List.drop_drop]
      have e : s.undoStack ++ [c] ++ cs = s.undoStack ++ c :: cs := by simp
      rw [e]
      congr 1
      simp only [List.length_append, List.length_drop, List.length_cons, List.length_nil]
      omega
    · rcases cs with _ | ⟨d, ds⟩
      · unfold pushAll at h1
        cases h1
        rfl
      · exact h4 (List.cons_ne_nil d ds)

theorem undoMany_concat (ys : List EditCommand) :
    ∀ (nows : List Int) (s : UndoRedoStack) (xs : List EditCommand),
      nows.length = ys.length → s.undoStack = xs ++ ys.reverse →
      undoMany nows s =
        (ys, { s with undoStack := xs, redoStack := s.redoStack ++ ys }) := by
  induction ys with
  | nil =>
    intro nows s xs hn hs
    have : nows = [] := List.length_eq_zero.1 hn
    subst this
    unfold undoMany
    cases s
    simp only [List.reverse_nil, List.append_nil] at hs
    simp [hs]
  | cons y ys ih =>
    intro nows s xs hn hs
    rcases nows with _ | ⟨now, nows⟩
    · simp at hn
    · have hs1 : s.undoStack = (xs ++ ys.reverse) ++ [y] := by
        rw [hs]
        simp
      unfold undoMany
      simp only
      rw [undo_concat now s _ y hs1]
      simp only
      rw [ih nows _ xs (by simpa using hn) rfl]
      simp

theorem redoMany_concat (ys : List EditCommand) :
    ∀ (nows : List Int) (s : UndoRedoStack) (rs : List EditCommand),
      nows.length = ys.length → s.redoStack = rs ++ ys.reverse →
      redoMany nows s =
        (ys, { s with redoStack := rs, undoStack := s.undoStack ++ ys }) := by
  induction ys with
  | nil =>
    intro nows s rs hn hs
    have : nows = [] := List.length_eq_zero.1 hn
    subst this
    unfold redoMany
    cases s
    simp only [List.reverse_nil, List.append_nil] at hs
    simp [hs]
  | cons y ys ih =>
    intro nows s rs hn hs
    rcases nows with _ | ⟨now, nows⟩
    · simp at hn
    · have hs1 : s.redoStack = (rs ++ ys.reverse) ++ [y] := by
        rw [hs]
        simp
      unfold redoMany
      simp only
      rw [redo_concat now s _ y hs1]
      simp only
      rw [ih nows _ rs (by simpa using hn) rfl]
      simp

theorem applyOp_keeps_room (s : UndoRedoStack) (op : Op)
    (hI : s.undoCount + s.redoCount ≤ s.maxStackSize) (hop : roomyOp s op = true) :
    ∃ s1, applyOp s op = some s1 ∧ s1.undoCount + s1.redoCount ≤ s1.maxStackSize := by
  unfold UndoRedoStack.undoCount UndoRedoStack.redoCount at hI
  have hm : 0 ≤ s.maxStackSize := by omega
  cases op with
  | push c =>
    cases hg : s.mergeGuard c with
    | false =>
      refine ⟨_, push_of_not_mergeGuard s c hg hm, ?_⟩
      unfold UndoRedoStack.undoCount UndoRedoStack.redoCount
      simp only [List.length_drop, List.length_append, List.length_singleton, List.length_nil]
      omega
    | true =>
      obtain ⟨-, u, top, hu, -, -⟩ := (mergeGuard_iff s c).1 hg
      refine ⟨_, push_of_mergeGuard s c u top hu hg, ?_⟩
      unfold UndoRedoStack.undoCount UndoRedoStack.redoCount
      rw [hu] at hI
      simp only [List.length_append, List.length_singleton, List.length_nil] at hI ⊢
      omega
  | undo now =>
    refine ⟨_, rfl, ?_⟩
    rcases nil_or_snoc s.undoStack with h | ⟨u, c, h⟩
    · rw [undo_nil now s h]
      exact hI
    · rw [undo_concat now s u c h]
      unfold UndoRedoStack.undoCount UndoRedoStack.redoCount
      rw [h] at hI
      simp only [List.length_append, List.length_singleton] at hI ⊢
      push_cast at hI ⊢
      omega
  | redo now =>
    refine ⟨_, rfl, ?_⟩
    rcases nil_or_snoc s.redoStack with h | ⟨r, c, h⟩
    · rw [redo_nil now s h]
      exact hI
    · rw [redo_concat now s r c h]
      unfold UndoRedoStack.undoCount UndoRedoStack.redoCount
      rw [h] at hI
      simp only [List.length_append, List.length_singleton] at hI ⊢
      push_cast at hI ⊢
      omega
  | clear =>
    refine ⟨_, rfl, ?_⟩
    unfold UndoRedoStack.clear UndoRedoStack.undoCount UndoRedoStack.redoCount
    simpa using hm
  | setMaxStackSize m =>
    refine ⟨_, rfl, ?_⟩
    unfold roomyOp at hop
    simpa using hop
  | setMergeTimeout ms => exact ⟨_, rfl, hI⟩
  | setMergeEnabled b => exact ⟨_, rfl, hI⟩

theorem run_keeps_room (ops : List Op) :
    ∀ s : UndoRedoStack, s.undoCount + s.redoCount ≤ s.maxStackSize →
      roomy s ops = true →
      ∃ s1, run s ops = some s1 ∧ s1.undoCount + s1.redoCount ≤ s1.maxStackSize := by
  induction ops with
  | nil =>
    intro s hI _
    exact ⟨s, rfl, hI⟩
  | cons op ops ih =>
    intro s hI hr
    unfold roomy at hr
    simp only [Bool.and_eq_true] at hr
    obtain ⟨hop, hrest⟩ := hr
    obtain ⟨s1, h1, hI1⟩ := applyOp_keeps_room s op hI hop
    rw [h1] at hrest
    obtain ⟨s2, h2, hI2⟩ := ih s1 hI1 hrest
    refine ⟨s2, ?_, hI2⟩
    unfold run
    rw [h1]
    exact h2

/-! ## Claims -/

/-- C1: push `c1..cn` (`n <= maxStackSize`, no push merging) onto a stack whose undo and
redo stacks are empty; the pushes complete, `n` successive `undo()` calls return
`cn, ..., c1`, `n` successive `redo()` calls made afterwards return `c1, ..., cn`, and
then the undo stack holds `c1..cn` and the redo stack is empty. -/
theorem C1_history_round_trip (s : UndoRedoStack) (cs : List EditCommand)
    (nowsU nowsR : List Int)
    (hu : s.undoStack = []) (hr : s.redoStack = [])
    (hlen : (cs.length : Int) ≤ s.maxStackSize) (hnm : noMerge s cs = true)
    (hU : nowsU.length = cs.length) (hR : nowsR.length = cs.length) :
    ∃ s1, pushAll s cs = some s1 ∧
      (undoMany nowsU s1).1 = cs.reverse ∧
      (redoMany nowsR (undoMany nowsU s1).2).1 = cs ∧
      (redoMany nowsR (undoMany nowsU s1).2).2.undoStack = cs ∧
      (redoMany nowsR (undoMany nowsU s1).2).2.redoStack = [] := by
  have h0 : (s.undoStack.length : Int) ≤ s.maxStackSize := by
    rw [hu]
    exact le_trans (Int.ofNat_nonneg _) hlen
  obtain ⟨s1, h1, h2, -, h4, h5⟩ := pushAll_noMerge cs s h0 hnm
  have hundo : s1.undoStack = cs := by
    rw [h2, hu]
    have e : ([] ++ cs : List EditCommand).length - s.maxStackSize.toNat = 0 := by
      simp only [List.nil_append]
      omega
    rw [e]
    rfl
  have hredo : s1.redoStack = [] := by
    by_cases hc : cs = []
    · rw [h5 hc, hr]
    · exact h4 hc
  have hA := undoMany_concat cs.reverse nowsU s1 []
    (by rw [hU, List.length_reverse]) (by rw [hundo]; simp)
  have hB := redoMany_concat cs nowsR (undoMany nowsU s1).2 []
    hR (by rw [hA]; simp [hredo])
  refine ⟨s1, h1, ?_, ?_, ?_, ?_⟩
  · rw [hA]
  · rw [hB]
  · rw [hB, hA]
    simp
  · rw [hB]

/-- Witness for C1: an Insert and a Delete pushed on the freshly constructed stack. -/
theorem C1_history_round_trip_witness :
    ∃ s1, pushAll UndoRedoStack.fresh
        [⟨CommandType.Insert, 0, "a", 0, 0⟩, ⟨CommandType.Delete, 5, "", 1, 10⟩] = some s1 ∧
      (undoMany [100, 101] s1).1 =
        [⟨CommandType.Delete, 5, "", 1, 10⟩, ⟨CommandType.Insert, 0, "a", 0, 0⟩] ∧
      (redoMany [102, 103] (undoMany [100, 101] s1).2).1 =
        [⟨CommandType.Insert, 0, "a", 0, 0⟩, ⟨CommandType.Delete, 5, "", 1, 10⟩] ∧
      (redoMany [102, 103] (undoMany [100, 101] s1).2).2.undoStack =
        [⟨CommandType.Insert, 0, "a", 0, 0⟩, ⟨CommandType.Delete, 5, "", 1, 10⟩] ∧
      (redoMany [102, 103] (undoMany [100, 101] s1).2).2.redoStack = [] :=
  C1_history_round_trip UndoRedoStack.fresh
    [⟨CommandType.Insert, 0, "a", 0, 0⟩, ⟨CommandType.Delete, 5, "", 1, 10⟩]
    [100, 101] [102, 103] rfl rfl (by decide) (by decide) rfl rfl

/-- C2: with `maxStackSize = m >= 1`, pushing `m + k` commands (no push merging) onto a
stack with an empty undo stack completes and leaves exactly `m` undo entries, namely
the commands pushed without the oldest `k`, in push order. -/
theorem C2_capacity_bound (s : UndoRedoStack) (cs : List EditCommand) (k : Nat)
    (hu : s.undoStack = []) (hm : 1 ≤ s.maxStackSize)
    (hlen : cs.length = s.maxStackSize.toNat + k) (hnm : noMerge s cs = true) :
    ∃ s1, pushAll s cs = some s1 ∧
      s1.undoStack = cs.drop k ∧
      s1.undoCount = s.maxStackSize := by
  have h0 : (s.undoStack.length : Int) ≤ s.maxStackSize := by
    rw [hu]
    simp only [List.length_nil, Nat.cast_zero]
    omega
  obtain ⟨s1, h1, h2, -, -, -⟩ := pushAll_noMerge cs s h0 hnm
  have hundo : s1.undoStack = cs.drop k := by
    rw [h2, hu]
    have e : ([] ++ cs : List EditCommand).length - s.maxStackSize.toNat = k := by
      simp only [List.nil_append]
      omega
    rw [e]
    rfl
  refine ⟨s1, h1, hundo, ?_⟩
  unfold UndoRedoStack.undoCount
  rw [hundo, List.length_drop]
  omega

/-- Witness for C2: capacity 2, three commands pushed, the oldest one evicted. -/
theorem C2_capacity_bound_witness :
    ∃ s1, pushAll (UndoRedoStack.fresh.setMaxStackSize 2)
        [⟨CommandType.Insert, 0, "a", 0, 0⟩, ⟨CommandType.Delete, 5, "", 1, 10⟩,
          ⟨CommandType.Replace, 9, "z", 0, 20⟩] = some s1 ∧
      s1.undoStack =
        List.drop 1 [⟨CommandType.Insert, 0, "a", 0, 0⟩, ⟨CommandType.Delete, 5, "", 1, 10⟩,
          ⟨CommandType.Replace, 9, "z", 0, 20⟩] ∧
      s1.undoCount = (UndoRedoStack.fresh.setMaxStackSize 2).maxStackSize :=
  C2_capacity_bound (UndoRedoStack.fresh.setMaxStackSize 2)
    [⟨CommandType.Insert, 0, "a", 0, 0⟩, ⟨CommandType.Delete, 5, "", 1, 10⟩,
      ⟨CommandType.Replace, 9, "z", 0, 20⟩] 1 rfl (by decide) rfl (by decide)

/-- C5, as the claim states it, fails for `maxStackSize = 1`: merging is enabled, the
stack is empty, the second Insert is adjacent and arrives `mergeTimeout` after the
first, yet one entry results, not two (the first is evicted). -/
theorem C5_counterexample :
    (UndoRedoStack.fresh.setMaxStackSize 1).mergingEnabled = true ∧
    (UndoRedoStack.fresh.setMaxStackSize 1).undoStack = [] ∧
    (UndoRedoStack.fresh.setMaxStackSize 1).mergeTimeout ≤ (500 : Int) - 0 ∧
    ∃ s2, pushAll (UndoRedoStack.fresh.setMaxStackSize 1)
        [⟨CommandType.Insert, 0, "a", 0, 0⟩, ⟨CommandType.Insert, 1, "b", 0, 500⟩] = some s2 ∧
      s2.undoStack = [⟨CommandType.Insert, 1, "b", 0, 500⟩] ∧
      s2.undoCount = 1 :=
  ⟨rfl, rfl, by decide, _, rfl, rfl, rfl⟩

/-- C5 (amended): with merging enabled and an empty undo stack, push an Insert at `p`
with text `s` and then an Insert at `p + length(s)` with text `t`.  If
`maxStackSize >= 1` and the second timestamp is less than `mergeTimeout` after the
first, exactly one undo entry results: kind Insert, position `p`, text `s ++ t`.  If
`maxStackSize >= 2` and the second timestamp is at least `mergeTimeout` after the
first, the two commands result as two entries. -/
theorem C5_merge_adjacency (s : UndoRedoStack) (p : Int) (txt1 txt2 : String)
    (len1 len2 t1 t2 : Int)
    (hen : s.mergingEnabled = true) (hu : s.undoStack = []) :
    (1 ≤ s.maxStackSize → t2 - t1 < s.mergeTimeout →
      ∃ s2, pushAll s [⟨CommandType.Insert, p, txt1, len1, t1⟩,
          ⟨CommandType.Insert, p + (txt1.length : Int), txt2, len2, t2⟩] = some s2 ∧
        s2.undoStack = [⟨CommandType.Insert, p, txt1 ++ txt2, len1, t1⟩]) ∧
    (2 ≤ s.maxStackSize → s.mergeTimeout ≤ t2 - t1 →
      ∃ s2, pushAll s [⟨CommandType.Insert, p, txt1, len1, t1⟩,
          ⟨CommandType.Insert, p + (txt1.length : Int), txt2, len2, t2⟩] = some s2 ∧
        s2.undoStack = [⟨CommandType.Insert, p, txt1, len1, t1⟩,
          ⟨CommandType.Insert, p + (txt1.length : Int), txt2, len2, t2⟩]) := by
  constructor
  · intro hm ht
    have hp1 := push_on_empty s ⟨CommandType.Insert, p, txt1, len1, t1⟩ hu hm
    have hcm : EditCommand.canMerge ⟨CommandType.Insert, p, txt1, len1, t1⟩
        ⟨CommandType.Insert, p + (txt1.length : Int), txt2, len2, t2⟩ = true := by
      rw [canMerge_iff]
      exact ⟨rfl, rfl⟩
    have hg : UndoRedoStack.mergeGuard
        { s with redoStack := [], undoStack := [⟨CommandType.Insert, p, txt1, len1, t1⟩],
                 lastCommandTime := t1, commandCount := s.commandCount + 1 }
        ⟨CommandType.Insert, p + (txt1.length : Int), txt2, len2, t2⟩ = true := by
      rw [mergeGuard_iff]
      exact ⟨hen, [], _, rfl, ht, hcm⟩
    have hp2 := push_of_mergeGuard _ _ [] _ rfl hg
    refine ⟨_, pushAll_pair s _ _ _ _ hp1 hp2, ?_⟩
    unfold EditCommand.merge
    simp [hcm]
  · intro hm ht
    have hp1 := push_on_empty s ⟨CommandType.Insert, p, txt1, len1, t1⟩ hu (by omega)
    have hg : UndoRedoStack.mergeGuard
        { s with redoStack := [], undoStack := [⟨CommandType.Insert, p, txt1, len1, t1⟩],
                 lastCommandTime := t1, commandCount := s.commandCount + 1 }
        ⟨CommandType.Insert, p + (txt1.length : Int), txt2, len2, t2⟩ = false := by
      cases h : UndoRedoStack.mergeGuard
        { s with redoStack := [], undoStack := [⟨CommandType.Insert, p, txt1, len1, t1⟩],
                 lastCommandTime := t1, commandCount := s.commandCount + 1 }
        ⟨CommandType.Insert, p + (txt1.length : Int), txt2, len2, t2⟩ with
      | false => rfl
      | true =>
        obtain ⟨-, -, -, -, hlt, -⟩ := (mergeGuard_iff _ _).1 h
        simp only at hlt
        omega
    have hp2 := push_of_not_mergeGuard _ _ hg (show (0 : Int) ≤ s.maxStackSize by omega)
    refine ⟨_, pushAll_pair s _ _ _ _ hp1 hp2, ?_⟩
    simp only [List.singleton_append, List.length_cons, List.length_nil]
    have e : 0 + 1 + 1 - s.maxStackSize.toNat = 0 := by omega
    rw [e]
    rfl

/-- Witness for C5: "a" at 3 then "b" at 4, 100 ms and 500 ms apart, on the freshly
constructed stack. -/
theorem C5_merge_adjacency_witness :
    (∃ s2, pushAll UndoRedoStack.fresh [⟨CommandType.Insert, 3, "a", 0, 1000⟩,
        ⟨CommandType.Insert, 3 + (("a".length : Nat) : Int), "b", 0, 1100⟩] = some s2 ∧
      s2.undoStack = [⟨CommandType.Insert, 3, "a" ++ "b", 0, 1000⟩]) ∧
    (∃ s2, pushAll UndoRedoStack.fresh [⟨CommandType.Insert, 3, "a", 0, 1000⟩,
        ⟨CommandType.Insert, 3 + (("a".length : Nat) : Int), "b", 0, 1500⟩] = some s2 ∧
      s2.undoStack = [⟨CommandType.Insert, 3, "a", 0, 1000⟩,
        ⟨CommandType.Insert, 3 + (("a".length : Nat) : Int), "b", 0, 1500⟩]) :=
  ⟨(C5_merge_adjacency UndoRedoStack.fresh 3 "a" "b" 0 0 1000 1100 rfl rfl).1
      (by decide) (by decide),
    (C5_merge_adjacency UndoRedoStack.fresh 3 "a" "b" 0 0 1000 1500 rfl rfl).2
      (by decide) (by decide)⟩

/-- C7: `a.canMerge(b)` holds exactly when `a` and `b` have the same kind and
`b.position = a.position + length(a.text)`; `a.merge(b)` changes `a` only when
`a.canMerge(b)` holds, and then the text becomes `a.text ++ b.text` while the other
four fields keep their values. -/
theorem C7_canMerge_merge (a b : EditCommand) :
    (a.canMerge b = true ↔
      a.commandType = b.commandType ∧
        b.commandPos = a.commandPos + (a.commandText.length : Int)) ∧
    (a.merge b ≠ a → a.canMerge b = true) ∧
    (a.canMerge b = true →
      a.merge b = { a with commandText := a.commandText ++ b.commandText }) := by
  refine ⟨canMerge_iff a b, ?_, ?_⟩
  · intro h
    by_contra hc
    apply h
    unfold EditCommand.merge
    simp [hc]
  · intro h
    unfold EditCommand.merge
    simp [h]

/-- Witness for C7: an Insert of "a" at 3 followed by an Insert of "b" at 4. -/
theorem C7_canMerge_merge_witness :
    EditCommand.merge ⟨CommandType.Insert, 3, "a", 0, 10⟩ ⟨CommandType.Insert, 4, "b", 0, 20⟩
      = ⟨CommandType.Insert, 3, "ab", 0, 10⟩ :=
  (C7_canMerge_merge ⟨CommandType.Insert, 3, "a", 0, 10⟩ ⟨CommandType.Insert, 4, "b", 0, 20⟩).2.2
    (by decide)

/-- C8: `undo()` with an empty undo stack and `redo()` with an empty redo stack return
the sentinel (kind Insert, position 0, empty text, length 0) and leave the whole state
(both stacks, `commandCount`, `lastCommandTime` and the settings) as it was. -/
theorem C8_empty_returns_sentinel (now : Int) (s : UndoRedoStack) :
    (s.undoStack = [] → s.undo now = (sentinel now, s)) ∧
    (s.redoStack = [] → s.redo now = (sentinel now, s)) ∧
    (sentinel now).commandType = CommandType.Insert ∧
    (sentinel now).commandPos = 0 ∧
    (sentinel now).commandText = "" ∧
    (sentinel now).commandLength = 0 :=
  ⟨undo_nil now s, redo_nil now s, rfl, rfl, rfl, rfl⟩

/-- Witness for C8: the freshly constructed stack. -/
theorem C8_empty_returns_sentinel_witness :
    UndoRedoStack.fresh.undo 7 = (sentinel 7, UndoRedoStack.fresh) ∧
    UndoRedoStack.fresh.redo 7 = (sentinel 7, UndoRedoStack.fresh) :=
  ⟨(C8_empty_returns_sentinel 7 UndoRedoStack.fresh).1 rfl,
    (C8_empty_returns_sentinel 7 UndoRedoStack.fresh).2.1 rfl⟩

/-- C9: `undo()` on a non-empty undo stack returns the top entry, removes exactly it
and appends it on top of the redo stack, everything else unchanged; `redo()` is the
mirror image; a `redo()` after that `undo()` gives back the command and the original
state, and an `undo()` after that `redo()` likewise. -/
theorem C9_undo_redo_move_top (now later : Int) (s : UndoRedoStack) :
    (s.undoStack ≠ [] →
      ∃ u c, s.undoStack = u ++ [c] ∧
        s.undo now = (c, { s with undoStack := u, redoStack := s.redoStack ++ [c] }) ∧
        (s.undo now).2.redo later = (c, s)) ∧
    (s.redoStack ≠ [] →
      ∃ r c, s.redoStack = r ++ [c] ∧
        s.redo now = (c, { s with redoStack := r, undoStack := s.undoStack ++ [c] }) ∧
        (s.redo now).2.undo later = (c, s)) := by
  constructor
  · intro hne
    rcases nil_or_snoc s.undoStack with h | ⟨u, c, h⟩
    · exact absurd h hne
    · refine ⟨u, c, h, undo_concat now s u c h, ?_⟩
      rw [undo_concat now s u c h]
      rw [redo_concat later _ s.redoStack c rfl]
      cases s
      simp only at h
      simp [h]
  · intro hne
    rcases nil_or_snoc s.redoStack with h | ⟨r, c, h⟩
    · exact absurd h hne
    · refine ⟨r, c, h, redo_concat now s r c h, ?_⟩
      rw [redo_concat now s r c h]
      rw [undo_concat later _ s.undoStack c rfl]
      cases s
      simp only at h
      simp [h]

/-- C3, as the claim states it, fails: `setMaxStackSize` only stores the new bound, so
after one push and `setMaxStackSize(0)` the undo stack holds one entry. -/
theorem C3_counterexample :
    ∃ s, run UndoRedoStack.fresh
        [Op.push ⟨CommandType.Insert, 0, "a", 0, 1⟩, Op.setMaxStackSize 0] = some s ∧
      ¬ (s.undoCount ≤ s.maxStackSize) :=
  ⟨_, rfl, by decide⟩

/-- C3 (amended): every sequence of `push`, `undo`, `redo`, `clear`, `setMaxStackSize`,
`setMergeTimeout` and `setMergeEnabled` calls on a freshly constructed stack in which
each `setMaxStackSize(m)` is called with `m >= undoCount() + redoCount()` runs to
completion and ends in a state with `undoCount() <= maxStackSize`; indeed
`undoCount() + redoCount() <= maxStackSize`. -/
theorem C3_undo_bounded (ops : List Op) (h : roomy UndoRedoStack.fresh ops = true) :
    ∃ s, run UndoRedoStack.fresh ops = some s ∧
      s.undoCount ≤ s.maxStackSize ∧
      s.undoCount + s.redoCount ≤ s.maxStackSize := by
  obtain ⟨s, h1, h2⟩ := run_keeps_room ops UndoRedoStack.fresh (by decide) h
  refine ⟨s, h1, ?_, h2⟩
  have : 0 ≤ s.redoCount := by
    unfold UndoRedoStack.redoCount
    exact Int.ofNat_nonneg _
  omega

/-- Witness for C3: two pushes, an undo, a shrink of the bound to the two entries
held, and a redo. -/
theorem C3_undo_bounded_witness :
    ∃ s, run UndoRedoStack.fresh
        [Op.push ⟨CommandType.Insert, 0, "a", 0, 1⟩,
          Op.push ⟨CommandType.Delete, 4, "", 2, 2⟩,
          Op.undo 3, Op.setMaxStackSize 2, Op.redo 4] = some s ∧
      s.undoCount ≤ s.maxStackSize ∧
      s.undoCount + s.redoCount ≤ s.maxStackSize :=
  C3_undo_bounded
    [Op.push ⟨CommandType.Insert, 0, "a", 0, 1⟩,
      Op.push ⟨CommandType.Delete, 4, "", 2, 2⟩,
      Op.undo 3, Op.setMaxStackSize 2, Op.redo 4] (by decide)

/-- C4: whatever the state and the command, a completed `push` leaves the redo stack
empty (`canRedo()` false, `redoCount()` 0), on the merge path and on the new-entry path
alike; and `push` completes whenever `maxStackSize` is not negative. -/
theorem C4_push_clears_redo (s : UndoRedoStack) (c : EditCommand) :
    (∀ s1, s.push c = some s1 →
      s1.redoStack = [] ∧ s1.canRedo = false ∧ s1.redoCount = 0) ∧
    (0 ≤ s.maxStackSize → ∃ s1, s.push c = some s1) := by
  refine ⟨?_, push_total s c⟩
  intro s1 h
  have hr := push_redo_nil s s1 c h
  refine ⟨hr, ?_, ?_⟩
  · unfold UndoRedoStack.canRedo
    rw [hr]
    rfl
  · unfold UndoRedoStack.redoCount
    rw [hr]
    rfl

/-- Witness for C4: a push on the freshly constructed stack. -/
theorem C4_push_clears_redo_witness :
    (0 : Int) ≤ UndoRedoStack.fresh.maxStackSize ∧
      ∃ s1, UndoRedoStack.fresh.push ⟨CommandType.Insert, 0, "a", 0, 1⟩ = some s1 :=
  ⟨by decide,
    (C4_push_clears_redo UndoRedoStack.fresh ⟨CommandType.Insert, 0, "a", 0, 1⟩).2 (by decide)⟩

/-- C6, as the claim states it, fails for `maxStackSize = 0`: the merge condition is
false (the undo stack is empty), yet the pushed command does not become the top entry;
it is evicted by `trimStack` in the same call. -/
theorem C6_counterexample :
    (UndoRedoStack.fresh.setMaxStackSize 0).undoStack = [] ∧
    ∃ s1, (UndoRedoStack.fresh.setMaxStackSize 0).push ⟨CommandType.Insert, 0, "a", 0, 1⟩
        = some s1 ∧
      s1.undoStack = [] ∧
      s1.undoStack.getLast? ≠ some ⟨CommandType.Insert, 0, "a", 0, 1⟩ :=
  ⟨rfl, _, rfl, rfl, by decide⟩

/-- C6 (amended): if merging is enabled, the undo stack is `u ++ [top]`,
`command.timestamp - lastCommandTime < mergeTimeout` and `top.canMerge(command)`, then
`push` replaces `top` by `top` with text `top.text ++ command.text`, keeps `undoCount`
and `commandCount`, and sets `lastCommandTime` to the command's timestamp.  If that
condition fails and `maxStackSize >= 0`, `push` completes, `commandCount` grows by
exactly one and `lastCommandTime` becomes the command's timestamp; if moreover
`maxStackSize >= 1` the command is the new top entry. -/
theorem C6_push_merge_or_new (s : UndoRedoStack) (c : EditCommand) :
    ((s.mergingEnabled = true ∧
        ∃ u top, s.undoStack = u ++ [top] ∧
          c.commandTimestamp - s.lastCommandTime < s.mergeTimeout ∧
          top.canMerge c = true) →
      ∃ u top, s.undoStack = u ++ [top] ∧
        s.push c = some { s with
          redoStack := [],
          undoStack := u ++ [{ top with commandText := top.commandText ++ c.commandText }],
          lastCommandTime := c.commandTimestamp } ∧
        ∀ s1, s.push c = some s1 →
          s1.undoCount = s.undoCount ∧ s1.commandCount = s.commandCount) ∧
    (¬ (s.mergingEnabled = true ∧
        ∃ u top, s.undoStack = u ++ [top] ∧
          c.commandTimestamp - s.lastCommandTime < s.mergeTimeout ∧
          top.canMerge c = true) →
      0 ≤ s.maxStackSize →
      ∃ s1, s.push c = some s1 ∧
        s1.commandCount = s.commandCount + 1 ∧
        s1.lastCommandTime = c.commandTimestamp ∧
        (1 ≤ s.maxStackSize → s1.undoStack.getLast? = some c)) := by
  constructor
  · intro hG
    have hg : s.mergeGuard c = true := (mergeGuard_iff s c).2 hG
    obtain ⟨-, u, top, hu, -, hcm⟩ := hG
    have hp := push_of_mergeGuard s c u top hu hg
    have hmerge : top.merge c = { top with commandText := top.commandText ++ c.commandText } := by
      unfold EditCommand.merge
      simp [hcm]
    rw [hmerge] at hp
    refine ⟨u, top, hu, hp, ?_⟩
    intro s1 h1
    rw [hp] at h1
    cases h1
    unfold UndoRedoStack.undoCount
    simp [hu]
  · intro hG hm
    have hg : s.mergeGuard c = false := by
      cases h : s.mergeGuard c with
      | false => rfl
      | true => exact absurd ((mergeGuard_iff s c).1 h) hG
    refine ⟨_, push_of_not_mergeGuard s c hg hm, rfl, rfl, ?_⟩
    intro h1
    have hk : (s.undoStack ++ [c]).length - s.maxStackSize.toNat ≤ s.undoStack.length := by
      simp only [List.length_append, List.length_singleton]
      omega
    simp only
    rw [List.drop_append_of_le_length hk]
    simp

/-- Witness for C6: both branches on concrete stacks (a second adjacent Insert inside
the merge window, and a first push on the fresh stack). -/
theorem C6_push_merge_or_new_witness :
    (∃ u top,
      (UndoRedoStack.undoStack
          { UndoRedoStack.fresh with
            undoStack := [⟨CommandType.Insert, 0, "a", 0, 1⟩], lastCommandTime := 1,
            commandCount := 1 }) = u ++ [top] ∧
        UndoRedoStack.push
          { UndoRedoStack.fresh with
            undoStack := [⟨CommandType.Insert, 0, "a", 0, 1⟩], lastCommandTime := 1,
            commandCount := 1 }
          ⟨CommandType.Insert, 1, "b", 0, 2⟩
        = some { UndoRedoStack.fresh with
            undoStack := u ++ [{ top with commandText := top.commandText ++ "b" }],
            lastCommandTime := 2, commandCount := 1 }) ∧
    (∃ s1, UndoRedoStack.fresh.push ⟨CommandType.Insert, 0, "a", 0, 1⟩ = some s1 ∧
        s1.commandCount = 1 ∧ s1.undoStack.getLast? = some ⟨CommandType.Insert, 0, "a", 0, 1⟩) := by
  constructor
  · obtain ⟨u, top, h1, h2, -⟩ :=
      (C6_push_merge_or_new
        { UndoRedoStack.fresh with
          undoStack := [⟨CommandType.Insert, 0, "a", 0, 1⟩], lastCommandTime := 1,
          commandCount := 1 }
        ⟨CommandType.Insert, 1, "b", 0, 2⟩).1
        ⟨rfl, [], ⟨CommandType.Insert, 0, "a", 0, 1⟩, rfl, by decide, by decide⟩
    exact ⟨u, top, h1, h2⟩
  · obtain ⟨s1, h1, h2, -, h4⟩ :=
      (C6_push_merge_or_new UndoRedoStack.fresh ⟨CommandType.Insert, 0, "a", 0, 1⟩).2
        (by rintro ⟨-, u, top, hu, -⟩; exact absurd hu (by simp [UndoRedoStack.fresh]))
        (by decide)
    exact ⟨s1, h1, h2, h4 (by decide)⟩

/-- Witness for C9: an undo on a stack holding one entry, and a redo on the stack that
undo leaves. -/
theorem C9_undo_redo_move_top_witness :
    (∃ u c,
      UndoRedoStack.undoStack
          { UndoRedoStack.fresh with undoStack := [⟨CommandType.Insert, 0, "a", 0, 1⟩] }
        = u ++ [c] ∧
      UndoRedoStack.undo 5
          { UndoRedoStack.fresh with undoStack := [⟨CommandType.Insert, 0, "a", 0, 1⟩] }
        = (c, { UndoRedoStack.fresh with undoStack := u, redoStack := [] ++ [c] }) ∧
      UndoRedoStack.redo 6
          (UndoRedoStack.undo 5
            { UndoRedoStack.fresh with undoStack := [⟨CommandType.Insert, 0, "a", 0, 1⟩] }).2
        = (c, { UndoRedoStack.fresh with undoStack := [⟨CommandType.Insert, 0, "a", 0, 1⟩] })) ∧
    (∃ r c,
      UndoRedoStack.redoStack
          { UndoRedoStack.fresh with redoStack := [⟨CommandType.Insert, 0, "a", 0, 1⟩] }
        = r ++ [c] ∧
      UndoRedoStack.redo 5
          { UndoRedoStack.fresh with redoStack := [⟨CommandType.Insert, 0, "a", 0, 1⟩] }
        = (c, { UndoRedoStack.fresh with redoStack := r, undoStack := [] ++ [c] }) ∧
      UndoRedoStack.undo 6
          (UndoRedoStack.redo 5
            { UndoRedoStack.fresh with redoStack := [⟨CommandType.Insert, 0, "a", 0, 1⟩] }).2
        = (c, { UndoRedoStack.fresh with redoStack := [⟨CommandType.Insert, 0, "a", 0, 1⟩] })) :=
  ⟨(C9_undo_redo_move_top 5 6
      { UndoRedoStack.fresh with undoStack := [⟨CommandType.Insert, 0, "a", 0, 1⟩] }).1
      (by decide),
    (C9_undo_redo_move_top 5 6
      { UndoRedoStack.fresh with redoStack := [⟨CommandType.Insert, 0, "a", 0, 1⟩] }).2
      (by decide)⟩

/-- C10: `describeCommand` gives "Insert at pos <p>: '<text>'" for an Insert,
"Replace at pos <p>: '<text>'" for a Replace and "Delete at pos <p>: <n> chars" for a
Delete (`p` and `n` in decimal); `getCommandDescription(i)` is that description of the
entry `i` places below the top of the undo stack when `0 <= i < undoCount()`, and the
empty string for every other `i`. -/
theorem C10_descriptions (s : UndoRedoStack) (cmd : EditCommand) (i : Int) :
    (cmd.commandType = CommandType.Insert →
      describeCommand cmd =
        "Insert at pos " ++ toString cmd.commandPos ++ ": '" ++ cmd.commandText ++ "'") ∧
    (cmd.commandType = CommandType.Replace →
      describeCommand cmd =
        "Replace at pos " ++ toString cmd.commandPos ++ ": '" ++ cmd.commandText ++ "'") ∧
    (cmd.commandType = CommandType.Delete →
      describeCommand cmd =
        "Delete at pos " ++ toString cmd.commandPos ++ ": " ++ toString cmd.commandLength
          ++ " chars") ∧
    (0 ≤ i → i < s.undoCount →
      ∃ e, s.undoStack.reverse[i.toNat]? = some e ∧
        s.getCommandDescription i = describeCommand e) ∧
    (¬ (0 ≤ i ∧ i < s.undoCount) → s.getCommandDescription i = "") := by
  refine ⟨?_, ?_, ?_, ?_, ?_⟩
  · intro h
    unfold describeCommand
    rw [h]
  · intro h
    unfold describeCommand
    rw [h]
  · intro h
    unfold describeCommand
    rw [h]
  · intro h0 hlt
    unfold UndoRedoStack.undoCount at hlt
    have hi : i.toNat < s.undoStack.length := by omega
    have hidx : ((s.undoStack.length : Int) - 1 - i).toNat = s.undoStack.length - 1 - i.toNat := by
      omega
    have hj : s.undoStack.length - 1 - i.toNat < s.undoStack.length := by omega
    refine ⟨s.undoStack[s.undoStack.length - 1 - i.toNat], ?_, ?_⟩
    · rw [List.getElem?_reverse hi]
      exact List.getElem?_eq_getElem hj
    · unfold UndoRedoStack.getCommandDescription
      rw [if_neg (by omega), hidx, List.getElem?_eq_getElem hj]
  · intro h
    unfold UndoRedoStack.undoCount at h
    unfold UndoRedoStack.getCommandDescription
    rw [if_pos (by omega)]

/-- Witness for C10: a stack holding an Insert below a Delete; index 0 describes the
Delete on top, index 1 the Insert, index 2 and index -1 give the empty string. -/
theorem C10_descriptions_witness :
    UndoRedoStack.getCommandDescription
        { UndoRedoStack.fresh with
          undoStack := [⟨CommandType.Insert, 12, "ab", 0, 1⟩, ⟨CommandType.Delete, 4, "", 2, 2⟩] }
        1 = "Insert at pos 12: 'ab'" ∧
    UndoRedoStack.getCommandDescription
        { UndoRedoStack.fresh with
          undoStack := [⟨CommandType.Insert, 12, "ab", 0, 1⟩, ⟨CommandType.Delete, 4, "", 2, 2⟩] }
        0 = "Delete at pos 4: 2 chars" ∧
    UndoRedoStack.getCommandDescription
        { UndoRedoStack.fresh with
          undoStack := [⟨CommandType.Insert, 12, "ab", 0, 1⟩, ⟨CommandType.Delete, 4, "", 2, 2⟩] }
        2 = "" ∧
    describeCommand ⟨CommandType.Replace, -3, "x", 0, 1⟩ = "Replace at pos -3: 'x'" := by
  refine ⟨?_, ?_, ?_, ?_⟩
  · obtain ⟨e, he, hd⟩ :=
      (C10_descriptions
        { UndoRedoStack.fresh with
          undoStack := [⟨CommandType.Insert, 12, "ab", 0, 1⟩, ⟨CommandType.Delete, 4, "", 2, 2⟩] }
        ⟨CommandType.Insert, 12, "ab", 0, 1⟩ 1).2.2.2.1 (by decide) (by decide)
    rw [hd]
    cases he
    decide
  · obtain ⟨e, he, hd⟩ :=
      (C10_descriptions
        { UndoRedoStack.fresh with
          undoStack := [⟨CommandType.Insert, 12, "ab", 0, 1⟩, ⟨CommandType.Delete, 4, "", 2, 2⟩] }
        ⟨CommandType.Insert, 12, "ab", 0, 1⟩ 0).2.2.2.1 (by decide) (by decide)
    rw [hd]
    cases he
    decide
  · exact (C10_descriptions
        { UndoRedoStack.fresh with
          undoStack := [⟨CommandType.Insert, 12, "ab", 0, 1⟩, ⟨CommandType.Delete, 4, "", 2, 2⟩] }
        ⟨CommandType.Insert, 12, "ab", 0, 1⟩ 2).2.2.2.2 (by decide)
  · rw [(C10_descriptions UndoRedoStack.fresh ⟨CommandType.Replace, -3, "x", 0, 1⟩ 0).2.1 rfl]
    decide

theorem applyOp_plain_keeps (s : UndoRedoStack) (op : Op) (hop : plainOp op = true)
    (hI : s.undoCount + s.redoCount ≤ s.maxStackSize)
    (hJ : s.undoCount + s.redoCount ≤ s.commandCount) :
    ∃ s1, applyOp s op = some s1 ∧ s1.maxStackSize = s.maxStackSize ∧
      s1.undoCount + s1.redoCount ≤ s1.maxStackSize ∧
      s1.undoCount + s1.redoCount ≤ s1.commandCount := by
  unfold UndoRedoStack.undoCount UndoRedoStack.redoCount at hI hJ
  have hm : 0 ≤ s.maxStackSize := by omega
  cases op with
  | push c =>
    cases hg : s.mergeGuard c with
    | false =>
      refine ⟨_, push_of_not_mergeGuard s c hg hm, rfl, ?_, ?_⟩
      · unfold UndoRedoStack.undoCount UndoRedoStack.redoCount
        simp only [List.length_drop, List.length_append, List.length_singleton, List.length_nil]
        omega
      · unfold UndoRedoStack.undoCount UndoRedoStack.redoCount
        simp only [List.length_drop, List.length_append, List.length_singleton, List.length_nil]
        omega
    | true =>
      obtain ⟨-, u, top, hu, -, -⟩ := (mergeGuard_iff s c).1 hg
      refine ⟨_, push_of_mergeGuard s c u top hu hg, rfl, ?_, ?_⟩
      · unfold UndoRedoStack.undoCount UndoRedoStack.redoCount
        rw [hu] at hI
        simp only [List.length_append, List.length_singleton, List.length_nil] at hI ⊢
        omega
      · unfold UndoRedoStack.undoCount UndoRedoStack.redoCount
        rw [hu] at hJ
        simp only [List.length_append, List.length_singleton, List.length_nil] at hJ ⊢
        omega
  | undo now =>
    rcases nil_or_snoc s.undoStack with h | ⟨u, c, h⟩
    · refine ⟨_, rfl, ?_, ?_, ?_⟩ <;> rw [undo_nil now s h]
      · exact hI
      · exact hJ
    · refine ⟨_, rfl, ?_, ?_, ?_⟩ <;> rw [undo_concat now s u c h]
      · unfold UndoRedoStack.undoCount UndoRedoStack.redoCount
        rw [h] at hI
        simp only [List.length_append, List.length_singleton] at hI ⊢
        push_cast at hI ⊢
        omega
      · unfold UndoRedoStack.undoCount UndoRedoStack.redoCount
        rw [h] at hJ
        simp only [List.length_append, List.length_singleton] at hJ ⊢
        push_cast at hJ ⊢
        omega
  | redo now =>
    rcases nil_or_snoc s.redoStack with h | ⟨r, c, h⟩
    · refine ⟨_, rfl, ?_, ?_, ?_⟩ <;> rw [redo_nil now s h]
      · exact hI
      · exact hJ
    · refine ⟨_, rfl, ?_, ?_, ?_⟩ <;> rw [redo_concat now s r c h]
      · unfold UndoRedoStack.undoCount UndoRedoStack.redoCount
        rw [h] at hI
        simp only [List.length_append, List.length_singleton] at hI ⊢
        push_cast at hI ⊢
        omega
      · unfold UndoRedoStack.undoCount UndoRedoStack.redoCount
        rw [h] at hJ
        simp only [List.length_append, List.length_singleton] at hJ ⊢
        push_cast at hJ ⊢
        omega
  | clear =>
    refine ⟨_, rfl, rfl, ?_, ?_⟩
    · unfold UndoRedoStack.clear UndoRedoStack.undoCount UndoRedoStack.redoCount
      simpa using hm
    · unfold UndoRedoStack.clear UndoRedoStack.undoCount UndoRedoStack.redoCount
      simp
  | setMaxStackSize m => simp [plainOp] at hop
  | setMergeTimeout ms => simp [plainOp] at hop
  | setMergeEnabled b => simp [plainOp] at hop

theorem run_plain_keeps (ops : List Op) :
    ∀ s : UndoRedoStack, ops.all plainOp = true →
      s.undoCount + s.redoCount ≤ s.maxStackSize →
      s.undoCount + s.redoCount ≤ s.commandCount →
      ∃ s1, run s ops = some s1 ∧ s1.maxStackSize = s.maxStackSize ∧
        s1.undoCount + s1.redoCount ≤ s1.maxStackSize ∧
        s1.undoCount + s1.redoCount ≤ s1.commandCount := by
  induction ops with
  | nil =>
    intro s _ hI hJ
    exact ⟨s, rfl, rfl, hI, hJ⟩
  | cons op ops ih =>
    intro s hall hI hJ
    simp only [List.all_cons, Bool.and_eq_true] at hall
    obtain ⟨s1, h1, hmax1, hI1, hJ1⟩ := applyOp_plain_keeps s op hall.1 hI hJ
    obtain ⟨s2, h2, hmax2, hI2, hJ2⟩ := ih s1 hall.2 hI1 hJ1
    refine ⟨s2, ?_, by rw [hmax2, hmax1], hI2, hJ2⟩
    unfold run
    rw [h1]
    exact h2

/-- C28: `a.merge(b)` leaves the kind, position, length and timestamp of `a` as they
were, and leaves the text too when `a.canMerge(b)` fails; so two merged Delete
commands keep the length field of the first (not the sum), and the description of the
merged entry shows that length. -/
theorem C28_merge_changes_text_only (a b : EditCommand) :
    (a.merge b).commandType = a.commandType ∧
    (a.merge b).commandPos = a.commandPos ∧
    (a.merge b).commandLength = a.commandLength ∧
    (a.merge b).commandTimestamp = a.commandTimestamp ∧
    (a.canMerge b = false → a.merge b = a) ∧
    (a.commandType = CommandType.Delete → b.commandType = CommandType.Delete →
      (a.merge b).commandLength = a.commandLength ∧
      describeCommand (a.merge b) =
        "Delete at pos " ++ toString a.commandPos ++ ": " ++ toString a.commandLength
          ++ " chars") := by
  have h4 : (a.merge b).commandType = a.commandType ∧
      (a.merge b).commandPos = a.commandPos ∧
      (a.merge b).commandLength = a.commandLength ∧
      (a.merge b).commandTimestamp = a.commandTimestamp := by
    unfold EditCommand.merge
    split <;> exact ⟨rfl, rfl, rfl, rfl⟩
  obtain ⟨h1, h2, h3, h5⟩ := h4
  refine ⟨h1, h2, h3, h5, ?_, ?_⟩
  · intro hc
    unfold EditCommand.merge
    simp [hc]
  · intro ha _
    refine ⟨h3, ?_⟩
    unfold describeCommand
    rw [h1, ha, h2, h3]

/-- Witness for C28: a Delete of length 1 at 5 merged with a Delete of length 1 at 6
keeps length 1. -/
theorem C28_merge_changes_text_only_witness :
    (EditCommand.merge ⟨CommandType.Delete, 5, "x", 1, 10⟩
        ⟨CommandType.Delete, 6, "y", 1, 20⟩).commandLength = 1 ∧
    describeCommand (EditCommand.merge ⟨CommandType.Delete, 5, "x", 1, 10⟩
        ⟨CommandType.Delete, 6, "y", 1, 20⟩)
      = "Delete at pos " ++ toString (5 : Int) ++ ": " ++ toString (1 : Int) ++ " chars" :=
  (C28_merge_changes_text_only ⟨CommandType.Delete, 5, "x", 1, 10⟩
    ⟨CommandType.Delete, 6, "y", 1, 20⟩).2.2.2.2.2 rfl rfl

/-- C29: with `maxStackSize` set to `m >= 0` on a freshly constructed stack and not
changed afterwards, every sequence of `push`, `undo`, `redo` and `clear` calls runs
to completion and ends in a state with `undoCount() + redoCount() <= m` and
`undoCount() + redoCount() <= getCommandCount()`; in particular `undoCount() <= m`,
also after a `redo()`. -/
theorem C29_counts_bounded (m : Int) (hm : 0 ≤ m) (ops : List Op)
    (hops : ops.all plainOp = true) :
    ∃ s, run (UndoRedoStack.fresh.setMaxStackSize m) ops = some s ∧
      s.maxStackSize = m ∧
      s.undoCount + s.redoCount ≤ m ∧
      s.undoCount + s.redoCount ≤ s.getCommandCount ∧
      s.undoCount ≤ m := by
  obtain ⟨s, h1, h2, h3, h4⟩ := run_plain_keeps ops (UndoRedoStack.fresh.setMaxStackSize m) hops
    (by simpa [UndoRedoStack.undoCount, UndoRedoStack.redoCount, UndoRedoStack.fresh,
      UndoRedoStack.setMaxStackSize] using hm)
    (by simp [UndoRedoStack.undoCount, UndoRedoStack.redoCount, UndoRedoStack.fresh,
      UndoRedoStack.setMaxStackSize])
  have h5 : s.maxStackSize = m := by rw [h2]; rfl
  have h6 : 0 ≤ s.redoCount := by
    unfold UndoRedoStack.redoCount
    exact Int.ofNat_nonneg _
  rw [h5] at h3
  exact ⟨s, h1, h5, h3, h4, by omega⟩

/-- Witness for C29: capacity 1, two pushes, an undo and a redo. -/
theorem C29_counts_bounded_witness :
    ∃ s, run (UndoRedoStack.fresh.setMaxStackSize 1)
        [Op.push ⟨CommandType.Insert, 0, "a", 0, 1⟩,
          Op.push ⟨CommandType.Delete, 4, "", 2, 2⟩, Op.undo 3, Op.redo 4] = some s ∧
      s.maxStackSize = 1 ∧
      s.undoCount + s.redoCount ≤ 1 ∧
      s.undoCount + s.redoCount ≤ s.getCommandCount ∧
      s.undoCount ≤ 1 :=
  C29_counts_bounded 1 (by decide)
    [Op.push ⟨CommandType.Insert, 0, "a", 0, 1⟩,
      Op.push ⟨CommandType.Delete, 4, "", 2, 2⟩, Op.undo 3, Op.redo 4] (by decide)

end UndoRedo

namespace Search

/-! ## Auxiliary facts on escaping and pattern reading -/

theorem replaceChar_append (before : Char) (after x y : List Char) :
    replaceChar before after (x ++ y) = replaceChar before after x ++ replaceChar before after y := by
  unfold replaceChar
  exact List.flatMap_append x y _

theorem escape_append (x y : List Char) :
    escapeRegexSpecialChars (x ++ y) = escapeRegexSpecialChars x ++ escapeRegexSpecialChars y := by
  unfold escapeRegexSpecialChars
  simp only [replaceChar_append]

theorem escape_nil : escapeRegexSpecialChars [] = [] := rfl

theorem escape_singleton (c : Char) :
    escapeRegexSpecialChars [c] = if c ∈ metaChars then ['\\', c] else [c] := by
  by_cases h : c ∈ metaChars
  · rw [if_pos h]
    simp only [metaChars, List.mem_cons, List.mem_singleton, List.not_mem_nil, or_false] at h
    rcases h with h | h | h | h | h | h | h | h | h | h | h | h | h | h <;> subst h <;> decide
  · rw [if_neg h]
    simp only [metaChars, List.mem_cons, List.mem_singleton, List.not_mem_nil, or_false,
      not_or] at h
    obtain ⟨h1, h2, h3, h4, h5, h6, h7, h8, h9, h10, h11, h12, h13, h14⟩ := h
    simp [escapeRegexSpecialChars, replaceChar, h1, h2, h3, h4, h5, h6, h7, h8, h9, h10, h11,
      h12, h13, h14]

theorem escape_cons (c : Char) (q : List Char) :
    escapeRegexSpecialChars (c :: q) =
      (if c ∈ metaChars then ['\\', c] else [c]) ++ escapeRegexSpecialChars q := by
  have h : c :: q = [c] ++ q := rfl
  rw [h, escape_append, escape_singleton]

theorem parseAtoms_escape_append (q tail : List Char) :
    parseAtoms false (escapeRegexSpecialChars q ++ tail) =
      (parseAtoms false tail).map fun atoms => q.map Atom.lit ++ atoms := by
  induction q with
  | nil =>
    rw [escape_nil]
    simp
  | cons c q ih =>
    rw [escape_cons]
    by_cases h : c ∈ metaChars
    · have hb : c ≠ 'b' := by
        intro hc
        rw [hc] at h
        revert h
        decide
      rw [if_pos h]
      by_cases hbs : c = '\\'
      · subst hbs
        simp only [List.cons_append, List.nil_append]
        rw [parseAtoms]
        simp only [if_true]
        rw [parseAtoms]
        rw [if_neg (by decide), if_pos (by decide), ih]
        cases parseAtoms false tail <;> simp
      · simp only [List.cons_append, List.nil_append]
        rw [parseAtoms]
        simp only [if_true]
        rw [parseAtoms]
        rw [if_neg hb, if_pos h, ih]
        cases parseAtoms false tail <;> simp
    · have hbs : c ≠ '\\' := by
        intro hc
        rw [hc] at h
        exact h (by decide)
      rw [if_neg h]
      simp only [List.cons_append, List.nil_append]
      rw [parseAtoms]
      rw [if_neg hbs, if_neg h, ih]
      cases parseAtoms false tail <;> simp

theorem parseAtoms_escape (q : List Char) :
    parseAtoms false (escapeRegexSpecialChars q) = some (q.map Atom.lit) := by
  have h := parseAtoms_escape_append q []
  rw [List.append_nil] at h
  rw [h]
  simp [parseAtoms]

theorem parseAtoms_wholeWord (q : List Char) :
    parseAtoms false (['\\', 'b'] ++ escapeRegexSpecialChars q ++ ['\\', 'b']) =
      some (Atom.wordBoundary :: (q.map Atom.lit ++ [Atom.wordBoundary])) := by
  have h : (['\\', 'b'] ++ escapeRegexSpecialChars q ++ ['\\', 'b'] : List Char) =
      '\\' :: 'b' :: (escapeRegexSpecialChars q ++ ['\\', 'b']) := by simp
  rw [h]
  rw [parseAtoms]
  simp only [if_true]
  rw [parseAtoms]
  simp only [if_true]
  rw [parseAtoms_escape_append]
  have h2 : parseAtoms false ['\\', 'b'] = some [Atom.wordBoundary] := by decide
  rw [h2]
  rfl

/-! ## Auxiliary facts on matching -/

theorem literalOnly_sound : RegexLibrary.literalOnly.Sound := by
  intro pattern caseless subject offset flag s e h
  simp [RegexLibrary.literalOnly] at h

theorem charMatches_iff (fold : Char → Char) (caseless : Bool) (c d : Char) :
    charMatches fold caseless c d = true ↔ compareKey fold caseless c = compareKey fold caseless d := by
  unfold charMatches compareKey
  cases caseless <;> simp

theorem drop_of_getElem? (l : List Char) (p : Nat) (d : Char) (h : l[p]? = some d) :
    l.drop p = d :: l.drop (p + 1) := by
  obtain ⟨hp, hd⟩ := List.getElem?_eq_some.1 h
  rw [List.drop_eq_getElem_cons hp, hd]

theorem drop_of_getElem?_none (l : List Char) (p : Nat) (h : l[p]? = none) :
    l.drop p = [] := by
  rw [List.getElem?_eq_none_iff] at h
  exact List.drop_eq_nil_of_le h

theorem matchAtoms_bound (fold : Char → Char) (caseless : Bool) (subject : List Char)
    (atoms : List Atom) :
    ∀ p e, p ≤ subject.length → matchAtoms fold caseless subject atoms p = some e →
      e = p + litCount atoms ∧ e ≤ subject.length := by
  induction atoms with
  | nil =>
    intro p e hp h
    simp only [matchAtoms, Option.some.injEq] at h
    subst h
    exact ⟨rfl, hp⟩
  | cons a rest ih =>
    intro p e hp h
    cases a with
    | lit c =>
      rw [matchAtoms] at h
      cases hd : subject[p]? with
      | none =>
        rw [hd] at h
        simp at h
      | some d =>
        rw [hd] at h
        simp only at h
        split at h
        · have hlt : p < subject.length := (List.getElem?_eq_some.1 hd).1
          obtain ⟨h1, h2⟩ := ih (p + 1) e hlt h
          refine ⟨?_, h2⟩
          rw [h1, litCount]
          omega
        · simp at h
    | wordBoundary =>
      rw [matchAtoms] at h
      split at h
      · obtain ⟨h1, h2⟩ := ih p e hp h
        exact ⟨by rw [h1, litCount], h2⟩
      · simp at h

theorem matchAtoms_append (fold : Char → Char) (caseless : Bool) (subject : List Char)
    (xs ys : List Atom) :
    ∀ p, matchAtoms fold caseless subject (xs ++ ys) p =
      (matchAtoms fold caseless subject xs p).bind (matchAtoms fold caseless subject ys) := by
  induction xs with
  | nil =>
    intro p
    simp [matchAtoms]
  | cons a rest ih =>
    intro p
    cases a with
    | lit c =>
      simp only [List.cons_append, matchAtoms]
      cases subject[p]? with
      | none => simp
      | some d =>
        simp only
        split
        · exact ih (p + 1)
        · simp
    | wordBoundary =>
      simp only [List.cons_append, matchAtoms]
      split
      · exact ih p
      · simp

theorem occursAt_nil (fold : Char → Char) (caseless : Bool) (text : List Char) (p : Nat) :
    occursAt fold caseless text [] p = true := by
  simp [occursAt]

theorem occursAt_cons (fold : Char → Char) (caseless : Bool) (text : List Char) (c : Char)
    (q : List Char) (p : Nat) :
    occursAt fold caseless text (c :: q) p =
      match text[p]? with
      | some d => charMatches fold caseless c d && occursAt fold caseless text q (p + 1)
      | none => false := by
  cases hd : text[p]? with
  | none =>
    simp only [occursAt, drop_of_getElem?_none text p hd]
    simp
  | some d =>
    simp only [occursAt, drop_of_getElem? text p d hd, List.length_cons, List.take_succ_cons,
      List.map_cons, List.cons.injEq]
    rw [Bool.eq_iff_iff]
    simp only [decide_eq_true_eq, Bool.and_eq_true, charMatches_iff]
    constructor
    · rintro ⟨h1, h2⟩
      exact ⟨h1.symm, h2⟩
    · rintro ⟨h1, h2⟩
      exact ⟨h1.symm, h2⟩

theorem matchAtoms_lits (fold : Char → Char) (caseless : Bool) (subject : List Char)
    (q : List Char) :
    ∀ p, matchAtoms fold caseless subject (q.map Atom.lit) p =
      if occursAt fold caseless subject q p then some (p + q.length) else none := by
  induction q with
  | nil =>
    intro p
    simp [matchAtoms, occursAt_nil]
  | cons c q ih =>
    intro p
    rw [occursAt_cons]
    simp only [List.map_cons, matchAtoms, List.length_cons]
    cases subject[p]? with
    | none => simp
    | some d =>
      simp only
      rw [ih (p + 1)]
      have e : p + 1 + q.length = p + (q.length + 1) := by omega
      rw [e]
      by_cases h1 : charMatches fold caseless c d = true
      · simp [h1]
      · simp [h1]

theorem searchFrom_some (matchAt : Nat → Option Nat) :
    ∀ (count p s e : Nat), searchFrom matchAt count p = some (s, e) →
      p ≤ s ∧ s < p + count ∧ matchAt s = some e ∧ ∀ j, p ≤ j → j < s → matchAt j = none := by
  intro count
  induction count with
  | zero =>
    intro p s e h
    simp [searchFrom] at h
  | succ count ih =>
    intro p s e h
    rw [searchFrom] at h
    cases hm : matchAt p with
    | some e1 =>
      rw [hm] at h
      simp only [Option.some.injEq, Prod.mk.injEq] at h
      obtain ⟨h1, h2⟩ := h
      subst h1
      subst h2
      exact ⟨le_refl _, by omega, hm, fun j hj1 hj2 => by omega⟩
    | none =>
      rw [hm] at h
      simp only at h
      obtain ⟨h1, h2, h3, h4⟩ := ih (p + 1) s e h
      refine ⟨by omega, by omega, h3, ?_⟩
      intro j hj1 hj2
      by_cases hj : j = p
      · rw [hj]
        exact hm
      · exact h4 j (by omega) hj2

theorem searchFrom_none (matchAt : Nat → Option Nat) :
    ∀ (count p : Nat), searchFrom matchAt count p = none →
      ∀ j, p ≤ j → j < p + count → matchAt j = none := by
  intro count
  induction count with
  | zero =>
    intro p _ j hj1 hj2
    omega
  | succ count ih =>
    intro p h j hj1 hj2
    rw [searchFrom] at h
    cases hm : matchAt p with
    | some e1 =>
      rw [hm] at h
      simp at h
    | none =>
      rw [hm] at h
      simp only at h
      by_cases hj : j = p
      · rw [hj]
        exact hm
      · exact ih (p + 1) h j (by omega) (by omega)

theorem execAtoms_sound (fold : Char → Char) (caseless : Bool) (subject : List Char)
    (atoms : List Atom) :
    SoundExec (execAtoms fold caseless subject atoms) subject.length := by
  intro offset flag s e h
  unfold execAtoms at h
  split at h
  · simp at h
  · rename_i hoff
    have hoff2 : offset ≤ subject.length := by omega
    split at h
    · rename_i hflag
      cases hm : matchAtoms fold caseless subject atoms offset with
      | none =>
        rw [hm] at h
        simp at h
      | some e1 =>
        rw [hm] at h
        simp only at h
        split at h
        · rename_i hlt
          simp only [Option.some.injEq, Prod.mk.injEq] at h
          obtain ⟨h1, h2⟩ := h
          subst h1
          subst h2
          obtain ⟨-, hb⟩ := matchAtoms_bound fold caseless subject atoms offset e1 hoff2 hm
          exact ⟨le_refl _, by omega, hb, fun _ => ⟨rfl, hlt⟩⟩
        · simp at h
    · rename_i hflag
      obtain ⟨h1, h2, h3, -⟩ := searchFrom_some _ _ _ _ _ h
      obtain ⟨hb1, hb2⟩ := matchAtoms_bound fold caseless subject atoms s e (by omega) h3
      refine ⟨h1, by omega, hb2, ?_⟩
      intro hf
      exact absurd hf hflag

theorem exec_sound (lib : RegexLibrary) (hlib : lib.Sound) (regex : QRegularExpression)
    (subject : List Char) :
    SoundExec (regex.exec lib subject) subject.length := by
  intro offset flag s e h
  unfold QRegularExpression.exec at h
  split at h
  · exact execAtoms_sound lib.fold regex.caseless subject _ offset flag s e h
  · exact hlib _ _ _ _ _ _ _ h

theorem globalMatchAux_step (exec : Nat → Bool → Option (Nat × Nat)) (len : Nat)
    (hexec : SoundExec exec len) (offset : Nat) (previousEmpty : Bool) (m : Nat × Nat)
    (h : (if previousEmpty then
            match exec offset true with
            | some m => some m
            | none => exec (offset + 1) false
          else exec offset false) = some m) :
    offset ≤ m.1 ∧ m.1 ≤ m.2 ∧ m.2 ≤ len ∧ (previousEmpty = true → offset < m.2) := by
  cases previousEmpty with
  | false =>
    simp only [Bool.false_eq_true, if_false] at h
    obtain ⟨h1, h2, h3, -⟩ := hexec offset false m.1 m.2 h
    exact ⟨h1, h2, h3, fun hf => by simp at hf⟩
  | true =>
    simp only [if_true] at h
    cases ha : exec offset true with
    | some m1 =>
      rw [ha] at h
      simp only [Option.some.injEq] at h
      subst h
      obtain ⟨h1, h2, h3, h4⟩ := hexec offset true m1.1 m1.2 ha
      obtain ⟨h5, h6⟩ := h4 rfl
      exact ⟨h1, h2, h3, fun _ => by omega⟩
    | none =>
      rw [ha] at h
      simp only at h
      obtain ⟨h1, h2, h3, -⟩ := hexec (offset + 1) false m.1 m.2 h
      exact ⟨by omega, h2, h3, fun _ => by omega⟩

theorem globalMatchAux_bounds (exec : Nat → Bool → Option (Nat × Nat)) (len : Nat)
    (hexec : SoundExec exec len) :
    ∀ (fuel offset : Nat) (previousEmpty : Bool),
      ∀ m ∈ globalMatchAux exec fuel offset previousEmpty,
        offset ≤ m.1 ∧ m.1 ≤ m.2 ∧ m.2 ≤ len := by
  intro fuel
  induction fuel with
  | zero =>
    intro offset pe m hm
    simp [globalMatchAux] at hm
  | succ fuel ih =>
    intro offset pe m hm
    rw [globalMatchAux] at hm
    split at hm
    · simp at hm
    · rename_i m1 hfound
      obtain ⟨h1, h2, h3, -⟩ := globalMatchAux_step exec len hexec offset pe m1 hfound
      rcases List.mem_cons.1 hm with h | h
      · rw [h]
        exact ⟨h1, h2, h3⟩
      · obtain ⟨h4, h5, h6⟩ := ih m1.2 _ m h
        exact ⟨by omega, h5, h6⟩

theorem globalMatchAux_pairwise (exec : Nat → Bool → Option (Nat × Nat)) (len : Nat)
    (hexec : SoundExec exec len) :
    ∀ (fuel offset : Nat) (previousEmpty : Bool),
      (globalMatchAux exec fuel offset previousEmpty).Pairwise fun a b => a.2 ≤ b.1 := by
  intro fuel
  induction fuel with
  | zero =>
    intro offset pe
    simp [globalMatchAux]
  | succ fuel ih =>
    intro offset pe
    rw [globalMatchAux]
    split
    · exact List.Pairwise.nil
    · rename_i m1 hfound
      refine List.Pairwise.cons ?_ (ih m1.2 _)
      intro b hb
      exact (globalMatchAux_bounds exec len hexec fuel m1.2 _ b hb).1

theorem globalMatchAux_succ (exec : Nat → Bool → Option (Nat × Nat))
    (fuel offset : Nat) (previousEmpty : Bool) :
    globalMatchAux exec (fuel + 1) offset previousEmpty =
      match (if previousEmpty then
              match exec offset true with
              | some m => some m
              | none => exec (offset + 1) false
            else exec offset false) with
      | none => []
      | some m => m :: globalMatchAux exec fuel m.2 (m.1 == m.2) := by
  rw [globalMatchAux]

theorem globalMatchAux_fuel (exec : Nat → Bool → Option (Nat × Nat)) (len : Nat)
    (hexec : SoundExec exec len) :
    ∀ (fuel offset : Nat) (previousEmpty : Bool), offset ≤ len →
      2 * (len - offset) + (if previousEmpty then 0 else 1) < fuel →
      globalMatchAux exec (fuel + 1) offset previousEmpty
        = globalMatchAux exec fuel offset previousEmpty := by
  intro fuel
  induction fuel with
  | zero =>
    intro offset pe _ h
    omega
  | succ fuel ih =>
    intro offset pe hoff hfuel
    rw [globalMatchAux_succ exec (fuel + 1), globalMatchAux_succ exec fuel]
    cases hfound : (if pe then
              match exec offset true with
              | some m => some m
              | none => exec (offset + 1) false
            else exec offset false) with
    | none => rfl
    | some m1 =>
      obtain ⟨h1, h2, h3, h4⟩ := globalMatchAux_step exec len hexec offset pe m1 hfound
      simp only
      rw [ih m1.2 (m1.1 == m1.2) h3]
      cases pe with
      | true =>
        have h5 := h4 rfl
        simp only [if_true] at hfuel
        split <;> omega
      | false =>
        simp only [Bool.false_eq_true, if_false] at hfuel
        by_cases he : m1.1 = m1.2
        · have hb : (m1.1 == m1.2) = true := by simp [he]
          rw [hb]
          simp only [if_true]
          omega
        · have hb : (m1.1 == m1.2) = false := by simp [he]
          rw [hb]
          simp only [Bool.false_eq_true, if_false]
          omega

theorem globalMatch_fuel_enough (lib : RegexLibrary) (hlib : lib.Sound)
    (regex : QRegularExpression) (subject : List Char) (extra : Nat) :
    globalMatchAux (regex.exec lib subject) (2 * subject.length + 2 + extra) 0 false
      = regex.globalMatch lib subject := by
  unfold QRegularExpression.globalMatch
  induction extra with
  | zero => rfl
  | succ extra ih =>
    have e : 2 * subject.length + 2 + (extra + 1) = (2 * subject.length + 2 + extra) + 1 := by
      omega
    have hlt : 2 * (subject.length - 0) + (if false = true then 0 else 1)
        < 2 * subject.length + 2 + extra := by
      simp only [Bool.false_eq_true, if_false, Nat.sub_zero]
      omega
    rw [e, globalMatchAux_fuel _ _ (exec_sound lib hlib regex subject) _ 0 false
      (Nat.zero_le _) hlt]
    exact ih

theorem findAll_eq (lib : RegexLibrary) (ed : Editor) (q : List Char) (opts : SearchOptions)
    (hq : q ≠ []) :
    findAll lib (some ed) q opts =
      if (findAllRegex q opts).isValid lib then
        ((findAllRegex q opts).globalMatch lib ed.plainText).map (makeResult ed.plainText)
      else [] := by
  have hq2 : q.isEmpty = false := by
    cases q with
    | nil => exact absurd rfl hq
    | cons c q => rfl
  unfold findAll
  simp only [hq2, Bool.false_eq_true, if_false]
  cases (findAllRegex q opts).isValid lib <;> simp

theorem findAll_nil_query (lib : RegexLibrary) (editor : Option Editor) (opts : SearchOptions) :
    findAll lib editor [] opts = [] := by
  unfold findAll
  cases editor <;> simp

theorem findAll_mem (lib : RegexLibrary) (ed : Editor) (q : List Char) (opts : SearchOptions)
    (r : SearchResult) (h : r ∈ findAll lib (some ed) q opts) :
    ∃ m ∈ (findAllRegex q opts).globalMatch lib ed.plainText,
      r = makeResult ed.plainText m := by
  by_cases hq : q = []
  · rw [hq, findAll_nil_query] at h
    simp at h
  · rw [findAll_eq lib ed q opts hq] at h
    split at h
    · obtain ⟨m, hm, hr⟩ := List.mem_map.1 h
      exact ⟨m, hm, hr.symm⟩
    · simp at h

theorem findAll_spans (lib : RegexLibrary) (ed : Editor) (q : List Char) (opts : SearchOptions) :
    ∃ ms : List (Nat × Nat),
      (ms = [] ∨ ms = (findAllRegex q opts).globalMatch lib ed.plainText) ∧
      findAll lib (some ed) q opts = ms.map (makeResult ed.plainText) := by
  by_cases hq : q = []
  · rw [hq, findAll_nil_query]
    exact ⟨[], Or.inl rfl, rfl⟩
  · rw [findAll_eq lib ed q opts hq]
    split
    · exact ⟨_, Or.inr rfl, rfl⟩
    · exact ⟨[], Or.inl rfl, rfl⟩

theorem globalMatch_bounds (lib : RegexLibrary) (hlib : lib.Sound)
    (regex : QRegularExpression) (subject : List Char) :
    (∀ m ∈ regex.globalMatch lib subject, m.1 ≤ m.2 ∧ m.2 ≤ subject.length) ∧
    (regex.globalMatch lib subject).Pairwise fun a b => a.2 ≤ b.1 := by
  constructor
  · intro m hm
    exact (globalMatchAux_bounds _ _ (exec_sound lib hlib regex subject) _ _ _ m hm).2
  · exact globalMatchAux_pairwise _ _ (exec_sound lib hlib regex subject) _ _ _

theorem lastLineLength_concat (xs : List Char) (x : Char) :
    lastLineLength (xs ++ [x]) = if x = '\n' then 0 else lastLineLength xs + 1 := by
  unfold lastLineLength
  rw [List.reverse_append]
  by_cases h : x = '\n'
  · simp [h]
  · simp [h]

theorem lineColumn_foldl (xs : List Char) :
    xs.foldl (fun (lc : Nat × Nat) ch => if ch = '\n' then (lc.1 + 1, 0) else (lc.1, lc.2 + 1))
        (0, 0)
      = (xs.count '\n', lastLineLength xs) := by
  induction xs using List.reverseRecOn with
  | nil => rfl
  | append_singleton xs x ih =>
    rw [List.foldl_append, ih, lastLineLength_concat, List.count_append]
    by_cases h : x = '\n'
    · simp [h]
    · have hc : List.count '\n' [x] = 0 := by
        rw [List.count_eq_zero]
        simpa using fun e => h e.symm
      simp [h, hc]

theorem lineColumn_eq (text : List Char) (s : Nat) :
    lineColumn text s = ((text.take s).count '\n', lastLineLength (text.take s)) := by
  unfold lineColumn
  exact lineColumn_foldl _

theorem lastLineLength_spec (xs : List Char) :
    ∃ before line, xs = before ++ line ∧ '\n' ∉ line ∧
      (before = [] ∨ ∃ init, before = init ++ ['\n']) ∧
      lastLineLength xs = line.length := by
  refine ⟨(xs.reverse.dropWhile fun ch => decide (ch ≠ '\n')).reverse,
    (xs.reverse.takeWhile fun ch => decide (ch ≠ '\n')).reverse, ?_, ?_, ?_, ?_⟩
  · rw [← List.reverse_append, List.takeWhile_append_dropWhile, List.reverse_reverse]
  · intro hmem
    rw [List.mem_reverse] at hmem
    have := List.mem_takeWhile_imp hmem
    simp at this
  · cases hd : xs.reverse.dropWhile fun ch => decide (ch ≠ '\n') with
    | nil => exact Or.inl rfl
    | cons c rest =>
      right
      have hc : ¬ ((fun ch => decide (ch ≠ '\n')) c = true) := by
        have h1 := List.head_dropWhile_not (fun ch => decide (ch ≠ '\n')) xs.reverse
          (by rw [hd]; exact List.cons_ne_nil _ _)
        simp only [hd, List.head_cons] at h1
        simpa using h1
      have hc2 : c = '\n' := by simpa using hc
      exact ⟨rest.reverse, by rw [List.reverse_cons, hc2]⟩
  · unfold lastLineLength
    rw [List.length_reverse]

theorem lastLineLength_of_not_mem (xs : List Char) (h : '\n' ∉ xs) :
    lastLineLength xs = xs.length := by
  unfold lastLineLength
  have : (xs.reverse.takeWhile fun ch => decide (ch ≠ '\n')) = xs.reverse := by
    rw [List.takeWhile_eq_self_iff]
    intro c hc
    rw [List.mem_reverse] at hc
    have : c ≠ '\n' := fun e => h (e ▸ hc)
    simpa using this
  rw [this, List.length_reverse]

theorem foldr_replaceAt (text repl : List Char) :
    ∀ (ms : List (Nat × Nat)) (pos : Nat),
      (∀ m ∈ ms, pos ≤ m.1 ∧ m.1 ≤ m.2 ∧ m.2 ≤ text.length) →
      ms.Pairwise (fun a b => a.2 ≤ b.1) →
      ms.foldr (fun m acc => replaceAt acc m.1 (m.2 - m.1) repl) text
        = text.take pos ++ substituteSpans text repl pos ms := by
  intro ms
  induction ms with
  | nil =>
    intro pos _ _
    simp [substituteSpans]
  | cons m rest ih =>
    intro pos hb hp
    obtain ⟨s, e⟩ := m
    obtain ⟨h1, h2, h3⟩ := hb (s, e) (List.mem_cons_self _ _)
    simp only at h1 h2 h3
    rw [List.pairwise_cons] at hp
    obtain ⟨hp1, hp2⟩ := hp
    have hrest : ∀ m ∈ rest, e ≤ m.1 ∧ m.1 ≤ m.2 ∧ m.2 ≤ text.length := by
      intro m hm
      obtain ⟨-, h5, h6⟩ := hb m (List.mem_cons_of_mem _ hm)
      exact ⟨hp1 m hm, h5, h6⟩
    rw [List.foldr_cons, ih e hrest hp2]
    simp only [substituteSpans]
    have hlen : (text.take e).length = e := by
      rw [List.length_take]
      omega
    unfold replaceAt
    rw [if_neg (by rw [List.length_append, hlen]; omega)]
    have e1 : s + (e - s) = e := by omega
    rw [e1]
    have ht : List.take s (List.take e text ++ substituteSpans text repl e rest)
        = List.take s text := by
      rw [List.take_append_of_le_length (by omega), List.take_take]
      congr 1
      omega
    have hd : List.drop e (List.take e text ++ substituteSpans text repl e rest)
        = substituteSpans text repl e rest := by
      rw [List.drop_append_of_le_length (by omega)]
      have : List.drop e (List.take e text) = [] := by
        apply List.drop_eq_nil_of_le
        omega
      rw [this]
      rfl
    rw [ht, hd]
    have hs : List.take s text = List.take pos text ++ List.take (s - pos) (List.drop pos text) := by
      have e2 : s = pos + (s - pos) := by omega
      conv_lhs => rw [e2]
      exact List.take_add text pos (s - pos)
    rw [hs]
    simp only [List.append_assoc]

theorem matchAtoms_lt (fold : Char → Char) (caseless : Bool) (subject : List Char)
    (atoms : List Atom) :
    ∀ p e, 1 ≤ litCount atoms → matchAtoms fold caseless subject atoms p = some e →
      p < subject.length := by
  induction atoms with
  | nil =>
    intro p e hL _
    simp [litCount] at hL
  | cons a rest ih =>
    intro p e hL h
    cases a with
    | lit c =>
      rw [matchAtoms] at h
      cases hd : subject[p]? with
      | none =>
        rw [hd] at h
        simp at h
      | some d => exact (List.getElem?_eq_some.1 hd).1
    | wordBoundary =>
      rw [matchAtoms] at h
      split at h
      · exact ih p e (by simpa [litCount] using hL) h
      · simp at h

theorem globalMatchAux_scan (matchAt : Nat → Option Nat) (len count : Nat) (hcount : 1 ≤ count)
    (hmatch : ∀ p e, matchAt p = some e → e = p + count ∧ e ≤ len)
    (exec : Nat → Bool → Option (Nat × Nat))
    (hexec : ∀ offset, offset ≤ len →
      exec offset false = searchFrom matchAt (len + 1 - offset) offset) :
    ∀ (fuel offset : Nat), offset ≤ len → len + 1 - offset ≤ fuel →
      (∀ r ∈ globalMatchAux exec fuel offset false, offset ≤ r.1 ∧ matchAt r.1 = some r.2) ∧
      (∀ p, offset ≤ p → (matchAt p).isSome = true →
        ∃ r ∈ globalMatchAux exec fuel offset false, r.1 ≤ p ∧ p < r.2) := by
  intro fuel
  induction fuel with
  | zero =>
    intro offset hoff hfuel
    omega
  | succ fuel ih =>
    intro offset hoff hfuel
    rw [globalMatchAux_succ]
    simp only [Bool.false_eq_true, if_false]
    rw [hexec offset hoff]
    cases hs : searchFrom matchAt (len + 1 - offset) offset with
    | none =>
      simp only
      refine ⟨fun r hr => by simp at hr, ?_⟩
      intro p hp hsome
      obtain ⟨e, he⟩ := Option.isSome_iff_exists.1 hsome
      obtain ⟨h1, h2⟩ := hmatch p e he
      have := searchFrom_none matchAt _ _ hs p hp (by omega)
      rw [this] at he
      simp at he
    | some m =>
      obtain ⟨s, e⟩ := m
      obtain ⟨h1, h2, h3, h4⟩ := searchFrom_some matchAt _ _ _ _ hs
      obtain ⟨h5, h6⟩ := hmatch s e h3
      have hne : (s == e) = false := by
        simp only [beq_eq_false_iff_ne, ne_eq]
        omega
      simp only [hne]
      obtain ⟨ih1, ih2⟩ := ih e h6 (by omega)
      constructor
      · intro r hr
        rcases List.mem_cons.1 hr with h | h
        · rw [h]
          exact ⟨h1, h3⟩
        · obtain ⟨h7, h8⟩ := ih1 r h
          exact ⟨by omega, h8⟩
      · intro p hp hsome
        by_cases hps : p < s
        · rw [h4 p hp hps] at hsome
          simp at hsome
        · by_cases hpe : p < e
          · exact ⟨(s, e), List.mem_cons_self _ _, by simp only; omega, hpe⟩
          · obtain ⟨r, hr, h7, h8⟩ := ih2 p (by omega) hsome
            exact ⟨r, List.mem_cons_of_mem _ hr, h7, h8⟩

theorem globalMatch_atoms (lib : RegexLibrary) (regex : QRegularExpression)
    (subject : List Char) (atoms : List Atom)
    (hparse : parseAtoms false regex.pattern = some atoms) (hcount : 1 ≤ litCount atoms) :
    (∀ r ∈ regex.globalMatch lib subject,
      matchAtoms lib.fold regex.caseless subject atoms r.1 = some r.2) ∧
    (∀ p, (matchAtoms lib.fold regex.caseless subject atoms p).isSome = true →
      ∃ r ∈ regex.globalMatch lib subject, r.1 ≤ p ∧ p < r.2) := by
  have hmatch : ∀ p e, matchAtoms lib.fold regex.caseless subject atoms p = some e →
      e = p + litCount atoms ∧ e ≤ subject.length := by
    intro p e h
    have hlt := matchAtoms_lt lib.fold regex.caseless subject atoms p e hcount h
    exact matchAtoms_bound lib.fold regex.caseless subject atoms p e (by omega) h
  have hexec : ∀ offset, offset ≤ subject.length →
      regex.exec lib subject offset false =
        searchFrom (matchAtoms lib.fold regex.caseless subject atoms)
          (subject.length + 1 - offset) offset := by
    intro offset hoff
    unfold QRegularExpression.exec
    rw [hparse]
    simp only
    unfold execAtoms
    rw [if_neg (by omega)]
    simp
  obtain ⟨h1, h2⟩ := globalMatchAux_scan _ subject.length (litCount atoms) hcount hmatch
    (regex.exec lib subject) hexec (2 * subject.length + 2) 0 (Nat.zero_le _) (by omega)
  exact ⟨fun r hr => (h1 r hr).2, fun p hp => h2 p (Nat.zero_le _) hp⟩

theorem isValid_of_parse (lib : RegexLibrary) (regex : QRegularExpression) (atoms : List Atom)
    (hparse : parseAtoms false regex.pattern = some atoms) : regex.isValid lib = true := by
  unfold QRegularExpression.isValid
  rw [hparse]

theorem litCount_lits (q : List Char) : litCount (q.map Atom.lit) = q.length := by
  induction q with
  | nil => rfl
  | cons c q ih => simp [litCount, ih]

theorem findAllRegex_literal (q : List Char) (opts : SearchOptions)
    (hre : opts.useRegex = false) (hww : opts.wholeWord = false) :
    findAllRegex q opts =
      { pattern := escapeRegexSpecialChars q, caseless := !opts.caseSensitive } := by
  unfold findAllRegex
  simp [hre, hww]

theorem findAllRegex_wholeWord (q : List Char) (opts : SearchOptions)
    (hre : opts.useRegex = false) (hww : opts.wholeWord = true) :
    findAllRegex q opts =
      { pattern := ['\\', 'b'] ++ escapeRegexSpecialChars q ++ ['\\', 'b'],
        caseless := !opts.caseSensitive } := by
  unfold findAllRegex
  simp [hre, hww]

theorem exec_sound_of_parse (lib : RegexLibrary) (regex : QRegularExpression)
    (subject : List Char) (atoms : List Atom)
    (hparse : parseAtoms false regex.pattern = some atoms) :
    SoundExec (regex.exec lib subject) subject.length := by
  intro offset flag s e h
  unfold QRegularExpression.exec at h
  rw [hparse] at h
  exact execAtoms_sound lib.fold regex.caseless subject atoms offset flag s e h

theorem findAll_of_parse (lib : RegexLibrary) (ed : Editor) (q : List Char)
    (opts : SearchOptions) (atoms : List Atom) (hq : q ≠ [])
    (hparse : parseAtoms false (findAllRegex q opts).pattern = some atoms) :
    findAll lib (some ed) q opts =
      ((findAllRegex q opts).globalMatch lib ed.plainText).map (makeResult ed.plainText) := by
  rw [findAll_eq lib ed q opts hq, isValid_of_parse lib _ atoms hparse]
  rfl

theorem pairwise_makeResult (text : List Char) (ms : List (Nat × Nat))
    (h : ms.Pairwise fun a b => a.2 ≤ b.1) :
    (ms.map (makeResult text)).Pairwise fun a b => a.endPosition ≤ b.startPosition := by
  rw [List.pairwise_map]
  exact h

theorem isWordChar_toLower (c : Char) : isWordChar c.toLower = isWordChar c := by
  by_cases h : c.toNat ≥ 65 ∧ c.toNat ≤ 90
  · obtain ⟨n, hn⟩ : ∃ n, c.toNat = n := ⟨_, rfl⟩
    rw [hn] at h
    obtain ⟨h1, h2⟩ := h
    have hc : c = Char.ofNat n := by rw [← hn, Char.ofNat_toNat]
    subst hc
    interval_cases n <;> decide
  · unfold Char.toLower
    simp only
    rw [if_neg h]

theorem toLower_keeps_word (c d : Char) (h : c.toLower = d.toLower) :
    isWordChar c = isWordChar d := by
  rw [← isWordChar_toLower c, ← isWordChar_toLower d, h]

theorem occursAt_word (fold : Char → Char) (caseless : Bool) (text : List Char)
    (q : List Char) :
    ∀ p,
      (∀ c ∈ q, ∀ d ∈ text, compareKey fold caseless c = compareKey fold caseless d →
        isWordChar d = true) →
      occursAt fold caseless text q p = true →
      ∀ i, i < q.length → wordAt text (p + i) = true := by
  induction q with
  | nil =>
    intro p _ _ i hi
    simp at hi
  | cons c q ih =>
    intro p hkey hocc i hi
    rw [occursAt_cons] at hocc
    cases hd : text[p]? with
    | none =>
      rw [hd] at hocc
      simp at hocc
    | some d =>
      rw [hd] at hocc
      simp only [Bool.and_eq_true] at hocc
      obtain ⟨h1, h2⟩ := hocc
      cases i with
      | zero =>
        unfold wordAt
        rw [Nat.add_zero, hd]
        simp only
        exact hkey c (List.mem_cons_self _ _) d (List.mem_iff_getElem?.2 ⟨p, hd⟩)
          ((charMatches_iff fold caseless c d).1 h1)
      | succ j =>
        have := ih (p + 1) (fun x hx => hkey x (List.mem_cons_of_mem _ hx)) h2 j
          (by simpa using hi)
        have e : p + (j + 1) = p + 1 + j := by omega
        rw [e]
        exact this

theorem matchAtoms_wholeWord (fold : Char → Char) (caseless : Bool) (subject q : List Char)
    (p : Nat) :
    matchAtoms fold caseless subject (Atom.wordBoundary :: (q.map Atom.lit ++ [Atom.wordBoundary])) p
      = if (isWordBoundary subject p && occursAt fold caseless subject q p
            && isWordBoundary subject (p + q.length)) = true
        then some (p + q.length) else none := by
  rw [matchAtoms, matchAtoms_append, matchAtoms_lits]
  by_cases h1 : isWordBoundary subject p = true
  · by_cases h2 : occursAt fold caseless subject q p = true
    · by_cases h3 : isWordBoundary subject (p + q.length) = true
      · simp [h1, h2, h3, matchAtoms]
      · simp [h1, h2, h3, matchAtoms]
    · simp [h1, h2]
  · simp [h1]

theorem wholeWord_guard (fold : Char → Char) (caseless : Bool) (text q : List Char)
    (hkey : ∀ c ∈ q, ∀ d ∈ text, compareKey fold caseless c = compareKey fold caseless d →
      isWordChar d = true)
    (hq : q ≠ []) (p : Nat) :
    (isWordBoundary text p && occursAt fold caseless text q p
        && isWordBoundary text (p + q.length))
      = wholeWordAt fold caseless text q p := by
  unfold wholeWordAt
  by_cases hocc : occursAt fold caseless text q p = true
  · have hlen : 1 ≤ q.length := by
      cases q with
      | nil => exact absurd rfl hq
      | cons c q => simp
    have hw := occursAt_word fold caseless text q p hkey hocc
    have hfirst : wordAt text p = true := by
      have := hw 0 (by omega)
      simpa using this
    have hlast : wordAt text (p + q.length - 1) = true := by
      have := hw (q.length - 1) (by omega)
      have e : p + (q.length - 1) = p + q.length - 1 := by omega
      rw [e] at this
      exact this
    have hb1 : isWordBoundary text p = (p == 0 || !wordAt text (p - 1)) := by
      unfold isWordBoundary
      rw [hfirst]
      by_cases hp : p = 0
      · simp [hp]
      · simp [hp]
    have hb2 : isWordBoundary text (p + q.length) = !wordAt text (p + q.length) := by
      unfold isWordBoundary
      rw [if_neg (by omega), hlast]
      simp
    rw [hb1, hb2, hocc]
    simp
  · simp [hocc]

theorem escape_eq_flatMap (q : List Char) :
    escapeRegexSpecialChars q = q.flatMap fun c => if c ∈ metaChars then ['\\', c] else [c] := by
  induction q with
  | nil => rfl
  | cons c q ih =>
    rw [escape_cons, ih, List.flatMap_cons]

theorem occursAt_exact (fold : Char → Char) (text q : List Char) (p : Nat) :
    occursAt fold false text q p = true ↔ (text.drop p).take q.length = q := by
  unfold occursAt
  have hid : compareKey fold false = id := by
    funext c
    rfl
  rw [hid, List.map_id, List.map_id, decide_eq_true_eq]

theorem literal_results (lib : RegexLibrary) (ed : Editor) (q : List Char)
    (opts : SearchOptions) (hq : q ≠ []) (hre : opts.useRegex = false)
    (hww : opts.wholeWord = false) (r : SearchResult)
    (hr : r ∈ findAll lib (some ed) q opts) :
    occursAt lib.fold (!opts.caseSensitive) ed.plainText q r.startPosition = true ∧
      r.endPosition = r.startPosition + q.length ∧
      r.matchedText = (ed.plainText.drop r.startPosition).take q.length := by
  have hregex := findAllRegex_literal q opts hre hww
  have hpat : (findAllRegex q opts).pattern = escapeRegexSpecialChars q := by rw [hregex]
  have hparse : parseAtoms false (findAllRegex q opts).pattern = some (q.map Atom.lit) := by
    rw [hpat, parseAtoms_escape]
  have hcount : 1 ≤ litCount (q.map Atom.lit) := by
    rw [litCount_lits]
    cases q with
    | nil => exact absurd rfl hq
    | cons c q => simp
  have hcase : (findAllRegex q opts).caseless = !opts.caseSensitive := by rw [hregex]
  obtain ⟨hg1, -⟩ := globalMatch_atoms lib (findAllRegex q opts) ed.plainText _ hparse hcount
  rw [findAll_of_parse lib ed q opts _ hq hparse] at hr
  obtain ⟨m, hm, rfl⟩ := List.mem_map.1 hr
  have h1 := hg1 m hm
  rw [matchAtoms_lits, hcase] at h1
  split at h1
  · rename_i hocc
    simp only [Option.some.injEq] at h1
    refine ⟨hocc, h1.symm, ?_⟩
    simp only [makeResult]
    rw [← h1]
    congr 1
    omega
  · simp at h1

theorem matchFrom_literal (lib : RegexLibrary) (q : List Char) (caseless : Bool)
    (text : List Char) (c : Nat) (hq : q ≠ []) :
    (∀ s e,
      QRegularExpression.matchFrom lib ⟨escapeRegexSpecialChars q, caseless⟩ text c = some (s, e) →
        c ≤ s ∧ occursAt lib.fold caseless text q s = true ∧ e = s + q.length ∧
        ∀ j, c ≤ j → j < s → occursAt lib.fold caseless text q j = false) ∧
    (QRegularExpression.matchFrom lib ⟨escapeRegexSpecialChars q, caseless⟩ text c = none →
      ∀ j, c ≤ j → occursAt lib.fold caseless text q j = false) := by
  have hcount : 1 ≤ litCount (q.map Atom.lit) := by
    rw [litCount_lits]
    cases q with
    | nil => exact absurd rfl hq
    | cons c q => simp
  have hexec : QRegularExpression.matchFrom lib ⟨escapeRegexSpecialChars q, caseless⟩ text c
      = execAtoms lib.fold caseless text (q.map Atom.lit) c false := by
    unfold QRegularExpression.matchFrom QRegularExpression.exec
    simp only [parseAtoms_escape]
  have hnone : ∀ j, matchAtoms lib.fold caseless text (q.map Atom.lit) j = none →
      occursAt lib.fold caseless text q j = false := by
    intro j hj
    rw [matchAtoms_lits] at hj
    by_cases ho : occursAt lib.fold caseless text q j = true
    · rw [if_pos ho] at hj
      simp at hj
    · simpa using ho
  have hfar : ∀ j, text.length ≤ j → occursAt lib.fold caseless text q j = false := by
    intro j hj
    apply hnone
    cases hm : matchAtoms lib.fold caseless text (q.map Atom.lit) j with
    | none => rfl
    | some e =>
      have := matchAtoms_lt lib.fold caseless text _ j e hcount hm
      omega
  rw [hexec]
  unfold execAtoms
  by_cases hc : c > text.length
  · rw [if_pos hc]
    refine ⟨fun s e h => by simp at h, fun _ j hj => hfar j (by omega)⟩
  · rw [if_neg hc]
    simp only [Bool.false_eq_true, if_false]
    constructor
    · intro s e h
      obtain ⟨h1, h2, h3, h4⟩ := searchFrom_some _ _ _ _ _ h
      rw [matchAtoms_lits] at h3
      split at h3
      · rename_i hocc
        simp only [Option.some.injEq] at h3
        exact ⟨h1, hocc, h3.symm, fun j hj1 hj2 => hnone j (h4 j hj1 hj2)⟩
      · simp at h3
    · intro h j hj
      by_cases hjl : j < text.length + 1
      · exact hnone j (searchFrom_none _ _ _ h j hj (by omega))
      · exact hfar j (by omega)

/-! ## Claims on searching -/

/-- C11: for a non-empty literal query (`UseRegex` and `WholeWord` unset), every result
of `findAll` is an occurrence of the query in the text, compared up to case folding
unless `CaseSensitive` is set, and spans exactly the query's length; the results do
not overlap and their start positions increase strictly; and every occurrence of
the query starts inside some reported match at or after that match's start, so the
results are exactly those of a left-to-right scan that seeks each next occurrence
from the end of the previous one. -/
theorem C11_literal_search (lib : RegexLibrary) (ed : Editor) (q : List Char)
    (opts : SearchOptions) (hq : q ≠ []) (hre : opts.useRegex = false)
    (hww : opts.wholeWord = false) :
    (∀ r ∈ findAll lib (some ed) q opts,
      occursAt lib.fold (!opts.caseSensitive) ed.plainText q r.startPosition = true ∧
      r.endPosition = r.startPosition + q.length ∧
      r.matchedText = (ed.plainText.drop r.startPosition).take q.length) ∧
    (findAll lib (some ed) q opts).Pairwise (fun a b => a.endPosition ≤ b.startPosition) ∧
    (findAll lib (some ed) q opts).Pairwise (fun a b => a.startPosition < b.startPosition) ∧
    (∀ p, occursAt lib.fold (!opts.caseSensitive) ed.plainText q p = true →
      ∃ r ∈ findAll lib (some ed) q opts, r.startPosition ≤ p ∧ p < r.endPosition) := by
  have hregex := findAllRegex_literal q opts hre hww
  have hpat : (findAllRegex q opts).pattern = escapeRegexSpecialChars q := by rw [hregex]
  have hparse : parseAtoms false (findAllRegex q opts).pattern = some (q.map Atom.lit) := by
    rw [hpat, parseAtoms_escape]
  have hcount : 1 ≤ litCount (q.map Atom.lit) := by
    rw [litCount_lits]
    cases q with
    | nil => exact absurd rfl hq
    | cons c q => simp
  have hcase : (findAllRegex q opts).caseless = !opts.caseSensitive := by rw [hregex]
  obtain ⟨hg1, hg2⟩ := globalMatch_atoms lib (findAllRegex q opts) ed.plainText _ hparse hcount
  have hpair := globalMatchAux_pairwise _ _
    (exec_sound_of_parse lib (findAllRegex q opts) ed.plainText _ hparse)
    (2 * ed.plainText.length + 2) 0 false
  rw [findAll_of_parse lib ed q opts _ hq hparse]
  have hres : ∀ m ∈ (findAllRegex q opts).globalMatch lib ed.plainText,
      occursAt lib.fold (!opts.caseSensitive) ed.plainText q m.1 = true ∧
        m.2 = m.1 + q.length := by
    intro m hm
    have h1 := hg1 m hm
    rw [matchAtoms_lits, hcase] at h1
    split at h1
    · rename_i hocc
      simp only [Option.some.injEq] at h1
      exact ⟨hocc, h1.symm⟩
    · simp at h1
  refine ⟨?_, pairwise_makeResult _ _ hpair, ?_, ?_⟩
  · intro r hr
    obtain ⟨m, hm, rfl⟩ := List.mem_map.1 hr
    obtain ⟨h1, h2⟩ := hres m hm
    refine ⟨h1, h2, ?_⟩
    simp only [makeResult]
    rw [h2]
    congr 1
    omega
  · rw [List.pairwise_map]
    unfold QRegularExpression.globalMatch at hres ⊢
    refine List.Pairwise.imp_of_mem ?_ hpair
    intro a b ha _ hab
    obtain ⟨-, h2⟩ := hres a ha
    simp only [makeResult]
    have : 1 ≤ q.length := by
      rw [litCount_lits] at hcount
      exact hcount
    omega
  · intro p hp
    have hsome : (matchAtoms lib.fold (findAllRegex q opts).caseless ed.plainText
        (q.map Atom.lit) p).isSome = true := by
      rw [matchAtoms_lits, hcase, if_pos hp]
      rfl
    obtain ⟨m, hm, h1, h2⟩ := hg2 p hsome
    exact ⟨makeResult ed.plainText m, List.mem_map_of_mem _ hm, h1, h2⟩

/-- Witness for C11: `findAll("the cat sat", "at", {})` gives the two matches at
offsets 5 and 9, each with text "at", at line 0 and columns 5 and 9. -/
theorem C11_literal_search_witness :
    findAll RegexLibrary.literalOnly (some ⟨"the cat sat".toList, 0⟩) "at".toList
        ⟨false, false, false, false⟩
      = [⟨0, 5, "at".toList, 5, 7⟩, ⟨0, 9, "at".toList, 9, 11⟩] ∧
    (∀ p, occursAt RegexLibrary.literalOnly.fold (!false) "the cat sat".toList "at".toList p = true →
      ∃ r ∈ findAll RegexLibrary.literalOnly (some ⟨"the cat sat".toList, 0⟩) "at".toList
          ⟨false, false, false, false⟩,
        r.startPosition ≤ p ∧ p < r.endPosition) :=
  ⟨by decide,
    (C11_literal_search RegexLibrary.literalOnly ⟨"the cat sat".toList, 0⟩ "at".toList
      ⟨false, false, false, false⟩ (by decide) rfl rfl).2.2.2⟩

/-- C12: with a library whose matches lie at or after the offset and inside the
subject, every result of `findAll` has `0 <= startPosition <= endPosition <=
length(text)`, its `matchedText` is the part of the text from `startPosition` to
`endPosition`, and each result ends at or before the start of every later one (so of
the next one). -/
theorem C12_result_bounds (lib : RegexLibrary) (hlib : lib.Sound) (ed : Editor)
    (q : List Char) (opts : SearchOptions) :
    (∀ r ∈ findAll lib (some ed) q opts,
      0 ≤ r.startPosition ∧ r.startPosition ≤ r.endPosition ∧
      r.endPosition ≤ ed.plainText.length ∧
      r.matchedText =
        (ed.plainText.drop r.startPosition).take (r.endPosition - r.startPosition)) ∧
    (findAll lib (some ed) q opts).Pairwise (fun a b => a.endPosition ≤ b.startPosition) ∧
    (findAll lib (some ed) q opts).Chain' (fun a b => a.endPosition ≤ b.startPosition) := by
  obtain ⟨hb, hp⟩ := globalMatch_bounds lib hlib (findAllRegex q opts) ed.plainText
  have hpair : (findAll lib (some ed) q opts).Pairwise
      (fun a b => a.endPosition ≤ b.startPosition) := by
    obtain ⟨ms, hms, hfa⟩ := findAll_spans lib ed q opts
    rw [hfa]
    rcases hms with h | h
    · rw [h]
      exact List.Pairwise.nil
    · rw [h]
      exact pairwise_makeResult _ _ hp
  refine ⟨?_, hpair, List.Pairwise.chain' hpair⟩
  intro r hr
  obtain ⟨m, hm, rfl⟩ := findAll_mem lib ed q opts r hr
  obtain ⟨h1, h2⟩ := hb m hm
  exact ⟨Nat.zero_le _, h1, h2, rfl⟩

/-- Witness for C12: the results of `findAll("the cat sat", "at", {})`. -/
theorem C12_result_bounds_witness :
    (findAll RegexLibrary.literalOnly (some ⟨"the cat sat".toList, 0⟩) "at".toList
        ⟨false, false, false, false⟩).Pairwise (fun a b => a.endPosition ≤ b.startPosition) :=
  (C12_result_bounds RegexLibrary.literalOnly literalOnly_sound ⟨"the cat sat".toList, 0⟩
    "at".toList ⟨false, false, false, false⟩).2.1

/-- C13: for every result of `findAll`, `lineNumber` is the number of newline
characters in `text[0 .. startPosition)` and `columnNumber` is the number of
characters of `text[0 .. startPosition)` after its last newline (all of them when
there is none): that part of the text splits into `before ++ line` where `line` has
no newline, `before` is empty or ends with a newline, and `columnNumber` is the
length of `line`.  For a text without newlines and a library whose matches lie inside
the subject, `lineNumber = 0` and `columnNumber = startPosition`. -/
theorem C13_line_column (lib : RegexLibrary) (ed : Editor) (q : List Char)
    (opts : SearchOptions) (r : SearchResult) (hr : r ∈ findAll lib (some ed) q opts) :
    r.lineNumber = (ed.plainText.take r.startPosition).count '\n' ∧
    (∃ before line, ed.plainText.take r.startPosition = before ++ line ∧ '\n' ∉ line ∧
      (before = [] ∨ ∃ init, before = init ++ ['\n']) ∧ r.columnNumber = line.length) ∧
    (lib.Sound → '\n' ∉ ed.plainText → r.lineNumber = 0 ∧ r.columnNumber = r.startPosition) := by
  obtain ⟨m, hm, rfl⟩ := findAll_mem lib ed q opts r hr
  simp only [makeResult, lineColumn_eq]
  refine ⟨trivial, ?_, ?_⟩
  · obtain ⟨before, line, h1, h2, h3, h4⟩ := lastLineLength_spec (ed.plainText.take m.1)
    exact ⟨before, line, h1, h2, h3, h4⟩
  · intro hlib hnl
    obtain ⟨hb, -⟩ := globalMatch_bounds lib hlib (findAllRegex q opts) ed.plainText
    obtain ⟨h1, h2⟩ := hb m hm
    have hnl2 : '\n' ∉ ed.plainText.take m.1 := fun h => hnl (List.mem_of_mem_take h)
    constructor
    · rw [List.count_eq_zero]
      exact hnl2
    · rw [lastLineLength_of_not_mem _ hnl2, List.length_take]
      omega

/-- Witness for C13: in "x\ny at\nat" the case-sensitive matches of "at" start at
offsets 4 and 7; the second lies on line 2 at column 0. -/
theorem C13_line_column_witness :
    (2 : Nat) = ("x\ny at\nat".toList.take 7).count '\n' ∧
    (∃ before line, "x\ny at\nat".toList.take 7 = before ++ line ∧ '\n' ∉ line ∧
      (before = [] ∨ ∃ init, before = init ++ ['\n']) ∧ (0 : Nat) = line.length) :=
  ⟨(C13_line_column RegexLibrary.literalOnly ⟨"x\ny at\nat".toList, 0⟩ "at".toList
      ⟨true, false, false, false⟩ ⟨2, 0, "at".toList, 7, 9⟩ (by decide)).1,
    (C13_line_column RegexLibrary.literalOnly ⟨"x\ny at\nat".toList, 0⟩ "at".toList
      ⟨true, false, false, false⟩ ⟨2, 0, "at".toList, 7, 9⟩ (by decide)).2.1⟩

/-- C14: with a library whose matches lie at or after the offset and inside the
subject, if `findAll` returns the `n >= 1` spans `[s1,e1), ..., [sn,en)` then
`replaceAll` returns `n` and sets the buffer to
`text[0..s1) ++ repl ++ text[e1..s2) ++ repl ++ ... ++ repl ++ text[en..]`; if
`findAll` returns no span, `replaceAll` returns 0 and leaves the editor as it was. -/
theorem C14_replaceAll (lib : RegexLibrary) (hlib : lib.Sound) (ed : Editor)
    (q repl : List Char) (opts : SearchOptions) (hq : q ≠ []) :
    (findAll lib (some ed) q opts ≠ [] →
      replaceAll lib (some ed) q repl opts =
        ((findAll lib (some ed) q opts).length,
          some { plainText := substituteSpans ed.plainText repl 0
                   ((findAll lib (some ed) q opts).map fun r => (r.startPosition, r.endPosition)),
                 cursorPosition := 0 })) ∧
    (findAll lib (some ed) q opts = [] → replaceAll lib (some ed) q repl opts = (0, some ed)) := by
  have hq2 : q.isEmpty = false := by
    cases q with
    | nil => exact absurd rfl hq
    | cons c q => rfl
  constructor
  · intro hne
    have hne2 : (findAll lib (some ed) q opts).isEmpty = false := by
      cases h : findAll lib (some ed) q opts with
      | nil => exact absurd h hne
      | cons r rs => rfl
    unfold replaceAll
    simp only [hq2, hne2, Bool.false_eq_true, if_false]
    rw [List.foldl_reverse]
    obtain ⟨ms, hms, hfa⟩ := findAll_spans lib ed q opts
    obtain ⟨hb, hp⟩ := globalMatch_bounds lib hlib (findAllRegex q opts) ed.plainText
    have hms2 : (∀ m ∈ ms, 0 ≤ m.1 ∧ m.1 ≤ m.2 ∧ m.2 ≤ ed.plainText.length) ∧
        ms.Pairwise (fun a b => a.2 ≤ b.1) := by
      rcases hms with h | h
      · rw [h]
        exact ⟨fun m hm => by simp at hm, List.Pairwise.nil⟩
      · rw [h]
        exact ⟨fun m hm => ⟨Nat.zero_le _, hb m hm⟩, hp⟩
    have hspans : (List.map (fun r => (r.startPosition, r.endPosition))
        (List.map (makeResult ed.plainText) ms)) = ms := by
      rw [List.map_map]
      have : ((fun r : SearchResult => (r.startPosition, r.endPosition)) ∘
          makeResult ed.plainText) = id := by
        funext m
        rfl
      rw [this, List.map_id]
    rw [hfa, hspans, List.foldr_map]
    have hfold := foldr_replaceAt ed.plainText repl ms 0 hms2.1 hms2.2
    simp only [List.take_zero, List.nil_append] at hfold
    simp only [makeResult]
    rw [hfold]
  · intro hnil
    unfold replaceAll
    simp [hq2, hnil]

/-- Witness for C14: `replaceAll("aa aa aa", "aa", "bbb", {})` returns 3 and yields
"bbb bbb bbb". -/
theorem C14_replaceAll_witness :
    replaceAll RegexLibrary.literalOnly (some ⟨"aa aa aa".toList, 0⟩) "aa".toList "bbb".toList
        ⟨false, false, false, false⟩
      = (3, some ⟨"bbb bbb bbb".toList, 0⟩) ∧
    replaceAll RegexLibrary.literalOnly (some ⟨"aa aa aa".toList, 0⟩) "aa".toList "bbb".toList
        ⟨false, false, false, false⟩
      = ((findAll RegexLibrary.literalOnly (some ⟨"aa aa aa".toList, 0⟩) "aa".toList
            ⟨false, false, false, false⟩).length,
          some { plainText := substituteSpans "aa aa aa".toList "bbb".toList 0
                   ((findAll RegexLibrary.literalOnly (some ⟨"aa aa aa".toList, 0⟩) "aa".toList
                      ⟨false, false, false, false⟩).map
                     fun r => (r.startPosition, r.endPosition)),
                 cursorPosition := 0 }) :=
  ⟨by decide,
    (C14_replaceAll RegexLibrary.literalOnly literalOnly_sound ⟨"aa aa aa".toList, 0⟩
      "aa".toList "bbb".toList ⟨false, false, false, false⟩ (by decide)).1 (by decide)⟩

/-- C15, as the claim states it, fails in a case-insensitive search when case folding
identifies a letter of the query with a character that `\b` does not count as a word
character: Unicode folding maps U+212A KELVIN SIGN to `k`, so the whole-word search
for "k" in `a`, U+212A, `b` reports the occurrence at offset 1 although it stands
between the word characters `a` and `b`. -/
theorem C15_counterexample :
    (∀ c ∈ "k".toList, isWordChar c = true) ∧
    wordAt ['a', Char.ofNat 0x212A, 'b'] 0 = true ∧
    wordAt ['a', Char.ofNat 0x212A, 'b'] 2 = true ∧
    findAll RegexLibrary.unicodeFold (some ⟨['a', Char.ofNat 0x212A, 'b'], 0⟩) "k".toList
        ⟨false, true, false, false⟩
      = [⟨0, 1, [Char.ofNat 0x212A], 1, 2⟩] := by
  refine ⟨by decide, by decide, by decide, by decide⟩

/-- C15 (amended): for a non-empty literal query made of word characters (ASCII
letters, digits, underscore) and `WholeWord` set, provided that in a case-insensitive
search every character of the text that case folding identifies with a character of
the query is itself a word character, every result of `findAll` is an occurrence of
the query that is neither immediately preceded nor immediately followed by a word
character, and every such occurrence is the start of a result. -/
theorem C15_whole_word (lib : RegexLibrary) (ed : Editor) (q : List Char)
    (opts : SearchOptions) (hq : q ≠ []) (hre : opts.useRegex = false)
    (hww : opts.wholeWord = true) (hword : ∀ c ∈ q, isWordChar c = true)
    (hfold : opts.caseSensitive = false →
      ∀ c ∈ q, ∀ d ∈ ed.plainText, lib.fold c = lib.fold d → isWordChar d = true) :
    (∀ r ∈ findAll lib (some ed) q opts,
      wholeWordAt lib.fold (!opts.caseSensitive) ed.plainText q r.startPosition = true ∧
      r.endPosition = r.startPosition + q.length) ∧
    (∀ p, wholeWordAt lib.fold (!opts.caseSensitive) ed.plainText q p = true →
      ∃ r ∈ findAll lib (some ed) q opts, r.startPosition = p) := by
  have hkey : ∀ c ∈ q, ∀ d ∈ ed.plainText,
      compareKey lib.fold (!opts.caseSensitive) c = compareKey lib.fold (!opts.caseSensitive) d →
        isWordChar d = true := by
    intro c hc d hd h
    cases hcs : opts.caseSensitive with
    | false =>
      rw [hcs] at h
      exact hfold hcs c hc d hd (by simpa [compareKey] using h)
    | true =>
      rw [hcs] at h
      have : c = d := by simpa [compareKey] using h
      rw [← this]
      exact hword c hc
  have hregex := findAllRegex_wholeWord q opts hre hww
  have hpat : (findAllRegex q opts).pattern
      = ['\\', 'b'] ++ escapeRegexSpecialChars q ++ ['\\', 'b'] := by rw [hregex]
  have hparse : parseAtoms false (findAllRegex q opts).pattern
      = some (Atom.wordBoundary :: (q.map Atom.lit ++ [Atom.wordBoundary])) := by
    rw [hpat, parseAtoms_wholeWord]
  have hlen : 1 ≤ q.length := by
    cases q with
    | nil => exact absurd rfl hq
    | cons c q => simp
  have hcount : 1 ≤ litCount (Atom.wordBoundary :: (q.map Atom.lit ++ [Atom.wordBoundary])) := by
    have : litCount (Atom.wordBoundary :: (q.map Atom.lit ++ [Atom.wordBoundary]))
        = litCount (q.map Atom.lit ++ [Atom.wordBoundary]) := rfl
    rw [this]
    have happ : ∀ xs : List Atom, litCount (xs ++ [Atom.wordBoundary]) = litCount xs := by
      intro xs
      induction xs with
      | nil => rfl
      | cons a rest ih =>
        cases a with
        | lit c => simp [litCount, ih]
        | wordBoundary => simp [litCount, ih]
    rw [happ, litCount_lits]
    exact hlen
  have hcase : (findAllRegex q opts).caseless = !opts.caseSensitive := by rw [hregex]
  obtain ⟨hg1, hg2⟩ := globalMatch_atoms lib (findAllRegex q opts) ed.plainText _ hparse hcount
  have hm : ∀ p, matchAtoms lib.fold (findAllRegex q opts).caseless ed.plainText
      (Atom.wordBoundary :: (q.map Atom.lit ++ [Atom.wordBoundary])) p
      = if wholeWordAt lib.fold (!opts.caseSensitive) ed.plainText q p = true
        then some (p + q.length) else none := by
    intro p
    rw [matchAtoms_wholeWord, hcase,
      wholeWord_guard lib.fold (!opts.caseSensitive) ed.plainText q hkey hq p]
  have hres : ∀ m ∈ (findAllRegex q opts).globalMatch lib ed.plainText,
      wholeWordAt lib.fold (!opts.caseSensitive) ed.plainText q m.1 = true ∧
        m.2 = m.1 + q.length := by
    intro m hmem
    have h1 := hg1 m hmem
    rw [hm] at h1
    split at h1
    · rename_i hw
      simp only [Option.some.injEq] at h1
      exact ⟨hw, h1.symm⟩
    · simp at h1
  rw [findAll_of_parse lib ed q opts _ hq hparse]
  constructor
  · intro r hr
    obtain ⟨m, hmem, rfl⟩ := List.mem_map.1 hr
    exact hres m hmem
  · intro p hp
    have hsome : (matchAtoms lib.fold (findAllRegex q opts).caseless ed.plainText
        (Atom.wordBoundary :: (q.map Atom.lit ++ [Atom.wordBoundary])) p).isSome = true := by
      rw [hm, if_pos hp]
      rfl
    obtain ⟨m, hmem, h1, h2⟩ := hg2 p hsome
    refine ⟨makeResult ed.plainText m, List.mem_map_of_mem _ hmem, ?_⟩
    obtain ⟨hw, he⟩ := hres m hmem
    show m.1 = p
    by_contra hne
    have hlt : m.1 < p := by omega
    unfold wholeWordAt at hw hp
    simp only [Bool.and_eq_true, Bool.or_eq_true, beq_iff_eq, Bool.not_eq_true'] at hw hp
    have hinside := occursAt_word lib.fold (!opts.caseSensitive) ed.plainText q m.1 hkey
      hw.1.1 (p - 1 - m.1) (by omega)
    have e : m.1 + (p - 1 - m.1) = p - 1 := by omega
    rw [e] at hinside
    rcases hp.1.2 with h0 | hnw
    · omega
    · rw [hnw] at hinside
      simp at hinside

/-- Witness for C15: `findAll("cats cat", "cat", WholeWord)` gives exactly one match,
at offset 5. -/
theorem C15_whole_word_witness :
    findAll RegexLibrary.literalOnly (some ⟨"cats cat".toList, 0⟩) "cat".toList
        ⟨false, true, false, false⟩
      = [⟨0, 5, "cat".toList, 5, 8⟩] ∧
    (∀ p, wholeWordAt RegexLibrary.literalOnly.fold (!false) "cats cat".toList "cat".toList p
        = true →
      ∃ r ∈ findAll RegexLibrary.literalOnly (some ⟨"cats cat".toList, 0⟩) "cat".toList
          ⟨false, true, false, false⟩, r.startPosition = p) :=
  ⟨by decide,
    (C15_whole_word RegexLibrary.literalOnly ⟨"cats cat".toList, 0⟩ "cat".toList
      ⟨false, true, false, false⟩ (by decide) rfl rfl (by decide)
      (fun _ c hc d _ h => by
        rw [← toLower_keeps_word c d h]
        exact (by decide : ∀ x ∈ "cat".toList, isWordChar x = true) c hc)).2⟩

/-- C16: `findNext` with a non-empty `lastSearchText`, on the results `rs` of `findAll`
over the current buffer with the stored text and options.  If `rs` is not empty it
returns true, and the current result becomes the first element of `rs` whose
`startPosition` is greater than the cursor position, or the first element of `rs` when
no element starts after the cursor; it returns false only when `rs` is empty, and
then the state is unchanged. -/
theorem C16_findNext (lib : RegexLibrary) (st : SearchReplace) (ed : Editor)
    (hq : st.lastSearchText ≠ []) :
    (findAll lib (some ed) st.lastSearchText st.searchOptions = [] →
      st.findNext lib (some ed) = (false, st)) ∧
    (∀ before r after,
      findAll lib (some ed) st.lastSearchText st.searchOptions = before ++ r :: after →
      (∀ x ∈ before, x.startPosition ≤ ed.cursorPosition) →
      r.startPosition > ed.cursorPosition →
      st.findNext lib (some ed) = (true, { st with currentResult := r })) ∧
    (∀ first rest,
      findAll lib (some ed) st.lastSearchText st.searchOptions = first :: rest →
      (∀ x ∈ first :: rest, x.startPosition ≤ ed.cursorPosition) →
      st.findNext lib (some ed) = (true, { st with currentResult := first })) ∧
    ((st.findNext lib (some ed)).1 = false →
      findAll lib (some ed) st.lastSearchText st.searchOptions = []) := by
  have hq2 : st.lastSearchText.isEmpty = false := by
    cases h : st.lastSearchText with
    | nil => exact absurd h hq
    | cons c q => rfl
  refine ⟨?_, ?_, ?_, ?_⟩
  · intro h
    unfold SearchReplace.findNext
    simp [hq2, h]
  · intro before r after h hbefore hr
    have hfind : (before ++ r :: after).find?
        (fun result => decide (result.startPosition > ed.cursorPosition)) = some r := by
      rw [List.find?_eq_some]
      refine ⟨by simpa using hr, before, after, rfl, ?_⟩
      intro x hx
      have := hbefore x hx
      simp only [gt_iff_lt, Bool.not_eq_true', decide_eq_false_iff_not, not_lt]
      exact this
    unfold SearchReplace.findNext
    simp only [hq2, h, Bool.false_eq_true, if_false]
    rw [hfind]
    have hne : (before ++ r :: after).isEmpty = false := by
      cases before <;> rfl
    simp [hne]
  · intro first rest h hall
    have hfind : (first :: rest).find?
        (fun result => decide (result.startPosition > ed.cursorPosition)) = none := by
      rw [List.find?_eq_none]
      intro x hx
      have := hall x hx
      simp only [gt_iff_lt, decide_eq_true_eq, not_lt]
      exact this
    unfold SearchReplace.findNext
    simp only [hq2, h, Bool.false_eq_true, if_false]
    rw [hfind]
    simp
  · intro hfalse
    cases hrs : findAll lib (some ed) st.lastSearchText st.searchOptions with
    | nil => rfl
    | cons first rest =>
      exfalso
      unfold SearchReplace.findNext at hfalse
      simp only [hq2, hrs, Bool.false_eq_true, if_false, List.isEmpty_cons,
        List.head?_cons] at hfalse
      split at hfalse <;> simp at hfalse

/-- Witness for C16: "ab" occurs in "xxabxxxxxxabxxxx" at offsets 2 and 10; with the
cursor at 15 `findNext` wraps around and selects the match at 2, with the cursor at
5 it selects the match at 10. -/
theorem C16_findNext_witness :
    SearchReplace.findNext RegexLibrary.literalOnly
        ⟨⟨false, false, false, false⟩, ⟨0, 0, [], 0, 0⟩, 0, 0, "ab".toList⟩
        (some ⟨"xxabxxxxxxabxxxx".toList, 15⟩)
      = (true, ⟨⟨false, false, false, false⟩, ⟨0, 2, "ab".toList, 2, 4⟩, 0, 0, "ab".toList⟩) ∧
    SearchReplace.findNext RegexLibrary.literalOnly
        ⟨⟨false, false, false, false⟩, ⟨0, 0, [], 0, 0⟩, 0, 0, "ab".toList⟩
        (some ⟨"xxabxxxxxxabxxxx".toList, 5⟩)
      = (true, ⟨⟨false, false, false, false⟩, ⟨0, 10, "ab".toList, 10, 12⟩, 0, 0, "ab".toList⟩) :=
  ⟨(C16_findNext RegexLibrary.literalOnly
      ⟨⟨false, false, false, false⟩, ⟨0, 0, [], 0, 0⟩, 0, 0, "ab".toList⟩
      ⟨"xxabxxxxxxabxxxx".toList, 15⟩ (by decide)).2.2.1
      ⟨0, 2, "ab".toList, 2, 4⟩ [⟨0, 10, "ab".toList, 10, 12⟩] (by decide) (by decide),
    (C16_findNext RegexLibrary.literalOnly
      ⟨⟨false, false, false, false⟩, ⟨0, 0, [], 0, 0⟩, 0, 0, "ab".toList⟩
      ⟨"xxabxxxxxxabxxxx".toList, 5⟩ (by decide)).2.1
      [⟨0, 2, "ab".toList, 2, 4⟩] ⟨0, 10, "ab".toList, 10, 12⟩ [] (by decide) (by decide)
      (by decide)⟩

/-- C17: `findPrevious` with a non-empty `lastSearchText`, on the results `rs` of
`findAll` over the current buffer with the stored text and options.  If `rs` is not
empty it returns true, and the current result becomes the last element of `rs` whose
`startPosition` is less than the cursor position, or the last element of `rs` when no
element starts before the cursor; if `rs` is empty it returns false and the state is
unchanged. -/
theorem C17_findPrevious (lib : RegexLibrary) (st : SearchReplace) (ed : Editor)
    (hq : st.lastSearchText ≠ []) :
    (findAll lib (some ed) st.lastSearchText st.searchOptions = [] →
      st.findPrevious lib (some ed) = (false, st)) ∧
    (∀ before r after,
      findAll lib (some ed) st.lastSearchText st.searchOptions = before ++ r :: after →
      r.startPosition < ed.cursorPosition →
      (∀ x ∈ after, ed.cursorPosition ≤ x.startPosition) →
      st.findPrevious lib (some ed) = (true, { st with currentResult := r })) ∧
    (∀ init last,
      findAll lib (some ed) st.lastSearchText st.searchOptions = init ++ [last] →
      (∀ x ∈ init ++ [last], ed.cursorPosition ≤ x.startPosition) →
      st.findPrevious lib (some ed) = (true, { st with currentResult := last })) ∧
    ((st.findPrevious lib (some ed)).1 = false →
      findAll lib (some ed) st.lastSearchText st.searchOptions = []) := by
  have hq2 : st.lastSearchText.isEmpty = false := by
    cases h : st.lastSearchText with
    | nil => exact absurd h hq
    | cons c q => rfl
  refine ⟨?_, ?_, ?_, ?_⟩
  · intro h
    unfold SearchReplace.findPrevious
    simp [hq2, h]
  · intro before r after h hr hafter
    have hfind : (before ++ r :: after).reverse.find?
        (fun result => decide (result.startPosition < ed.cursorPosition)) = some r := by
      rw [List.find?_eq_some]
      refine ⟨by simpa using hr, after.reverse, before.reverse, by simp, ?_⟩
      intro x hx
      have := hafter x (List.mem_reverse.1 hx)
      simp only [Bool.not_eq_true', decide_eq_false_iff_not, not_lt]
      exact this
    unfold SearchReplace.findPrevious
    simp only [hq2, h, Bool.false_eq_true, if_false]
    rw [hfind]
    have hne : (before ++ r :: after).isEmpty = false := by
      cases before <;> rfl
    simp [hne]
  · intro init last h hall
    have hfind : (init ++ [last]).reverse.find?
        (fun result => decide (result.startPosition < ed.cursorPosition)) = none := by
      rw [List.find?_eq_none]
      intro x hx
      have := hall x (List.mem_reverse.1 hx)
      simp only [decide_eq_true_eq, not_lt]
      exact this
    unfold SearchReplace.findPrevious
    simp only [hq2, h, Bool.false_eq_true, if_false]
    rw [hfind]
    have hne : (init ++ [last]).isEmpty = false := by
      cases init <;> rfl
    simp [hne]
  · intro hfalse
    cases hrs : findAll lib (some ed) st.lastSearchText st.searchOptions with
    | nil => rfl
    | cons first rest =>
      exfalso
      unfold SearchReplace.findPrevious at hfalse
      simp only [hq2, hrs, Bool.false_eq_true, if_false, List.isEmpty_cons] at hfalse
      split at hfalse
      · simp at hfalse
      · rename_i hnone
        cases hl : (first :: rest).getLast? with
        | none => simp at hl
        | some l =>
          rw [hl] at hfalse
          simp at hfalse

/-- Witness for C17: "ab" occurs in "xxabxxxxxxabxxxx" at offsets 2 and 10; with the
cursor at 0 `findPrevious` wraps around and selects the match at 10, with the cursor
at 5 it selects the match at 2. -/
theorem C17_findPrevious_witness :
    SearchReplace.findPrevious RegexLibrary.literalOnly
        ⟨⟨false, false, false, false⟩, ⟨0, 0, [], 0, 0⟩, 0, 0, "ab".toList⟩
        (some ⟨"xxabxxxxxxabxxxx".toList, 0⟩)
      = (true, ⟨⟨false, false, false, false⟩, ⟨0, 10, "ab".toList, 10, 12⟩, 0, 0, "ab".toList⟩) ∧
    SearchReplace.findPrevious RegexLibrary.literalOnly
        ⟨⟨false, false, false, false⟩, ⟨0, 0, [], 0, 0⟩, 0, 0, "ab".toList⟩
        (some ⟨"xxabxxxxxxabxxxx".toList, 5⟩)
      = (true, ⟨⟨false, false, false, false⟩, ⟨0, 2, "ab".toList, 2, 4⟩, 0, 0, "ab".toList⟩) :=
  ⟨(C17_findPrevious RegexLibrary.literalOnly
      ⟨⟨false, false, false, false⟩, ⟨0, 0, [], 0, 0⟩, 0, 0, "ab".toList⟩
      ⟨"xxabxxxxxxabxxxx".toList, 0⟩ (by decide)).2.2.1
      [⟨0, 2, "ab".toList, 2, 4⟩] ⟨0, 10, "ab".toList, 10, 12⟩ (by decide) (by decide),
    (C17_findPrevious RegexLibrary.literalOnly
      ⟨⟨false, false, false, false⟩, ⟨0, 0, [], 0, 0⟩, 0, 0, "ab".toList⟩
      ⟨"xxabxxxxxxabxxxx".toList, 5⟩ (by decide)).2.1
      [] ⟨0, 2, "ab".toList, 2, 4⟩ [⟨0, 10, "ab".toList, 10, 12⟩] (by decide) (by decide)
      (by decide)⟩

/-- C18: `escapeRegexSpecialChars(q)` is `q` with every metacharacter (one of
`\ . ^ $ * + ? { } [ ] ( ) |`) replaced by a backslash followed by that character and
every other character unchanged, as in one pass over the characters; the escaped
text is read by the regular-expression engine as the characters of `q`, one literal
each, so that every result of a literal search is an occurrence of `q` (up to case
folding unless `CaseSensitive` is set), and a case-sensitive literal search reports
only places where the text equals `q` exactly. -/
theorem C18_escape (q : List Char) :
    escapeRegexSpecialChars q
      = (q.flatMap fun c => if c ∈ metaChars then ['\\', c] else [c]) ∧
    parseAtoms false (escapeRegexSpecialChars q) = some (q.map Atom.lit) ∧
    (∀ (lib : RegexLibrary) (ed : Editor) (opts : SearchOptions) (r : SearchResult),
      q ≠ [] → opts.useRegex = false → opts.wholeWord = false →
      r ∈ findAll lib (some ed) q opts →
        occursAt lib.fold (!opts.caseSensitive) ed.plainText q r.startPosition = true ∧
        (opts.caseSensitive = true →
          (ed.plainText.drop r.startPosition).take q.length = q ∧ r.matchedText = q)) := by
  refine ⟨escape_eq_flatMap q, parseAtoms_escape q, ?_⟩
  intro lib ed opts r hq hre hww hr
  obtain ⟨h1, -, h3⟩ := literal_results lib ed q opts hq hre hww r hr
  refine ⟨h1, ?_⟩
  intro hcs
  rw [hcs] at h1
  have h4 := (occursAt_exact lib.fold ed.plainText q r.startPosition).1 h1
  exact ⟨h4, by rw [h3, h4]⟩

/-- Witness for C18: "a.b" is escaped to `a\.b`; searched literally in "a.b axb" it
matches at offset 0 only, it does not match "axb", and the matched text is "a.b". -/
theorem C18_escape_witness :
    escapeRegexSpecialChars "a.b".toList = "a\\.b".toList ∧
    findAll RegexLibrary.literalOnly (some ⟨"a.b axb".toList, 0⟩) "a.b".toList
        ⟨false, false, false, false⟩ = [⟨0, 0, "a.b".toList, 0, 3⟩] ∧
    findAll RegexLibrary.literalOnly (some ⟨"axb".toList, 0⟩) "a.b".toList
        ⟨false, false, false, false⟩ = [] ∧
    occursAt RegexLibrary.literalOnly.fold (!false) "a.b axb".toList "a.b".toList
        (SearchResult.startPosition ⟨0, 0, "a.b".toList, 0, 3⟩) = true :=
  ⟨by decide, by decide, by decide,
    ((C18_escape "a.b".toList).2.2 RegexLibrary.literalOnly ⟨"a.b axb".toList, 0⟩
      ⟨false, false, false, false⟩ ⟨0, 0, "a.b".toList, 0, 3⟩ (by decide) rfl rfl
      (by decide)).1⟩

/-- C19, evaluated on the code: with `WholeWord` set, `replace` on "cats cat" with the
cursor at 0 replaces the "cat" inside "cats", which `findAll` with the same options
does not report (its only match starts at 5); the pattern built by `replace` lacks the
`\b` anchors that `findAll` adds. -/
theorem C19_replace_ignores_wholeWord :
    replace RegexLibrary.literalOnly (some ⟨"cats cat".toList, 0⟩) "cat".toList "dog".toList
        ⟨false, true, false, false⟩
      = (true, some ⟨"dogs cat".toList, 3⟩) ∧
    (findAll RegexLibrary.literalOnly (some ⟨"cats cat".toList, 0⟩) "cat".toList
        ⟨false, true, false, false⟩).map (fun r => (r.startPosition, r.endPosition))
      = [(5, 8)] ∧
    (replaceRegex "cat".toList ⟨false, true, false, false⟩).pattern = "cat".toList ∧
    (findAllRegex "cat".toList ⟨false, true, false, false⟩).pattern = "\\bcat\\b".toList := by
  refine ⟨by decide, by decide, by decide, by decide⟩

/-- What `replace` does with the expression it builds itself (`replaceRegex`, which
has no `\b` anchors), for a non-empty query and a library whose matches lie at or after
the offset and inside the subject.  If that expression is valid and its first match at
or after the cursor position `c` is `[s, e)`, then `replace` returns true, the buffer
becomes `text[0..s) ++ replaceText ++ text[e..)` and the cursor ends at
`s + length(replaceText)`; if it is invalid or has no match at or after `c`, `replace`
returns false and leaves buffer and cursor unchanged.  For a literal query (`UseRegex`
unset) the expression is valid, a match `[s, e)` is the first occurrence of the query
at or after `c` with `e = s + length(query)`, and no match means that the query does
not occur at or after `c`. -/
theorem replace_by_own_expression (lib : RegexLibrary) (hlib : lib.Sound) (ed : Editor)
    (q repl : List Char) (opts : SearchOptions) (hq : q ≠ []) :
    (∀ s e, (replaceRegex q opts).isValid lib = true →
      (replaceRegex q opts).matchFrom lib ed.plainText ed.cursorPosition = some (s, e) →
      replace lib (some ed) q repl opts
        = (true, some ⟨ed.plainText.take s ++ repl ++ ed.plainText.drop e, s + repl.length⟩) ∧
      ed.cursorPosition ≤ s ∧ s ≤ e ∧ e ≤ ed.plainText.length) ∧
    (((replaceRegex q opts).isValid lib = false ∨
        (replaceRegex q opts).matchFrom lib ed.plainText ed.cursorPosition = none) →
      replace lib (some ed) q repl opts = (false, some ed)) ∧
    (opts.useRegex = false →
      (replaceRegex q opts).isValid lib = true ∧
      (∀ s e, (replaceRegex q opts).matchFrom lib ed.plainText ed.cursorPosition = some (s, e) →
        ed.cursorPosition ≤ s ∧
        occursAt lib.fold (!opts.caseSensitive) ed.plainText q s = true ∧
        e = s + q.length ∧
        ∀ j, ed.cursorPosition ≤ j → j < s →
          occursAt lib.fold (!opts.caseSensitive) ed.plainText q j = false) ∧
      ((replaceRegex q opts).matchFrom lib ed.plainText ed.cursorPosition = none →
        ∀ j, ed.cursorPosition ≤ j →
          occursAt lib.fold (!opts.caseSensitive) ed.plainText q j = false)) := by
  have hq2 : q.isEmpty = false := by
    cases q with
    | nil => exact absurd rfl hq
    | cons c q => rfl
  refine ⟨?_, ?_, ?_⟩
  · intro s e hvalid hmatch
    obtain ⟨h1, h2, h3, -⟩ :=
      exec_sound lib hlib (replaceRegex q opts) ed.plainText ed.cursorPosition false s e hmatch
    refine ⟨?_, h1, h2, h3⟩
    have hs : ¬ s > ed.plainText.length := by omega
    have he : ¬ e > ed.plainText.length := by omega
    unfold replace
    simp only [hq2, Bool.false_eq_true, if_false, hvalid, if_true, hmatch,
      QTextCursor.setPosition, QTextCursor.insertText, hs, he, Nat.min_eq_left h2,
      Nat.max_eq_right h2]
  · intro h
    unfold replace
    simp only [hq2, Bool.false_eq_true, if_false]
    rcases h with h | h
    · simp [h]
    · simp [h]
  · intro hre
    have hregex : replaceRegex q opts = ⟨escapeRegexSpecialChars q, !opts.caseSensitive⟩ := by
      unfold replaceRegex
      simp [hre]
    have hpat : (replaceRegex q opts).pattern = escapeRegexSpecialChars q := by rw [hregex]
    refine ⟨isValid_of_parse lib _ (q.map Atom.lit) (by rw [hpat, parseAtoms_escape]), ?_⟩
    rw [hregex]
    exact matchFrom_literal lib q (!opts.caseSensitive) ed.plainText ed.cursorPosition hq

theorem replaceRegex_eq_findAllRegex (q : List Char) (opts : SearchOptions)
    (hww : opts.wholeWord = false) : replaceRegex q opts = findAllRegex q opts := by
  unfold replaceRegex findAllRegex
  simp [hww]

/-- C20, evaluated on the code with `WholeWord` set, where the effective pattern is
`\bcat\b` (the construction of `findAll`).  On "cats cat" with the cursor at 0 the first
match of the effective pattern at or after the cursor is `[5, 8)`, so the claim gives
the buffer "cats dog" and the cursor 8; `replace` gives "dogs cat" and the cursor 3.
On "cats" the effective pattern has no match, so the claim gives false with the buffer
unchanged; `replace` returns true and the buffer "dogs".  With `WholeWord` unset the
same call replaces the first occurrence at or after the cursor, as claimed. -/
theorem C20_replace_diverges_with_wholeWord :
    (findAllRegex "cat".toList ⟨false, true, false, false⟩).matchFrom RegexLibrary.literalOnly
        "cats cat".toList 0 = some (5, 8) ∧
    replace RegexLibrary.literalOnly (some ⟨"cats cat".toList, 0⟩) "cat".toList "dog".toList
        ⟨false, true, false, false⟩
      = (true, some ⟨"dogs cat".toList, 3⟩) ∧
    replace RegexLibrary.literalOnly (some ⟨"cats cat".toList, 0⟩) "cat".toList "dog".toList
        ⟨false, true, false, false⟩
      ≠ (true, some ⟨"cats dog".toList, 8⟩) ∧
    (findAllRegex "cat".toList ⟨false, true, false, false⟩).matchFrom RegexLibrary.literalOnly
        "cats".toList 0 = none ∧
    replace RegexLibrary.literalOnly (some ⟨"cats".toList, 0⟩) "cat".toList "dog".toList
        ⟨false, true, false, false⟩
      = (true, some ⟨"dogs".toList, 3⟩) ∧
    replace RegexLibrary.literalOnly (some ⟨"a cat, a cat".toList, 3⟩) "cat".toList
        "dog".toList ⟨false, false, false, false⟩
      = (true, some ⟨"a cat, a dog".toList, 12⟩) := by
  refine ⟨by decide, by decide, by decide, by decide, by decide, by decide⟩

/-- C21: with an empty search text, for every library, buffer, state and options,
`find` returns false and leaves its state as it was, `findAll` returns no result,
`replace` returns false and `replaceAll` returns 0, both leaving the editor as it was;
the same holds for every search text when the editor is absent.  No result depends on
the library, so no match is run. -/
theorem C21_empty_query_rejected (lib : RegexLibrary) (st : SearchReplace)
    (editor : Option Editor) (q repl : List Char) (opts : SearchOptions) :
    st.find lib editor [] opts = (false, st) ∧
    findAll lib editor [] opts = [] ∧
    replace lib editor [] repl opts = (false, editor) ∧
    replaceAll lib editor [] repl opts = (0, editor) ∧
    st.find lib none q opts = (false, st) ∧
    findAll lib none q opts = [] ∧
    replace lib none q repl opts = (false, none) ∧
    replaceAll lib none q repl opts = (0, none) := by
  refine ⟨?_, findAll_nil_query lib editor opts, ?_, ?_, rfl, rfl, rfl, rfl⟩
  · unfold SearchReplace.find
    cases editor <;> simp
  · unfold replace
    cases editor <;> simp
  · unfold replaceAll
    cases editor <;> simp

end Search

namespace Highlight

open Search (QRegularExpression RegexLibrary)

/-! ## Auxiliary facts on highlighting -/

theorem setLanguage_currentLanguage (self : SyntaxHighlighter) (lang : Language) :
    (self.setLanguage lang).currentLanguage = lang := by
  cases lang <;> rfl

theorem lastIndexOf_of_not_mem (ch : Char) (l : List Char) (h : ch ∉ l) :
    lastIndexOf ch l = none := by
  induction l with
  | nil => rfl
  | cons x rest ih =>
    have h1 : ch ∉ rest := fun hm => h (List.mem_cons_of_mem _ hm)
    have h2 : x ≠ ch := fun e => h (e ▸ List.mem_cons_self _ _)
    simp [lastIndexOf, ih h1, h2]

theorem lastIndexOf_append (ch : Char) (base ext : List Char) (h : ch ∉ ext) :
    lastIndexOf ch (base ++ ch :: ext) = some base.length := by
  induction base with
  | nil => simp [lastIndexOf, lastIndexOf_of_not_mem ch ext h]
  | cons x rest ih => simp [lastIndexOf, ih]

theorem fileExtension_append (base ext : List Char) (h : '.' ∉ ext) :
    fileExtension (base ++ '.' :: ext) = ext.map Char.toLower := by
  unfold fileExtension
  rw [lastIndexOf_append '.' base ext h]
  simp

theorem setFormat_length (changes : List QTextCharFormat) (start count : Nat)
    (format : QTextCharFormat) : (setFormat changes start count format).length = changes.length := by
  unfold setFormat
  split
  · rfl
  · exact List.length_mapIdx

theorem getElem?_setFormat (changes : List QTextCharFormat) (start count : Nat)
    (format : QTextCharFormat) (i : Nat) :
    (setFormat changes start count format)[i]? =
      if start ≤ i ∧ i < start + count ∧ i < changes.length then some format else changes[i]? := by
  unfold setFormat
  by_cases hs : start ≥ changes.length
  · rw [if_pos hs, if_neg (by omega)]
  · rw [if_neg hs, List.getElem?_mapIdx]
    by_cases hi : i < changes.length
    · rw [List.getElem?_eq_getElem hi]
      simp only [Option.map_some']
      by_cases hc : start ≤ i ∧ i < start + count
      · rw [if_pos (by omega), if_pos (by omega)]
      · rw [if_neg (by omega), if_neg (by omega)]
    · rw [List.getElem?_eq_none (by omega), if_neg (by omega)]
      rfl

theorem getElem?_foldl_setFormat (format : QTextCharFormat) (i : Nat) (ms : List (Nat × Nat)) :
    ∀ changes : List QTextCharFormat,
      (ms.foldl (fun ch m => setFormat ch m.1 (m.2 - m.1) format) changes)[i]? =
        if (ms.any fun m => decide (m.1 ≤ i ∧ i < m.2)) = true ∧ i < changes.length
        then some format else changes[i]? := by
  induction ms with
  | nil =>
    intro changes
    simp
  | cons m rest ih =>
    intro changes
    rw [List.foldl_cons, ih, setFormat_length, getElem?_setFormat, List.any_cons]
    have hcov : (m.1 ≤ i ∧ i < m.1 + (m.2 - m.1) ∧ i < changes.length) ↔
        ((m.1 ≤ i ∧ i < m.2) ∧ i < changes.length) := by omega
    simp only [hcov, Bool.or_eq_true, decide_eq_true_eq]
    by_cases hr : (rest.any fun m => decide (m.1 ≤ i ∧ i < m.2)) = true
    · by_cases hi : i < changes.length
      · rw [if_pos ⟨hr, hi⟩, if_pos ⟨Or.inr hr, hi⟩]
      · rw [if_neg (fun h => hi h.2), if_neg (fun h => hi h.2), if_neg (fun h => hi h.2)]
    · rw [if_neg (fun h => hr h.1)]
      by_cases hm : (m.1 ≤ i ∧ i < m.2) ∧ i < changes.length
      · rw [if_pos hm, if_pos ⟨Or.inl hm.1, hm.2⟩]
      · rw [if_neg hm, if_neg]
        rintro ⟨h1 | h1, h2⟩
        · exact hm ⟨h1, h2⟩
        · exact hr h1

theorem foldl_setFormat_length (format : QTextCharFormat) (ms : List (Nat × Nat)) :
    ∀ changes : List QTextCharFormat,
      (ms.foldl (fun ch m => setFormat ch m.1 (m.2 - m.1) format) changes).length
        = changes.length := by
  induction ms with
  | nil =>
    intro changes
    rfl
  | cons m rest ih =>
    intro changes
    rw [List.foldl_cons, ih, setFormat_length]

theorem applyRule_length (lib : RegexLibrary) (text : List Char)
    (changes : List QTextCharFormat) (rule : HighlightingRule) :
    (applyRule lib text changes rule).length = changes.length := by
  unfold applyRule
  exact foldl_setFormat_length _ _ _

theorem getElem?_applyRule (lib : RegexLibrary) (text : List Char)
    (changes : List QTextCharFormat) (rule : HighlightingRule) (i : Nat)
    (hi : i < changes.length) :
    (applyRule lib text changes rule)[i]? =
      if covers lib text rule i = true then some rule.format else changes[i]? := by
  unfold applyRule covers
  rw [getElem?_foldl_setFormat]
  by_cases hc : ((globalMatchChecked lib rule.pattern text).any
      fun m => decide (m.1 ≤ i ∧ i < m.2)) = true
  · rw [if_pos ⟨hc, hi⟩, if_pos hc]
  · rw [if_neg (fun h => hc h.1), if_neg hc]

theorem foldl_applyRule_length (lib : RegexLibrary) (text : List Char)
    (rules : List HighlightingRule) :
    ∀ changes : List QTextCharFormat,
      (rules.foldl (applyRule lib text) changes).length = changes.length := by
  induction rules with
  | nil =>
    intro changes
    rfl
  | cons r rest ih =>
    intro changes
    rw [List.foldl_cons, ih, applyRule_length]

theorem getElem?_foldl_applyRule (lib : RegexLibrary) (text : List Char) (i : Nat)
    (rules : List HighlightingRule) :
    ∀ changes : List QTextCharFormat, i < changes.length →
      (rules.foldl (applyRule lib text) changes)[i]? =
        match rules.reverse.find? fun r => covers lib text r i with
        | some rule => some rule.format
        | none => changes[i]? := by
  induction rules with
  | nil =>
    intro changes _
    rfl
  | cons r rest ih =>
    intro changes hi
    rw [List.foldl_cons, ih _ (by rw [applyRule_length]; exact hi), List.reverse_cons,
      List.find?_append]
    cases hf : rest.reverse.find? fun r => covers lib text r i with
    | some rule => rfl
    | none =>
      rw [getElem?_applyRule lib text changes r i hi]
      by_cases hc : covers lib text r i = true
      · simp [List.find?, hc]
      · simp [List.find?, hc]

theorem setTheme_rules (self : SyntaxHighlighter) (themeName : String) :
    (self.setTheme themeName).highlightingRules = self.highlightingRules ∧
    (self.setTheme themeName).customRules = self.customRules ∧
    (self.setTheme themeName).enabled = self.enabled := by
  unfold SyntaxHighlighter.setTheme
  split <;> exact ⟨rfl, rfl, rfl⟩

theorem properMatches_of_parse (lib : RegexLibrary) (regex : QRegularExpression)
    (text : List Char) (atoms : List Search.Atom)
    (hparse : Search.parseAtoms false regex.pattern = some atoms)
    (hcount : 1 ≤ Search.litCount atoms) : ProperMatches lib regex text := by
  intro offset s e h
  unfold matchChecked at h
  split at h
  · unfold QRegularExpression.matchFrom QRegularExpression.exec at h
    rw [hparse] at h
    simp only at h
    obtain ⟨h1, -, h3, -⟩ := Search.execAtoms_sound lib.fold regex.caseless text atoms offset
      false s e h
    unfold Search.execAtoms at h
    split at h
    · simp at h
    · simp only [Bool.false_eq_true, if_false] at h
      obtain ⟨-, -, h5, -⟩ := Search.searchFrom_some _ _ _ _ _ h
      have h6 := Search.matchAtoms_lt lib.fold regex.caseless text atoms s e hcount h5
      obtain ⟨h7, -⟩ := Search.matchAtoms_bound lib.fold regex.caseless text atoms s e
        (by omega) h5
      exact ⟨h1, by omega, h3⟩
  · simp at h

theorem multilineStep_notFound (lib : RegexLibrary) (self : SyntaxHighlighter)
    (text : List Char) (startExpression endExpression : QRegularExpression) (state : Int)
    (i : Nat) (c : BlockContext) (h : matchChecked lib endExpression text i = none) :
    multilineStep lib self text startExpression endExpression state i c =
      ({ previousBlockState := c.previousBlockState, currentBlockState := state,
         formatChanges :=
           setFormat c.formatChanges i (text.length - i) (self.getFormat "comment") },
        text.length - i, indexOf lib text startExpression (i + (text.length - i))) := by
  unfold multilineStep
  rw [h]

theorem multilineStep_found (lib : RegexLibrary) (self : SyntaxHighlighter)
    (text : List Char) (startExpression endExpression : QRegularExpression) (state : Int)
    (i : Nat) (c : BlockContext) (s e : Nat)
    (h : matchChecked lib endExpression text i = some (s, e)) :
    multilineStep lib self text startExpression endExpression state i c =
      ({ previousBlockState := c.previousBlockState, currentBlockState := c.currentBlockState,
         formatChanges :=
           setFormat c.formatChanges i (s - i + (e - s)) (self.getFormat "comment") },
        s - i + (e - s), indexOf lib text startExpression (i + (s - i + (e - s)))) := by
  unfold multilineStep
  rw [h]

theorem indexOf_proper (lib : RegexLibrary) (regex : QRegularExpression) (text : List Char)
    (h : ProperMatches lib regex text) (offset j : Nat)
    (hj : indexOf lib text regex offset = some j) : offset ≤ j ∧ j < text.length := by
  unfold indexOf at hj
  cases hm : matchChecked lib regex text offset with
  | none =>
    rw [hm] at hj
    simp at hj
  | some m =>
    rw [hm] at hj
    simp only [Option.map_some', Option.some.injEq] at hj
    obtain ⟨h1, h2, h3⟩ := h offset m.1 m.2 hm
    omega

theorem multilineStep_progress (lib : RegexLibrary) (self : SyntaxHighlighter)
    (text : List Char) (startExpression endExpression : QRegularExpression) (state : Int)
    (hstart : ProperMatches lib startExpression text)
    (hend : ProperMatches lib endExpression text) (i : Nat) (c : BlockContext)
    (hi : i ≤ text.length) :
    (0 < (multilineStep lib self text startExpression endExpression state i c).2.1 ∨
      (multilineStep lib self text startExpression endExpression state i c).2.2 = none) ∧
    (∀ j, (multilineStep lib self text startExpression endExpression state i c).2.2 = some j →
      i < j ∧ j < text.length) := by
  cases hm : matchChecked lib endExpression text i with
  | none =>
    rw [multilineStep_notFound lib self text startExpression endExpression state i c hm]
    simp only
    have hnone : indexOf lib text startExpression (i + (text.length - i)) = none := by
      cases hx : indexOf lib text startExpression (i + (text.length - i)) with
      | none => rfl
      | some j =>
        have := indexOf_proper lib startExpression text hstart _ j hx
        omega
    exact ⟨Or.inr hnone, fun j hj => by rw [hnone] at hj; simp at hj⟩
  | some m =>
    obtain ⟨s, e⟩ := m
    rw [multilineStep_found lib self text startExpression endExpression state i c s e hm]
    simp only
    obtain ⟨h1, h2, h3⟩ := hend i s e hm
    refine ⟨Or.inl (by omega), ?_⟩
    intro j hj
    have := indexOf_proper lib startExpression text hstart _ j hj
    omega

theorem multilineLoop_terminates (lib : RegexLibrary) (self : SyntaxHighlighter)
    (text : List Char) (startExpression endExpression : QRegularExpression) (state : Int)
    (hstart : ProperMatches lib startExpression text)
    (hend : ProperMatches lib endExpression text) :
    ∀ (fuel : Nat) (index : Option Nat) (c : BlockContext),
      (∀ i, index = some i → i ≤ text.length ∧ text.length - i < fuel) →
      ∃ c1, multilineLoop lib self text startExpression endExpression state fuel index c
        = some c1 := by
  intro fuel
  induction fuel with
  | zero =>
    intro index c h
    cases index with
    | none => exact ⟨c, by rw [multilineLoop]⟩
    | some i =>
      have := (h i rfl).2
      omega
  | succ fuel ih =>
    intro index c h
    cases index with
    | none => exact ⟨c, by rw [multilineLoop]⟩
    | some i =>
      obtain ⟨h1, h2⟩ := h i rfl
      rw [multilineLoop]
      apply ih
      intro j hj
      obtain ⟨h3, h4⟩ := (multilineStep_progress lib self text startExpression endExpression
        state hstart hend i c h1).2 j hj
      omega

/-! ## Claims on highlighting -/

/-- C22, as the claim states it, fails for the extension "htm", which is none of the
thirteen listed extensions and is mapped to HTML, not to PlainText. -/
theorem C22_counterexample :
    "htm".toList ∉ ["cpp", "h", "hpp", "cc", "cxx", "py", "js", "ts", "json", "xml", "html",
      "css", "sql"].map String.toList ∧
    (SyntaxHighlighter.fresh.detectLanguageFromExtension "htm".toList).currentLanguage
      = Language.HTML ∧
    (SyntaxHighlighter.fresh.detectLanguageFromExtension "htm".toList).currentLanguage
      ≠ Language.PlainText := by
  refine ⟨by decide, by decide, by decide⟩

/-- C22 (amended): `detectLanguageFromExtension` selects CPlusPlus for cpp, h, hpp, cc
and cxx; Python for py; JavaScript for js and ts; JSON, XML, CSS and SQL for json, xml,
css and sql; HTML for html and htm; and PlainText for every other extension string. -/
theorem C22_detect_language (self : SyntaxHighlighter) (extension : List Char) :
    (extension ∈ ["cpp", "h", "hpp", "cc", "cxx"].map String.toList →
      (self.detectLanguageFromExtension extension).currentLanguage = Language.CPlusPlus) ∧
    (extension = "py".toList →
      (self.detectLanguageFromExtension extension).currentLanguage = Language.Python) ∧
    (extension ∈ ["js", "ts"].map String.toList →
      (self.detectLanguageFromExtension extension).currentLanguage = Language.JavaScript) ∧
    (extension = "json".toList →
      (self.detectLanguageFromExtension extension).currentLanguage = Language.JSON) ∧
    (extension = "xml".toList →
      (self.detectLanguageFromExtension extension).currentLanguage = Language.XML) ∧
    (extension ∈ ["html", "htm"].map String.toList →
      (self.detectLanguageFromExtension extension).currentLanguage = Language.HTML) ∧
    (extension = "css".toList →
      (self.detectLanguageFromExtension extension).currentLanguage = Language.CSS) ∧
    (extension = "sql".toList →
      (self.detectLanguageFromExtension extension).currentLanguage = Language.SQL) ∧
    (extension ∉ ["cpp", "h", "hpp", "cc", "cxx", "py", "js", "ts", "json", "xml", "html",
        "htm", "css", "sql"].map String.toList →
      (self.detectLanguageFromExtension extension).currentLanguage = Language.PlainText) := by
  refine ⟨?_, ?_, ?_, ?_, ?_, ?_, ?_, ?_, ?_⟩
  · intro h
    simp only [List.map_cons, List.map_nil, List.mem_cons, List.mem_singleton,
      List.not_mem_nil, or_false] at h
    rcases h with h | h | h | h | h <;> subst h <;>
      simp [SyntaxHighlighter.detectLanguageFromExtension, setLanguage_currentLanguage]
  · intro h
    subst h
    simp [SyntaxHighlighter.detectLanguageFromExtension, setLanguage_currentLanguage]
  · intro h
    simp only [List.map_cons, List.map_nil, List.mem_cons, List.mem_singleton,
      List.not_mem_nil, or_false] at h
    rcases h with h | h <;> subst h <;>
      simp [SyntaxHighlighter.detectLanguageFromExtension, setLanguage_currentLanguage]
  · intro h
    subst h
    simp [SyntaxHighlighter.detectLanguageFromExtension, setLanguage_currentLanguage]
  · intro h
    subst h
    simp [SyntaxHighlighter.detectLanguageFromExtension, setLanguage_currentLanguage]
  · intro h
    simp only [List.map_cons, List.map_nil, List.mem_cons, List.mem_singleton,
      List.not_mem_nil, or_false] at h
    rcases h with h | h <;> subst h <;>
      simp [SyntaxHighlighter.detectLanguageFromExtension, setLanguage_currentLanguage]
  · intro h
    subst h
    simp [SyntaxHighlighter.detectLanguageFromExtension, setLanguage_currentLanguage]
  · intro h
    subst h
    simp [SyntaxHighlighter.detectLanguageFromExtension, setLanguage_currentLanguage]
  · intro h
    simp only [List.map_cons, List.map_nil, List.mem_cons, List.mem_singleton,
      List.not_mem_nil, or_false, not_or] at h
    obtain ⟨h1, h2, h3, h4, h5, h6, h7, h8, h9, h10, h11, h12, h13, h14⟩ := h
    unfold SyntaxHighlighter.detectLanguageFromExtension
    simp only [h1, h2, h3, h4, h5, h6, h7, h8, h9, h10, h11, h12, h13, h14, or_self, if_false,
      setLanguage_currentLanguage]

/-- Witness for C22: "hpp" selects CPlusPlus and "txt" selects PlainText. -/
theorem C22_detect_language_witness :
    (SyntaxHighlighter.fresh.detectLanguageFromExtension "hpp".toList).currentLanguage
      = Language.CPlusPlus ∧
    (SyntaxHighlighter.fresh.detectLanguageFromExtension "txt".toList).currentLanguage
      = Language.PlainText :=
  ⟨(C22_detect_language SyntaxHighlighter.fresh "hpp".toList).1 (by decide),
    (C22_detect_language SyntaxHighlighter.fresh "txt".toList).2.2.2.2.2.2.2.2 (by decide)⟩

/-- C23, as the claim states it, fails: `detectLanguageFromExtension` compares the
extension as it is, so "CPP", which differs from "cpp" only in letter case, selects
PlainText while "cpp" selects CPlusPlus. -/
theorem C23_counterexample :
    "CPP".toList.map Char.toLower = "cpp".toList ∧
    (SyntaxHighlighter.fresh.detectLanguageFromExtension "CPP".toList).currentLanguage
      = Language.PlainText ∧
    (SyntaxHighlighter.fresh.detectLanguageFromExtension "cpp".toList).currentLanguage
      = Language.CPlusPlus := by
  refine ⟨by decide, by decide, by decide⟩

/-- C23 (amended): the language selected from a file name is case-insensitive in the
extension, because `Editor::fileExtension` lower-cases it before
`detectLanguageFromExtension` compares it: for a file name `base.e'` whose extension
`e'` has no dot and equals `e` once lower-cased, `setFileName` selects the language
that `detectLanguageFromExtension(e)` selects. -/
theorem C23_file_name_case (highlighter : SyntaxHighlighter) (base e e' : List Char)
    (hdot : '.' ∉ e') (hcase : e'.map Char.toLower = e) :
    (setFileName highlighter (base ++ '.' :: e')).currentLanguage
      = (highlighter.detectLanguageFromExtension e).currentLanguage := by
  unfold setFileName
  rw [fileExtension_append base e' hdot, hcase]

/-- Witness for C23: the file name "Main.CPP" selects CPlusPlus. -/
theorem C23_file_name_case_witness :
    (setFileName SyntaxHighlighter.fresh ("Main".toList ++ '.' :: "CPP".toList)).currentLanguage
      = (SyntaxHighlighter.fresh.detectLanguageFromExtension "cpp".toList).currentLanguage :=
  C23_file_name_case SyntaxHighlighter.fresh "Main".toList "cpp".toList "CPP".toList
    (by decide) (by decide)

/-- C24, evaluated on the code: `setTheme` replaces the theme's formats but leaves the
rule tables, which hold the formats read by `setLanguage`, as they are; so
`highlightBlock` gives the same tags after `setTheme` as before it.  With the light
theme set, C++ selected and then the dark theme set, the line "int" is tagged with
the light keyword format (blue, bold) although the dark keyword format is cyan,
bold. -/
theorem C24_setTheme_keeps_rule_formats :
    (∀ (lib : RegexLibrary) (self : SyntaxHighlighter) (themeName : String)
        (context : BlockContext) (text : List Char),
      (self.setTheme themeName).highlightBlock lib context text
        = self.highlightBlock lib context text) ∧
    ((((SyntaxHighlighter.fresh.setTheme "Light").setLanguage Language.CPlusPlus).setTheme
          "Dark").highlightBlock RegexLibrary.literalOnly
        (BlockContext.start (-1) "int".toList) "int".toList).formatChanges
      = List.replicate 3 ⟨some GlobalColor.blue, some FontWeight.Bold, none⟩ ∧
    (((SyntaxHighlighter.fresh.setTheme "Light").setLanguage Language.CPlusPlus).setTheme
        "Dark").getFormat "keyword"
      = ⟨some GlobalColor.cyan, some FontWeight.Bold, none⟩ := by
  refine ⟨?_, by decide, by decide⟩
  intro lib self themeName context text
  obtain ⟨h1, h2, h3⟩ := setTheme_rules self themeName
  unfold SyntaxHighlighter.highlightBlock
  rw [h1, h2, h3]

/-- C25: `highlightBlock` returns the context unchanged when highlighting is disabled.
When it is enabled, the block states are unchanged and, for every character position
`i` of the block, the final format is the format of the last rule of the sequence
(language rules ++ custom rules) that has a match covering `i`, and the format the
position had before (the empty format in a fresh context) when no rule has one. -/
theorem C25_last_rule_wins (lib : RegexLibrary) (self : SyntaxHighlighter)
    (context : BlockContext) (text : List Char) :
    (self.enabled = false → self.highlightBlock lib context text = context) ∧
    (self.enabled = true →
      (self.highlightBlock lib context text).previousBlockState = context.previousBlockState ∧
      (self.highlightBlock lib context text).currentBlockState = context.currentBlockState ∧
      (self.highlightBlock lib context text).formatChanges.length
        = context.formatChanges.length ∧
      ∀ i, i < context.formatChanges.length →
        (self.highlightBlock lib context text).formatChanges[i]? =
          match (self.highlightingRules ++ self.customRules).reverse.find?
              fun r => covers lib text r i with
          | some rule => some rule.format
          | none => context.formatChanges[i]?) := by
  constructor
  · intro h
    unfold SyntaxHighlighter.highlightBlock
    simp [h]
  · intro h
    have hb : self.highlightBlock lib context text =
        { previousBlockState := context.previousBlockState,
          currentBlockState := context.currentBlockState,
          formatChanges :=
            List.foldl (applyRule lib text) context.formatChanges
              (self.highlightingRules ++ self.customRules) } := by
      unfold SyntaxHighlighter.highlightBlock
      simp [h, List.foldl_append]
    rw [hb]
    refine ⟨rfl, rfl, foldl_applyRule_length lib text _ _, ?_⟩
    intro i hi
    exact getElem?_foldl_applyRule lib text i _ _ hi

/-- Witness for C25: with the light theme and C++, and a custom rule for "in" added,
the line "int x" has the custom format on "in" (the custom rule is applied last), the
keyword format on "t", and the empty format on " x". -/
theorem C25_last_rule_wins_witness :
    ((((SyntaxHighlighter.fresh.setTheme "Light").setLanguage Language.CPlusPlus).addCustomRule
          ⟨⟨"in".toList, false⟩, ⟨some GlobalColor.magenta, none, none⟩⟩).highlightBlock
        RegexLibrary.literalOnly (BlockContext.start (-1) "int x".toList)
        "int x".toList).formatChanges
      = [⟨some GlobalColor.magenta, none, none⟩, ⟨some GlobalColor.magenta, none, none⟩,
          ⟨some GlobalColor.blue, some FontWeight.Bold, none⟩, QTextCharFormat.empty,
          QTextCharFormat.empty] ∧
    ((((SyntaxHighlighter.fresh.setTheme "Light").setLanguage Language.CPlusPlus).addCustomRule
          ⟨⟨"in".toList, false⟩, ⟨some GlobalColor.magenta, none, none⟩⟩).highlightBlock
        RegexLibrary.literalOnly (BlockContext.start (-1) "int x".toList)
        "int x".toList).currentBlockState
      = (BlockContext.start (-1) "int x".toList).currentBlockState :=
  ⟨by decide,
    ((C25_last_rule_wins RegexLibrary.literalOnly
      (((SyntaxHighlighter.fresh.setTheme "Light").setLanguage Language.CPlusPlus).addCustomRule
        ⟨⟨"in".toList, false⟩, ⟨some GlobalColor.magenta, none, none⟩⟩)
      (BlockContext.start (-1) "int x".toList) "int x".toList).2 (by decide)).2.1⟩

/-- C26, evaluated on the code: `highlightBlock` neither reads the state of the
previous block nor sets the state of the current one, so the tags of a line do not
depend on the state carried over.  With C++ selected, the line "/* note" leaves the
block state at -1 (not `InCppComment`), and the line "int x; */" entered with the
previous state `InCppComment` gets the keyword format on "int" and no format at all
on the rest. -/
theorem C26_highlightBlock_ignores_state :
    (∀ (lib : RegexLibrary) (self : SyntaxHighlighter) (p1 c1 p2 c2 : Int)
        (changes : List QTextCharFormat) (text : List Char),
      (self.highlightBlock lib ⟨p1, c1, changes⟩ text).formatChanges
        = (self.highlightBlock lib ⟨p2, c2, changes⟩ text).formatChanges ∧
      (self.highlightBlock lib ⟨p1, c1, changes⟩ text).currentBlockState = c1) ∧
    (((SyntaxHighlighter.fresh.setTheme "Light").setLanguage Language.CPlusPlus).highlightBlock
        RegexLibrary.literalOnly (BlockContext.start (-1) "/* note".toList)
        "/* note".toList)
      = BlockContext.start (-1) "/* note".toList ∧
    (((SyntaxHighlighter.fresh.setTheme "Light").setLanguage Language.CPlusPlus).highlightBlock
        RegexLibrary.literalOnly (BlockContext.start stateInCppComment "int x; */".toList)
        "int x; */".toList).formatChanges
      = List.replicate 3 ⟨some GlobalColor.blue, some FontWeight.Bold, none⟩
          ++ List.replicate 6 QTextCharFormat.empty := by
  refine ⟨?_, by decide, by decide⟩
  intro lib self p1 c1 p2 c2 changes text
  unfold SyntaxHighlighter.highlightBlock
  cases self.enabled <;> exact ⟨rfl, rfl⟩

/-- C30: when every match of the start pattern and of the end pattern in the line lies
at or after the offset it is sought from, inside the line, and is not empty,
`highlightMultilineComment` ends within `length(text) + 2` iterations for every
incoming state; an iteration entered with a scan start `i <= length(text)` tags a span
of positive length or is the last one, and the next scan start, if there is one, is
greater than `i` and less than `length(text)`. -/
theorem C30_multiline_terminates (lib : RegexLibrary) (self : SyntaxHighlighter)
    (context : BlockContext) (text : List Char)
    (startExpression endExpression : QRegularExpression) (state : Int)
    (hstart : ProperMatches lib startExpression text)
    (hend : ProperMatches lib endExpression text) :
    (∃ result, self.highlightMultilineComment lib context text startExpression endExpression
        state = some result) ∧
    (∀ (i : Nat) (c : BlockContext), i ≤ text.length →
      (0 < (multilineStep lib self text startExpression endExpression state i c).2.1 ∨
        (multilineStep lib self text startExpression endExpression state i c).2.2 = none) ∧
      (∀ j, (multilineStep lib self text startExpression endExpression state i c).2.2 = some j →
        i < j ∧ j < text.length)) := by
  constructor
  · unfold SyntaxHighlighter.highlightMultilineComment
    apply multilineLoop_terminates lib self text startExpression endExpression state hstart hend
    intro i hi
    unfold multilineStart at hi
    split at hi
    · simp only [Option.some.injEq] at hi
      omega
    · have := indexOf_proper lib startExpression text hstart 0 i hi
      omega
  · intro i c hi
    exact multilineStep_progress lib self text startExpression endExpression state hstart hend
      i c hi

/-- Witness for C30: the patterns `/\*` and `\*/` on the line "a /* b */ c /* d". -/
theorem C30_multiline_terminates_witness :
    ∃ result, SyntaxHighlighter.highlightMultilineComment RegexLibrary.literalOnly
        (SyntaxHighlighter.fresh.setTheme "Light")
        (BlockContext.start stateInCppComment "a /* b */ c /* d".toList)
        "a /* b */ c /* d".toList ⟨"/\\*".toList, false⟩ ⟨"\\*/".toList, false⟩
        stateInCppComment = some result :=
  (C30_multiline_terminates RegexLibrary.literalOnly (SyntaxHighlighter.fresh.setTheme "Light")
    (BlockContext.start stateInCppComment "a /* b */ c /* d".toList)
    "a /* b */ c /* d".toList ⟨"/\\*".toList, false⟩ ⟨"\\*/".toList, false⟩ stateInCppComment
    (properMatches_of_parse _ _ _ [Search.Atom.lit '/', Search.Atom.lit '*'] (by decide)
      (by decide))
    (properMatches_of_parse _ _ _ [Search.Atom.lit '*', Search.Atom.lit '/'] (by decide)
      (by decide))).1

end Highlight
